import Mathlib

/-!
# Verification of the SIL dead-code-elimination pass

This file gives a shallow embedding of `lib/SIL/Passes/DeadCodeElimination.cpp`
and proves or refutes the specified properties of its operations:
`isInstructionTriviallyDead`, `recursivelyDeleteTriviallyDeadInstructions`,
`eraseAndCleanup`, `constantFoldTerminator`, `isCallToNoReturn`,
`simplifyBlocksWithCallsToNoReturn`, `removeUnreachableBlocks` and the driver
`performSILDeadCodeElimination`.

The SIL graph is embedded as follows: instructions are identified by natural
numbers; a module stores an association list from instruction ids to
instruction data, an association list from values to their use-lists
(a use is a pair of a using instruction id and an operand index, mirroring
SIL's intrusive `Operand` lists), and the function/block structure.  The
statistics counters `NumInstructionsRemoved` / `NumBlocksRemoved` are carried
as module fields.  A value (`SILValue`) is either the result of an instruction
or a basic-block argument; `Operand::drop()` is embedded as setting the operand
slot to `none` and removing the corresponding `(user, index)` entry from the
value's use-list.
-/

namespace DCE

/-- A SIL value: the result of an instruction, or a basic-block argument
(`dyn_cast<SILInstruction>(V.getDef())` succeeds exactly on the first form). -/
inductive V where
  | inst (i : Nat)
  | arg (b : Nat) (k : Nat)
deriving DecidableEq, Repr

/-- The instruction shapes distinguished by the pass.  `apply` records whether
the callee's type resolves to a function type (`getAs<FunctionType>` succeeds)
and whether that type is marked no-return; `intLit` is a single-bit integer
literal (its one-bit `APInt` payload is a `Bool`); `condBr` stores the two
successor block ids and the lengths of the true/false argument lists (its
operand list is condition :: true args ++ false args); `br` stores its
successor (operands are the branch arguments); `unreachable` and `ret` are
the remaining terminators; `other` is any other non-terminator. -/
inductive IKind where
  | apply (calleeIsFn : Bool) (noReturn : Bool)
  | intLit (bit : Bool)
  | condBr (tDest fDest : Nat) (nT nF : Nat)
  | br (dest : Nat)
  | unreachable
  | ret
  | other
deriving DecidableEq, Repr

/-- `isa<TermInst>`. -/
def isTermKind : IKind → Bool
  | .condBr _ _ _ _ => true
  | .br _ => true
  | .unreachable => true
  | .ret => true
  | _ => false

/-- An instruction: ordered operand slots (a dropped operand is `none`),
the `mayHaveSideEffects` flag, and its shape. -/
structure Inst where
  operands : List (Option V)
  sideEffects : Bool
  kind : IKind
deriving DecidableEq, Repr

/-- A basic block: its identity, its number of block arguments, and the
ordered list of the ids of its instructions (the last one is the
terminator). -/
structure Block where
  id : Nat
  nArgs : Nat
  instrs : List Nat
deriving DecidableEq, Repr

/-- A function: an ordered list of blocks, the first being the entry block. -/
structure Func where
  blocks : List Block
deriving DecidableEq, Repr

/-- A module plus the pass's statistics counters.  `insts` maps live
instruction ids to their data; `useLists` maps a value to its use-list, a
list of (using instruction id, operand index) pairs; `nextId` is the id the
builder gives to the next created instruction. -/
structure Module where
  insts : List (Nat × Inst)
  useLists : List (V × List (Nat × Nat))
  funcs : List Func
  nextId : Nat
  numInstructionsRemoved : Nat
  numBlocksRemoved : Nat
deriving DecidableEq, Repr

/-- Look up a live instruction by id. -/
def findInst (M : Module) (i : Nat) : Option Inst :=
  (M.insts.find? (fun p => p.1 = i)).map (·.2)

/-- The use-list of a value (empty if the value has no entry). -/
def useOf (M : Module) (v : V) : List (Nat × Nat) :=
  ((M.useLists.find? (fun p => p.1 = v)).map (·.2)).getD []

/-- Replace the data of a live instruction (no-op on absent ids). -/
def setInst (M : Module) (i : Nat) (I : Inst) : Module :=
  { M with insts := M.insts.map (fun p => if p.1 = i then (i, I) else p) }

/-- Overwrite the use-list of a value. -/
def setUses (M : Module) (v : V) (l : List (Nat × Nat)) : Module :=
  if (M.useLists.find? (fun p => p.1 = v)).isSome then
    { M with useLists := M.useLists.map (fun p => if p.1 = v then (v, l) else p) }
  else
    { M with useLists := (v, l) :: M.useLists }

/-- `Operand::drop()` for slot `k` of instruction `u`: clear the slot and
remove the use `(u, k)` from the referenced value's use-list. -/
def dropOperand (M : Module) (u k : Nat) : Module :=
  match findInst M u with
  | none => M
  | some I =>
    match I.operands.get? k with
    | some (some v) =>
        let M1 := setInst M u { I with operands := I.operands.set k none }
        setUses M1 v ((useOf M1 v).filter (fun e => ¬ e = (u, k)))
    | _ => M

/-- Remove instruction id `i` from every block's instruction list. -/
def removeFromBlocks (M : Module) (i : Nat) : Module :=
  { M with funcs := M.funcs.map (fun F =>
      { blocks := F.blocks.map (fun B =>
          { B with instrs := B.instrs.filter (fun j => ¬ j = i) }) }) }

/-- `SILInstruction::eraseFromParent()`: unlink the instruction from its block
and destroy it (the callers have already dropped its operand references). -/
def eraseFromParent (M : Module) (i : Nat) : Module :=
  let M1 := removeFromBlocks { M with insts := M.insts.filter (fun p => ¬ p.1 = i) } i
  { M1 with useLists := M1.useLists.filter (fun p => ¬ p.1 = V.inst i) }

/-- Append instruction id `i` at the end of block `b` (the builder's insertion
point `SILBuilder(&BB)` is the block's end). -/
def appendToBlock (M : Module) (b : Nat) (i : Nat) : Module :=
  { M with funcs := M.funcs.map (fun F =>
      { blocks := F.blocks.map (fun B =>
          if B.id = b then { B with instrs := B.instrs ++ [i] } else B) }) }

/-- Register the use `e` on value `v`. -/
def addUse (M : Module) (v : V) (e : Nat × Nat) : Module :=
  setUses M v (e :: useOf M v)

/-- Register all (non-dropped) operands of a freshly built instruction `u`
in the use-lists of the referenced values, starting at slot `k`. -/
def registerUses (M : Module) (u : Nat) : List (Option V) → Nat → Module
  | [], _ => M
  | none :: rest, k => registerUses M u rest (k + 1)
  | some v :: rest, k => registerUses (addUse M v (u, k)) u rest (k + 1)

/-- The builder: create a fully linked instruction at the end of block `b`,
returning the new module and the new instruction's id. -/
def createInst (M : Module) (b : Nat) (I : Inst) : Module × Nat :=
  let i := M.nextId
  let M1 := { M with insts := (i, I) :: M.insts, nextId := i + 1 }
  let M2 := appendToBlock M1 b i
  (registerUses M2 i I.operands 0, i)

/-- `SILValue::use_empty()`. -/
def use_empty (M : Module) (v : V) : Bool :=
  (useOf M v).isEmpty

/-- `isInstructionTriviallyDead` (DeadCodeElimination.cpp:25-33): false if the
instruction has uses or is a terminator; true if it has no side effects;
false otherwise. -/
def isInstructionTriviallyDead (M : Module) (i : Nat) : Bool :=
  match findInst M i with
  | none => false
  | some I =>
    if ¬ use_empty M (V.inst i) ∨ isTermKind I.kind then false
    else if ¬ I.sideEffects then true
    else false

/-- Drop operand slots `k, k+1, ...` of instruction `u` (`fuel` many of them),
collecting — as the worklist body of
`recursivelyDeleteTriviallyDeadInstructions` does — each operand's defining
instruction if, right after the drop, it is trivially dead.  The returned
list is in operand order. -/
def dropCollect (M : Module) (u : Nat) : Nat → Nat → Module × List Nat
  | 0, _ => (M, [])
  | fuel + 1, k =>
    let opv := (findInst M u).bind (fun I => I.operands.get? k)
    let M1 := dropOperand M u k
    let cand : List Nat :=
      match opv with
      | some (some (V.inst j)) => if isInstructionTriviallyDead M1 j then [j] else []
      | _ => []
    let p := dropCollect M1 u fuel (k + 1)
    (p.1, cand ++ p.2)

/-- Drop all operands of `u`, collecting the newly trivially dead definers. -/
def dropAndCollect (M : Module) (u : Nat) : Module × List Nat :=
  match findInst M u with
  | none => (M, [])
  | some I => dropCollect M u I.operands.length 0

/-- Drop operand slots `k, k+1, ...` of instruction `u` without collecting
anything (`SILInstruction::dropAllReferences`). -/
def dropRefs (M : Module) (u : Nat) : Nat → Nat → Module
  | 0, _ => M
  | fuel + 1, k => dropRefs (dropOperand M u k) u fuel (k + 1)

/-- `dropAllReferences()` on instruction `u`. -/
def dropAllRefs (M : Module) (u : Nat) : Module :=
  match findInst M u with
  | none => M
  | some I => dropRefs M u I.operands.length 0

/-! ### List helpers used by the termination arguments -/

theorem filter_length_lt_of_mem {α : Type} {l : List α} {p : α → Bool} {x : α}
    (hx : x ∈ l) (hpx : p x = false) : (l.filter p).length < l.length := by
  induction l with
  | nil => cases hx
  | cons a t ih =>
    rcases List.mem_cons.mp hx with rfl | hx'
    · simp only [List.filter_cons, hpx, List.length_cons]
      exact Nat.lt_succ_of_le (List.length_filter_le p t)
    · simp only [List.filter_cons, List.length_cons]
      cases p a
      · exact Nat.lt_succ_of_lt (ih hx')
      · simpa using Nat.succ_lt_succ (ih hx')

theorem filter_length_le_of_imp {α : Type} {p q : α → Bool}
    (h : ∀ a, p a = true → q a = true) (l : List α) :
    (l.filter p).length ≤ (l.filter q).length := by
  induction l with
  | nil => simp
  | cons a t ih =>
    simp only [List.filter_cons]
    cases hp : p a
    · cases q a
      · exact ih
      · exact Nat.le_succ_of_le ih
    · rw [h a hp]
      simpa using ih

theorem filter_length_lt_of_imp {α : Type} {p q : α → Bool} {l : List α} {x : α}
    (h : ∀ a, p a = true → q a = true) (hx : x ∈ l)
    (hqx : q x = true) (hpx : p x = false) :
    (l.filter p).length < (l.filter q).length := by
  induction l with
  | nil => cases hx
  | cons a t ih =>
    rcases List.mem_cons.mp hx with rfl | hx'
    · simp only [List.filter_cons, hpx, hqx, List.length_cons]
      exact Nat.lt_succ_of_le (filter_length_le_of_imp h t)
    · simp only [List.filter_cons]
      cases hp : p a
      · cases hq : q a
        · exact ih hx'
        · exact Nat.lt_succ_of_lt (ih hx')
      · rw [h a hp]
        simpa using Nat.succ_lt_succ (ih hx')

/-! ### Live-instruction bookkeeping for termination -/

/-- The ids of the instructions currently alive in the module. -/
def liveIds (M : Module) : List Nat := M.insts.map (·.1)

theorem liveIds_setInst (M : Module) (i : Nat) (I : Inst) :
    liveIds (setInst M i I) = liveIds M := by
  simp only [liveIds, setInst, List.map_map]
  refine List.map_congr_left (fun p _ => ?_)
  by_cases h : p.1 = i <;> simp [h, Function.comp]

theorem liveIds_setUses (M : Module) (v : V) (l : List (Nat × Nat)) :
    liveIds (setUses M v l) = liveIds M := by
  unfold setUses
  split <;> rfl

theorem liveIds_dropOperand (M : Module) (u k : Nat) :
    liveIds (dropOperand M u k) = liveIds M := by
  unfold dropOperand
  cases h1 : findInst M u with
  | none => rfl
  | some I =>
    dsimp only
    split
    · simp [liveIds_setUses, liveIds_setInst]
    · rfl

theorem findInst_isSome_iff (M : Module) (i : Nat) :
    (findInst M i).isSome ↔ i ∈ liveIds M := by
  unfold findInst liveIds
  cases hf : List.find? (fun p => decide (p.1 = i)) M.insts with
  | none =>
    rw [List.find?_eq_none] at hf
    simp only [Option.map_none', Option.isSome_none, Bool.false_eq_true, false_iff]
    intro hmem
    obtain ⟨p, hp, hpi⟩ := List.mem_map.mp hmem
    exact absurd (by simpa using hpi) (by simpa using hf p hp)
  | some p =>
    have hp := List.find?_some hf
    have hmem := List.mem_of_find?_eq_some hf
    simp only [Option.map_some', Option.isSome_some, true_iff]
    exact List.mem_map.mpr ⟨p, hmem, by simpa using hp⟩

theorem liveIds_dropCollect (u : Nat) :
    ∀ (fuel : Nat) (M : Module) (k : Nat), liveIds (dropCollect M u fuel k).1 = liveIds M := by
  intro fuel
  induction fuel with
  | zero => intro M k; rfl
  | succ n ih =>
    intro M k
    simp only [dropCollect]
    rw [ih, liveIds_dropOperand]

theorem liveIds_dropAndCollect (M : Module) (u : Nat) :
    liveIds (dropAndCollect M u).1 = liveIds M := by
  unfold dropAndCollect
  cases findInst M u with
  | none => rfl
  | some I => exact liveIds_dropCollect u I.operands.length M 0

theorem eraseFromParent_insts (M : Module) (i : Nat) :
    (eraseFromParent M i).insts = M.insts.filter (fun p => ¬ p.1 = i) := rfl

theorem eraseFromParent_length_lt (M : Module) (i : Nat)
    (h : (findInst M i).isSome) :
    (eraseFromParent M i).insts.length < M.insts.length := by
  rw [eraseFromParent_insts]
  rw [findInst_isSome_iff] at h
  simp only [liveIds, List.mem_map] at h
  obtain ⟨p, hp, hpi⟩ := h
  exact filter_length_lt_of_mem hp (by simp [hpi])

theorem liveIds_length (M : Module) : (liveIds M).length = M.insts.length :=
  List.length_map _ _

/-! ### The cascading deleter -/

/-- The worklist loop of `recursivelyDeleteTriviallyDeadInstructions`
(DeadCodeElimination.cpp:45-69): pop an instruction, drop each of its
operands (collecting operand-defining instructions that become trivially
dead), then erase it from its block.  The collected instructions are pushed
LIFO, as `SmallVector::push_back`/`pop_back_val` do. -/
def rdtdiLoop (M : Module) (stack : List Nat) : Module :=
  match stack with
  | [] => M
  | i :: rest =>
    if hfi : (findInst M i).isSome = true then
      let p := dropAndCollect M i
      rdtdiLoop (eraseFromParent p.1 i) (p.2.reverse ++ rest)
    else rdtdiLoop M rest
termination_by (M.insts.length, stack.length)
decreasing_by
  · apply Prod.Lex.left
    have h1 : liveIds (dropAndCollect M i).1 = liveIds M := liveIds_dropAndCollect M i
    have h2 : (findInst (dropAndCollect M i).1 i).isSome := by
      rw [findInst_isSome_iff, h1, ← findInst_isSome_iff]
      exact hfi
    have h3 := eraseFromParent_length_lt _ i h2
    have h4 : (dropAndCollect M i).1.insts.length = M.insts.length := by
      rw [← liveIds_length, ← liveIds_length, h1]
    omega
  · exact Prod.Lex.right _ (Nat.lt_succ_self _)

/-- `recursivelyDeleteTriviallyDeadInstructions`
(DeadCodeElimination.cpp:39-72): a no-op returning false unless the
instruction is trivially dead; otherwise runs the worklist loop seeded with
it and returns true. -/
def recursivelyDeleteTriviallyDeadInstructions (M : Module) (i : Nat) : Module × Bool :=
  if isInstructionTriviallyDead M i then (rdtdiLoop M [i], true) else (M, false)

/-! ### The set deleter `eraseAndCleanup` -/

/-- Phase 1 of `eraseAndCleanup` (DeadCodeElimination.cpp:83-97): for each
instruction of the set, collect every operand-defining instruction that is
not itself in the set into the deduplicated "possibly dead" list, then drop
all of the instruction's references. -/
def phase1 (toDel : List Nat) : List Nat → Module → List Nat → Module × List Nat
  | [], M, acc => (M, acc)
  | d :: rest, M, acc =>
    match findInst M d with
    | none => phase1 toDel rest M acc
    | some I =>
      let acc' := I.operands.foldl (fun a op =>
        match op with
        | some (V.inst j) => if toDel.contains j ∨ a.contains j then a else a ++ [j]
        | _ => a) acc
      phase1 toDel rest (dropAllRefs M d) acc'

/-- Phase 2 of `eraseAndCleanup` (DeadCodeElimination.cpp:100-102): run the
cascading deleter over every "possibly dead" candidate.  The accumulator
mirrors the source's `AdditionalChanged &= recursivelyDelete...(*II)`. -/
def phase2 : List Nat → Module → Bool → Module × Bool
  | [], M, acc => (M, acc)
  | c :: rest, M, acc =>
    let r := recursivelyDeleteTriviallyDeadInstructions M c
    phase2 rest r.1 (acc && r.2)

/-- `eraseAndCleanup` over a set (DeadCodeElimination.cpp:78-111): phase 1
collects candidates and drops references, phase 2 cleans up the candidates,
and finally every member of the set is erased from its block.  `AdditionalChanged`
starts out false. -/
def eraseAndCleanup (M : Module) (toDel : List Nat) : Module × Bool :=
  let p1 := phase1 toDel toDel M []
  let p2 := phase2 p1.2 p1.1 false
  (toDel.foldl (fun m d => eraseFromParent m d) p2.1, p2.2)

/-- The single-instruction overload of `eraseAndCleanup`
(DeadCodeElimination.cpp:115-119). -/
def eraseAndCleanupOne (M : Module) (i : Nat) : Module × Bool :=
  eraseAndCleanup M [i]

/-! ### Terminator constant folding -/

/-- All blocks of the module, in order. -/
def allBlocks (M : Module) : List Block :=
  M.funcs.flatMap (·.blocks)

/-- Look up a block by id. -/
def findBlock (M : Module) (b : Nat) : Option Block :=
  (allBlocks M).find? (fun B => B.id = b)

/-- `SILBasicBlock::getTerminator()`: the block's last instruction. -/
def getTerminatorId (M : Module) (b : Nat) : Option Nat :=
  (findBlock M b).bind (fun B => B.instrs.getLast?)

/-- The pattern guard of `constantFoldTerminator`
(DeadCodeElimination.cpp:125-130): the block's terminator is a conditional
branch whose condition is defined by an integer-literal instruction.  Returns
the terminator's id and data together with the literal's one-bit value. -/
def condBrLiteral (M : Module) (b : Nat) : Option (Nat × Inst × Bool) :=
  match getTerminatorId M b with
  | none => none
  | some ti =>
    match findInst M ti with
    | none => none
    | some TI =>
      match TI.kind with
      | .condBr _ _ _ _ =>
        match TI.operands.get? 0 with
        | some (some (V.inst ci)) =>
          match findInst M ci with
          | some CI =>
            match CI.kind with
            | .intLit bit => some (ti, TI, bit)
            | _ => none
          | none => none
        | _ => none
      | _ => none

/-- `constantFoldTerminator` (DeadCodeElimination.cpp:121-155): on a
conditional branch with a literal condition, build an unconditional branch
to the literal's successor (bit 0 selects the false successor and its
argument list, otherwise the true successor — the source asserts the value
is then 1, which is forced here since a one-bit literal is a `Bool`), insert
it at the block's end, delete the old terminator through the cascading
set-deleter, and return true; otherwise change nothing and return false. -/
def constantFoldTerminator (M : Module) (b : Nat) : Module × Bool :=
  match condBrLiteral M b with
  | none => (M, false)
  | some (ti, TI, bit) =>
    match TI.kind with
    | .condBr tDest fDest nT nF =>
      let args := if bit then (TI.operands.drop 1).take nT
                  else (TI.operands.drop (1 + nT)).take nF
      let dest := if bit then tDest else fDest
      let M1 := (createInst M b { operands := args, sideEffects := false, kind := .br dest }).1
      ((eraseAndCleanup M1 [ti]).1, true)
    | _ => (M, false)

/-! ### No-return calls -/

/-- `isCallToNoReturn` (DeadCodeElimination.cpp:157-166) on an apply whose
callee type does (`calleeIsFn`) or does not resolve to a function type.
The first component is the returned classification; the second records
whether the `assert(false)` on the fall-through path fires (it aborts the
pass in assertion-enabled builds; with assertions disabled the function
returns false). -/
def isCallToNoReturn (calleeIsFn noReturn : Bool) : Bool × Bool :=
  if calleeIsFn then (noReturn, false) else (false, true)

/-- The scanning loop of `simplifyBlocksWithCallsToNoReturn`
(DeadCodeElimination.cpp:176-199): walk the block's instructions in order;
once a call classified no-return has been seen, collect every following
instruction (the terminator included) for deletion. -/
def scanNoReturn (M : Module) : List Nat → Bool → List Nat → Bool × List Nat
  | [], found, acc => (found, acc)
  | i :: rest, true, acc => scanNoReturn M rest true (acc ++ [i])
  | i :: rest, false, acc =>
    match findInst M i with
    | some I =>
      match I.kind with
      | .apply c n => scanNoReturn M rest (isCallToNoReturn c n).1 acc
      | _ => scanNoReturn M rest false acc
    | none => scanNoReturn M rest false acc

/-- `simplifyBlocksWithCallsToNoReturn` (DeadCodeElimination.cpp:168-213):
if the block contains a call to a no-return function, count and delete every
instruction after the first such call via `eraseAndCleanup`, give the block a
fresh `unreachable` terminator, and return true; otherwise return false with
no change. -/
def simplifyBlocksWithCallsToNoReturn (M : Module) (b : Nat) : Module × Bool :=
  match findBlock M b with
  | none => (M, false)
  | some B =>
    let s := scanNoReturn M B.instrs false []
    if s.1 then
      let M1 := { M with numInstructionsRemoved := M.numInstructionsRemoved + s.2.length }
      let M2 := (eraseAndCleanup M1 s.2).1
      ((createInst M2 b { operands := [], sideEffects := false, kind := .unreachable }).1, true)
    else (M, false)

/-! ### The reachability sweep -/

/-- The successor edges of a block: the successors named by its terminator. -/
def succsOf (M : Module) (b : Nat) : List Nat :=
  match getTerminatorId M b with
  | none => []
  | some ti =>
    match findInst M ti with
    | none => []
    | some I =>
      match I.kind with
      | .condBr t f _ _ => [t, f]
      | .br d => [d]
      | _ => []

/-- The successors of `succs` that `Reachable.insert` newly inserts, given
that `seen` is already in the reachable set, in insertion order. -/
def collectNew (seen : List Nat) : List Nat → List Nat
  | [] => []
  | s :: rest =>
    if seen.contains s then collectNew seen rest
    else s :: collectNew (seen ++ [s]) rest

/-- A finite superset of every id the worklist can ever visit: all block ids
plus every successor id named by any instruction (used only to justify
termination of the traversal). -/
def idUniverse (M : Module) : List Nat :=
  (allBlocks M).map (·.id) ++ M.insts.flatMap (fun p =>
    match p.2.kind with
    | .condBr t f _ _ => [t, f]
    | .br d => [d]
    | _ => [])

theorem succsOf_subset_idUniverse (M : Module) (b : Nat) :
    ∀ s ∈ succsOf M b, s ∈ idUniverse M := by
  intro s hs
  unfold succsOf at hs
  rcases hti : getTerminatorId M b with _ | ti
  · simp only [hti] at hs; cases hs
  simp only [hti] at hs
  rcases hI : findInst M ti with _ | I
  · simp only [hI] at hs; cases hs
  simp only [hI] at hs
  unfold findInst at hI
  rcases hfind : List.find? (fun p => decide (p.1 = ti)) M.insts with _ | p
  · rw [hfind] at hI; cases hI
  rw [hfind] at hI
  have hmem := List.mem_of_find?_eq_some hfind
  have hp : p.2 = I := by simpa using hI
  apply List.mem_append_right
  apply List.mem_flatMap.mpr
  exact ⟨p, hmem, by rw [hp]; exact hs⟩

theorem collectNew_mem {seen : List Nat} {l : List Nat} {x : Nat}
    (hx : x ∈ collectNew seen l) : x ∈ l ∧ x ∉ seen := by
  induction l generalizing seen with
  | nil => cases hx
  | cons s rest ih =>
    unfold collectNew at hx
    by_cases hc : x = s
    · subst hc
      by_cases hseen : x ∈ seen
      · simp [hseen] at hx
        exact absurd (ih hx).2 (fun h => h hseen)
      · exact ⟨List.mem_cons_self _ _, hseen⟩
    · by_cases hseen : s ∈ seen
      · simp [hseen] at hx
        obtain ⟨h1, h2⟩ := ih hx
        exact ⟨List.mem_cons_of_mem _ h1, h2⟩
      · simp [hseen] at hx
        rcases hx with rfl | hx'
        · exact absurd rfl hc
        · obtain ⟨h1, h2⟩ := ih hx'
          refine ⟨List.mem_cons_of_mem _ h1, fun hm => h2 ?_⟩
          exact List.mem_append_left _ hm

/-- The worklist traversal of `removeUnreachableBlocks`
(DeadCodeElimination.cpp:225-231): pop a block, insert each not-yet-seen
successor into the reachable set and push it (LIFO). -/
def reachLoop (M : Module) : List Nat → List Nat → List Nat
  | [], reach => reach
  | b :: wl, reach =>
    let news := collectNew reach (succsOf M b)
    if news = [] then reachLoop M wl reach
    else reachLoop M (news.reverse ++ wl) (reach ++ news)
termination_by wl reach =>
  (((idUniverse M).filter (fun x => ¬ reach.contains x)).length, wl.length)
decreasing_by
  · exact Prod.Lex.right _ (Nat.lt_succ_self _)
  · rename_i hne
    apply Prod.Lex.left
    obtain ⟨s, hs⟩ := List.exists_mem_of_ne_nil _ hne
    obtain ⟨hs1, hs2⟩ := collectNew_mem hs
    refine filter_length_lt_of_imp (fun a ha => ?_)
      (succsOf_subset_idUniverse M b s hs1) (by simpa using hs2) ?_
    · simp only [decide_eq_true_eq] at ha ⊢
      intro hmem
      exact ha (by simp at hmem ⊢; exact Or.inl hmem)
    · simp [hs]


/-- The blocks of function number `fIdx`. -/
def funcBlocks (M : Module) (fIdx : Nat) : List Block :=
  ((M.funcs.get? fIdx).map (·.blocks)).getD []

/-- Replace the block list of function number `fIdx`. -/
def setFuncBlocks (M : Module) (fIdx : Nat) (bs : List Block) : Module :=
  { M with funcs := M.funcs.set fIdx { blocks := bs } }

/-- `removeUnreachableBlocks` (DeadCodeElimination.cpp:215-266): a no-op
returning false on an empty function; otherwise compute the blocks reachable
from the entry block by the worklist traversal; if the reachable set covers
the function, return false with no change; otherwise (1) delete each
unreachable block's terminator through the cascading set-deleter, (2) collect
all remaining instructions of unreachable blocks and delete them the same
way, and (3) erase the unreachable blocks, counting them, and return true.  -/
def removeUnreachableBlocks (M : Module) (fIdx : Nat) : Module × Bool :=
  match M.funcs.get? fIdx with
  | none => (M, false)
  | some F =>
    match F.blocks.head? with
    | none => (M, false)
    | some entry =>
      let reachable := reachLoop M [entry.id] [entry.id]
      if reachable.length = F.blocks.length then (M, false)
      else
        let M1 := (F.blocks.filter (fun B => ¬ reachable.contains B.id)).foldl
          (fun m B =>
            match getTerminatorId m B.id with
            | some t => (eraseAndCleanup m [t]).1
            | none => m) M
        let toDel := ((funcBlocks M1 fIdx).filter
            (fun B => ¬ reachable.contains B.id)).flatMap (·.instrs)
        let M2 := (eraseAndCleanup M1 toDel).1
        let kept := (funcBlocks M2 fIdx).filter (fun B => reachable.contains B.id)
        let removed := (funcBlocks M2 fIdx).length - kept.length
        let M3 := setFuncBlocks M2 fIdx kept
        ({ M3 with numBlocksRemoved := M3.numBlocksRemoved + removed }, true)

/-! ### The pass driver -/

/-- The per-function block loop of `performSILDeadCodeElimination`
(DeadCodeElimination.cpp:274-283): constant-fold the block's terminator and,
only if that did not fire, truncate the block after a no-return call. -/
def processBlocks (M : Module) : List Nat -> Module
  | [] => M
  | b :: rest =>
    let r := constantFoldTerminator M b
    if r.2 then processBlocks r.1 rest
    else processBlocks (simplifyBlocksWithCallsToNoReturn r.1 b).1 rest

/-- Process one function: run the block loop over its blocks, then sweep
unreachable blocks (DeadCodeElimination.cpp:273-287). -/
def processFunction (M : Module) (fIdx : Nat) : Module :=
  match M.funcs.get? fIdx with
  | none => M
  | some F => (removeUnreachableBlocks (processBlocks M (F.blocks.map (·.id))) fIdx).1

/-- `performSILDeadCodeElimination` (DeadCodeElimination.cpp:272-288). -/
def performSILDeadCodeElimination (M : Module) : Module :=
  (List.range M.funcs.length).foldl processFunction M

/-! ### Operation sequences (for the def-use invariant) -/

/-- One operation of the pass, as enumerated by the def-use-consistency
claim: the liveness test, the cascading deleter, the set deleter, constant
folding of a block terminator, no-return truncation of a block, and the
per-function reachability sweep. -/
inductive PassOp where
  | liveTest (i : Nat)
  | cascadeDelete (i : Nat)
  | setDelete (l : List Nat)
  | constFold (b : Nat)
  | truncate (b : Nat)
  | sweep (f : Nat)

/-- Apply one operation of the pass to the module (the liveness test is a
pure query and leaves the module unchanged). -/
def applyOp (M : Module) : PassOp -> Module
  | .liveTest i => let _ := isInstructionTriviallyDead M i; M
  | .cascadeDelete i => (recursivelyDeleteTriviallyDeadInstructions M i).1
  | .setDelete l => (eraseAndCleanup M l).1
  | .constFold b => (constantFoldTerminator M b).1
  | .truncate b => (simplifyBlocksWithCallsToNoReturn M b).1
  | .sweep f => (removeUnreachableBlocks M f).1

/-- Run a sequence of pass operations. -/
def runOps (M : Module) (ops : List PassOp) : Module :=
  ops.foldl applyOp M


/-! ### Def-use consistency -/

/-- A value is alive: an instruction value is alive while its instruction is
in the module, a block-argument value while its block is in some function and
its index is within the block's argument count. -/
def liveV (M : Module) : V → Prop
  | .inst i => findInst M i ≠ none
  | .arg b k => ∃ B ∈ allBlocks M, B.id = b ∧ k < B.nArgs

instance (M : Module) (v : V) : Decidable (liveV M v) := by
  cases v with
  | inst i => exact inferInstanceAs (Decidable (findInst M i ≠ none))
  | arg b k => exact inferInstanceAs (Decidable (∃ B ∈ allBlocks M, B.id = b ∧ k < B.nArgs))

/-- A use-list key references no instruction id the builder has not issued. -/
def keyFresh (n : Nat) : V → Prop
  | .inst j => j < n
  | .arg _ _ => True

instance (n : Nat) (v : V) : Decidable (keyFresh n v) := by
  cases v with
  | inst j => exact inferInstanceAs (Decidable (j < n))
  | arg b k => exact inferInstanceAs (Decidable True)

/-- An operand slot references no instruction id the builder has not issued. -/
def slotFresh (n : Nat) : Option V → Prop
  | some (.inst j) => j < n
  | _ => True

instance (n : Nat) (op : Option V) : Decidable (slotFresh n op) := by
  rcases op with _ | v
  · exact inferInstanceAs (Decidable True)
  · cases v with
    | inst j => exact inferInstanceAs (Decidable (j < n))
    | arg b k => exact inferInstanceAs (Decidable True)

/-- The instruction `uk.1` is live and its operand slot `uk.2` references `v`. -/
def userHasSlot (M : Module) (uk : Nat × Nat) (v : V) : Prop :=
  match findInst M uk.1 with
  | some I => I.operands.get? uk.2 = some (some v)
  | none => False

instance (M : Module) (uk : Nat × Nat) (v : V) : Decidable (userHasSlot M uk v) := by
  unfold userHasSlot
  rcases findInst M uk.1 with _ | I
  · exact inferInstanceAs (Decidable False)
  · exact inferInstanceAs (Decidable (I.operands.get? uk.2 = some (some v)))

/-- If the slot holds a value that is alive, the use `(u, k)` is recorded in
that value's use-list. -/
def slotBack (M : Module) (u : Nat) (op : Option V) (k : Nat) : Prop :=
  match op with
  | some v => liveV M v → (u, k) ∈ useOf M v
  | none => True

instance (M : Module) (u : Nat) (op : Option V) (k : Nat) :
    Decidable (slotBack M u op k) := by
  rcases op with _ | v
  · exact inferInstanceAs (Decidable True)
  · exact inferInstanceAs (Decidable (liveV M v → (u, k) ∈ useOf M v))

/-- Def-use consistency (plus the bookkeeping invariants that make it
meaningful): instruction ids, use-list keys and block ids are duplicate-free;
every recorded id is below the builder's `nextId` (so a freshly built
instruction can never collide with or be referenced by existing state); and,
centrally, for every *live* value the use-list is duplicate-free and contains
exactly the pairs `(u, k)` such that live instruction `u` references the value
in its operand slot `k`. -/
structure WF (M : Module) : Prop where
  instKeysNodup : (M.insts.map (·.1)).Nodup
  useKeysNodup : (M.useLists.map (·.1)).Nodup
  blockIdsNodup : ((allBlocks M).map (·.id)).Nodup
  instKeysFresh : ∀ p ∈ M.insts, p.1 < M.nextId
  slotsFresh : ∀ p ∈ M.insts, ∀ op ∈ p.2.operands, slotFresh M.nextId op
  useKeysFresh : ∀ e ∈ M.useLists, keyFresh M.nextId e.1
  forward : ∀ e ∈ M.useLists, liveV M e.1 →
      (useOf M e.1).Nodup ∧ ∀ uk ∈ useOf M e.1, userHasSlot M uk e.1
  backward : ∀ p ∈ M.insts, ∀ k < p.2.operands.length,
      slotBack M p.1 ((p.2.operands.get? k).join) k

instance (M : Module) : Decidable (WF M) :=
  decidable_of_iff
    ((M.insts.map (·.1)).Nodup ∧
     (M.useLists.map (·.1)).Nodup ∧
     ((allBlocks M).map (·.id)).Nodup ∧
     (∀ p ∈ M.insts, p.1 < M.nextId) ∧
     (∀ p ∈ M.insts, ∀ op ∈ p.2.operands, slotFresh M.nextId op) ∧
     (∀ e ∈ M.useLists, keyFresh M.nextId e.1) ∧
     (∀ e ∈ M.useLists, liveV M e.1 →
        (useOf M e.1).Nodup ∧ ∀ uk ∈ useOf M e.1, userHasSlot M uk e.1) ∧
     (∀ p ∈ M.insts, ∀ k < p.2.operands.length,
        slotBack M p.1 ((p.2.operands.get? k).join) k))
    (by
      constructor
      · rintro ⟨h1, h2, h3, h4, h5, h6, h7, h8⟩
        exact ⟨h1, h2, h3, h4, h5, h6, h7, h8⟩
      · rintro ⟨h1, h2, h3, h4, h5, h6, h7, h8⟩
        exact ⟨h1, h2, h3, h4, h5, h6, h7, h8⟩)

/-! ### Concrete example modules -/

/-- A module with a single pure, unused, non-terminator instruction. -/
def exampleDead : Module :=
  { insts := [(0, { operands := [], sideEffects := false, kind := .other })],
    useLists := [],
    funcs := [{ blocks := [{ id := 0, nArgs := 0, instrs := [0] }] }],
    nextId := 1, numInstructionsRemoved := 0, numBlocksRemoved := 0 }

/-- A module in which the pure literal `10` is used only by instruction `11`:
deleting the set `{11}` makes `10` an additional deletion of the cleanup
phase. -/
def exampleSet : Module :=
  { insts := [(10, { operands := [], sideEffects := false, kind := .intLit true }),
              (11, { operands := [some (V.inst 10)], sideEffects := false, kind := .other })],
    useLists := [(V.inst 10, [(11, 0)])],
    funcs := [{ blocks := [{ id := 0, nArgs := 0, instrs := [10, 11] }] }],
    nextId := 12, numInstructionsRemoved := 0, numBlocksRemoved := 0 }

/-- A module whose single block is a call to a no-return function followed by
a return. -/
def exampleNoRet : Module :=
  { insts := [(0, { operands := [], sideEffects := true, kind := .apply true true }),
              (1, { operands := [], sideEffects := false, kind := .ret })],
    useLists := [],
    funcs := [{ blocks := [{ id := 0, nArgs := 0, instrs := [0, 1] }] }],
    nextId := 2, numInstructionsRemoved := 0, numBlocksRemoved := 0 }

/-- A module whose entry block ends in a conditional branch on the literal
`1` into blocks `1` (true) and `2` (false), each ending in a return. -/
def exampleFold : Module :=
  { insts := [(0, { operands := [], sideEffects := false, kind := .intLit true }),
              (1, { operands := [some (V.inst 0)], sideEffects := false, kind := .condBr 1 2 0 0 }),
              (2, { operands := [], sideEffects := false, kind := .ret }),
              (3, { operands := [], sideEffects := false, kind := .ret })],
    useLists := [(V.inst 0, [(1, 0)])],
    funcs := [{ blocks := [{ id := 0, nArgs := 0, instrs := [0, 1] },
                           { id := 1, nArgs := 0, instrs := [2] },
                           { id := 2, nArgs := 0, instrs := [3] }] }],
    nextId := 4, numInstructionsRemoved := 0, numBlocksRemoved := 0 }

/-- A module whose single block contains a call whose callee type does not
resolve to a function type, then a return. -/
def exampleBadCallee : Module :=
  { insts := [(0, { operands := [], sideEffects := true, kind := .apply false true }),
              (1, { operands := [], sideEffects := false, kind := .ret })],
    useLists := [],
    funcs := [{ blocks := [{ id := 0, nArgs := 0, instrs := [0, 1] }] }],
    nextId := 2, numInstructionsRemoved := 0, numBlocksRemoved := 0 }

/-- A module with a reachable entry block and an orphan unreachable block. -/
def exampleUnreach : Module :=
  { insts := [(0, { operands := [], sideEffects := false, kind := .ret }),
              (1, { operands := [], sideEffects := false, kind := .ret })],
    useLists := [],
    funcs := [{ blocks := [{ id := 0, nArgs := 0, instrs := [0] },
                           { id := 1, nArgs := 0, instrs := [1] }] }],
    nextId := 2, numInstructionsRemoved := 0, numBlocksRemoved := 0 }

/-- A module the pass leaves untouched: one block holding one side-effecting
instruction and a return, no branches, no calls. -/
def exampleStable : Module :=
  { insts := [(0, { operands := [], sideEffects := true, kind := .other }),
              (1, { operands := [], sideEffects := false, kind := .ret })],
    useLists := [],
    funcs := [{ blocks := [{ id := 0, nArgs := 0, instrs := [0, 1] }] }],
    nextId := 2, numInstructionsRemoved := 0, numBlocksRemoved := 0 }

/-! ### Generally shared lemmas -/

theorem phase2_snd_false : ∀ (l : List Nat) (M : Module), (phase2 l M false).2 = false := by
  intro l
  induction l with
  | nil => intro M; rfl
  | cons c rest ih =>
    intro M
    simp only [phase2, Bool.false_and]
    exact ih _

/-- `eraseAndCleanup` can never report that additional instructions were
deleted: `AdditionalChanged` starts false and is only ever combined with
`&=`, so it stays false on every path. -/
theorem eraseAndCleanup_snd_false (M : Module) (toDel : List Nat) :
    (eraseAndCleanup M toDel).2 = false := by
  unfold eraseAndCleanup
  exact phase2_snd_false _ _

/-! ### Claim C7: the liveness predicate -/

/-- C7 — `isInstructionTriviallyDead I` is true iff `I` is not a terminator,
its use-list is empty, and it may not have side effects; it is false whenever
`I` is a terminator, has a non-empty use-list, or may have side effects.  The
equivalence covers all eight boolean combinations of the three conditions. -/
theorem C7_isTriviallyDead_iff (M : Module) (i : Nat) (I : Inst)
    (h : findInst M i = some I) :
    isInstructionTriviallyDead M i = true ↔
      (isTermKind I.kind = false ∧ useOf M (V.inst i) = [] ∧ I.sideEffects = false) := by
  have hue : use_empty M (V.inst i) = true ↔ useOf M (V.inst i) = [] := by
    simp [use_empty]
  simp only [isInstructionTriviallyDead, h]
  by_cases ht : isTermKind I.kind = true
  · rw [if_pos (Or.inr ht)]
    simp [ht]
  · by_cases hu : use_empty M (V.inst i) = true
    · rw [if_neg (by simp [hu, ht])]
      by_cases hs : I.sideEffects = true
      · rw [if_neg (by simp [hs])]
        simp [hs, ht, hue.mp hu]
      · rw [if_pos (by simp [hs])]
        simp only [Bool.not_eq_true] at hs ht
        simp [hs, ht, hue.mp hu]
    · rw [if_pos (Or.inl hu)]
      have hne : useOf M (V.inst i) ≠ [] := fun hh => hu (hue.mpr hh)
      simp [hne]

/-- Witness for C7 at a concrete instruction: in `exampleDead`, instruction 0
is a pure, unused non-terminator and the predicate returns true. -/
theorem C7_witness :
    isInstructionTriviallyDead exampleDead 0 = true :=
  (C7_isTriviallyDead_iff exampleDead 0
      { operands := [], sideEffects := false, kind := .other }
      (by decide)).mpr (by decide)

/-! ### Claim C2: the set deleter's return value (a code bug) -/

/-- C2 — evaluation at the failing input: deleting the set `{11}` in
`exampleSet` does delete the additional instruction `10` (beyond the original
set) during the cleanup phase, yet `eraseAndCleanup` returns false.  The
source initializes `AdditionalChanged` to false and only ever updates it with
`&=` (DeadCodeElimination.cpp:102), so the function always returns false,
contradicting its own documentation ("Returns true if more instructions were
determined to be dead and deleted", DeadCodeElimination.cpp:77). -/
theorem C2_eraseAndCleanup_bug_eval :
    findInst (eraseAndCleanup exampleSet [11]).1 10 = none ∧
      (eraseAndCleanup exampleSet [11]).2 = false := by
  constructor
  · simp [eraseAndCleanup, phase1, phase2, recursivelyDeleteTriviallyDeadInstructions,
      isInstructionTriviallyDead, findInst, use_empty, useOf, dropAllRefs, dropRefs, dropOperand,
      setInst, setUses, isTermKind, exampleSet, rdtdiLoop, dropAndCollect, dropCollect,
      eraseFromParent, removeFromBlocks]
  · exact eraseAndCleanup_snd_false _ _

/-! ### Claim C8: calls with unresolvable callee type -/

/-- C8 counterexample — the claim states that for a call whose callee type
cannot be resolved as a function type "pass execution is not aborted"; but
`isCallToNoReturn` executes `assert(false)` on exactly that path
(DeadCodeElimination.cpp:164), so in assertion-enabled builds the pass
aborts: at the concrete call `apply` with `calleeIsFn = false`, the
assertion-failure flag is true. -/
theorem C8_assert_fires_counterexample :
    (isCallToNoReturn false true).2 = true := rfl

theorem scanNoReturn_no_classified (M : Module) :
    ∀ (l : List Nat) (acc : List Nat),
      (∀ i ∈ l, ∀ I, findInst M i = some I →
        ∀ c n, I.kind = .apply c n → (isCallToNoReturn c n).1 = false) →
      scanNoReturn M l false acc = (false, acc) := by
  intro l
  induction l with
  | nil => intro acc _; rfl
  | cons i rest ih =>
    intro acc hl
    simp only [scanNoReturn]
    cases hI : findInst M i with
    | none =>
      simp only [hI]
      exact ih acc (fun j hj => hl j (List.mem_cons_of_mem _ hj))
    | some I =>
      simp only [hI]
      rcases hk : I.kind with ⟨c, n⟩ | b | ⟨t, f, nT, nF⟩ | d | _ | _ | _ <;>
        simp only [hk]
      · rw [hl i (List.mem_cons_self _ _) I hI c n hk]
        exact ih acc (fun j hj => hl j (List.mem_cons_of_mem _ hj))
      all_goals exact ih acc (fun j hj => hl j (List.mem_cons_of_mem _ hj))

/-- C8 (amended) — a call whose callee type does not resolve to a function
type is never classified as no-return and the operation reports "no change"
for any block all of whose calls are of that shape; however, the claim's
"pass execution is not aborted" holds only with assertions disabled: the
code first runs `assert(false)`, reported by the assertion flag being true. -/
theorem C8_unresolvable_callee_amended (n : Bool) (M : Module) (b : Nat) (B : Block)
    (hB : findBlock M b = some B)
    (hcalls : ∀ i ∈ B.instrs, ∀ I, findInst M i = some I →
      ∀ c nn, I.kind = .apply c nn → c = false) :
    (isCallToNoReturn false n).1 = false ∧
    (isCallToNoReturn false n).2 = true ∧
    simplifyBlocksWithCallsToNoReturn M b = (M, false) := by
  refine ⟨rfl, rfl, ?_⟩
  unfold simplifyBlocksWithCallsToNoReturn
  rw [hB]
  have hscan := scanNoReturn_no_classified M B.instrs []
    (fun i hi I hI c nn hk => by
      rw [hcalls i hi I hI c nn hk]
      rfl)
  simp [hscan]

/-- Witness for C8 at `exampleBadCallee`: its block `0` holds one call with
unresolvable callee type; the truncation reports no change. -/
theorem C8_witness :
    simplifyBlocksWithCallsToNoReturn exampleBadCallee 0 = (exampleBadCallee, false) :=
  (C8_unresolvable_callee_amended true exampleBadCallee 0
      { id := 0, nArgs := 0, instrs := [0, 1] }
      (by decide) (by decide)).2.2

/-! ### Association-list lemmas -/

theorem assoc_find?_update_other {κ β : Type} [DecidableEq κ]
    (l : List (κ × β)) (i j : κ) (b : β) (hne : ¬ j = i) :
    (l.map (fun p => if p.1 = i then (i, b) else p)).find? (fun p => decide (p.1 = j)) =
      l.find? (fun p => decide (p.1 = j)) := by
  induction l with
  | nil => rfl
  | cons q t ih =>
    by_cases hq : q.1 = i
    · have h1 : ¬ i = j := fun h => hne h.symm
      have h2 : ¬ q.1 = j := by rw [hq]; exact h1
      simp only [List.map_cons, if_pos hq, List.find?_cons,
        show (decide (i = j)) = false by simpa using h1,
        show (decide (q.1 = j)) = false by simpa using h2]
      exact ih
    · simp only [List.map_cons, if_neg hq, List.find?_cons]
      cases hd : decide (q.1 = j)
      · exact ih
      · rfl

theorem assoc_find?_update_self {κ β : Type} [DecidableEq κ]
    (l : List (κ × β)) (i : κ) (b : β) :
    (l.map (fun p => if p.1 = i then (i, b) else p)).find? (fun p => decide (p.1 = i)) =
      (l.find? (fun p => decide (p.1 = i))).map (fun _ => (i, b)) := by
  induction l with
  | nil => rfl
  | cons q t ih =>
    by_cases hq : q.1 = i
    · simp only [List.map_cons, if_pos hq, List.find?_cons,
        show (decide ((i : κ) = i)) = true by simp,
        show (decide (q.1 = i)) = true by simpa using hq]
      rfl
    · simp only [List.map_cons, if_neg hq, List.find?_cons,
        show (decide (q.1 = i)) = false by simpa using hq]
      exact ih

theorem assoc_find?_filter_ne {κ β : Type} [DecidableEq κ]
    (l : List (κ × β)) (i j : κ) (hne : ¬ j = i) :
    (l.filter (fun p => ¬ p.1 = i)).find? (fun p => decide (p.1 = j)) =
      l.find? (fun p => decide (p.1 = j)) := by
  induction l with
  | nil => rfl
  | cons q t ih =>
    by_cases hq : q.1 = i
    · have h2 : ¬ q.1 = j := by rw [hq]; exact fun h => hne h.symm
      simp only [List.filter_cons, show (decide ¬ q.1 = i) = false by simpa using hq,
        if_false, List.find?_cons, show (decide (q.1 = j)) = false by simpa using h2]
      exact ih
    · simp only [List.filter_cons, show (decide ¬ q.1 = i) = true by simpa using hq,
        if_true, List.find?_cons]
      cases hd : decide (q.1 = j)
      · exact ih
      · rfl

theorem assoc_find?_filter_self {κ β : Type} [DecidableEq κ]
    (l : List (κ × β)) (i : κ) :
    (l.filter (fun p => ¬ p.1 = i)).find? (fun p => decide (p.1 = i)) = none := by
  rw [List.find?_eq_none]
  intro p hp
  have h2 := (List.mem_filter.mp hp).2
  simp at h2 ⊢
  exact h2

theorem assoc_find?_mem {κ β : Type} [DecidableEq κ]
    {l : List (κ × β)} {i : κ} {p : κ × β}
    (h : l.find? (fun p => decide (p.1 = i)) = some p) :
    p ∈ l ∧ p.1 = i := by
  refine ⟨List.mem_of_find?_eq_some h, ?_⟩
  have := List.find?_some h
  simpa using this

theorem assoc_find?_of_mem {κ β : Type} [DecidableEq κ]
    {l : List (κ × β)} (hnd : (l.map (·.1)).Nodup) {p : κ × β} (hp : p ∈ l) :
    l.find? (fun q => decide (q.1 = p.1)) = some p := by
  induction l with
  | nil => cases hp
  | cons q t ih =>
    rw [List.map_cons] at hnd
    have hnd' := List.nodup_cons.mp hnd
    rcases List.mem_cons.mp hp with rfl | hp'
    · simp [List.find?_cons]
    · have hq : ¬ q.1 = p.1 := by
        intro h
        exact hnd'.1 (h ▸ List.mem_map.mpr ⟨p, hp', rfl⟩)
      rw [List.find?_cons, show (decide (q.1 = p.1)) = false by simpa using hq]
      exact ih hnd'.2 hp'

/-! ### Effect of the primitives on lookups -/

theorem findInst_setInst_self (M : Module) (i : Nat) (I : Inst) :
    findInst (setInst M i I) i = (findInst M i).map (fun _ => I) := by
  unfold findInst setInst
  simp only [assoc_find?_update_self]
  cases M.insts.find? (fun p => decide (p.1 = i)) <;> rfl

theorem findInst_setInst_other (M : Module) (i j : Nat) (I : Inst) (h : ¬ j = i) :
    findInst (setInst M i I) j = findInst M j := by
  unfold findInst setInst
  simp only [assoc_find?_update_other _ _ _ _ h]

theorem findInst_setUses (M : Module) (v : V) (l : List (Nat × Nat)) (j : Nat) :
    findInst (setUses M v l) j = findInst M j := by
  unfold setUses
  split <;> rfl

theorem useOf_setInst (M : Module) (i : Nat) (I : Inst) (v : V) :
    useOf (setInst M i I) v = useOf M v := rfl

theorem useOf_setUses_self (M : Module) (v : V) (l : List (Nat × Nat)) :
    useOf (setUses M v l) v = l := by
  unfold useOf setUses
  split
  · rename_i hs
    rw [assoc_find?_update_self]
    obtain ⟨p, hp⟩ := Option.isSome_iff_exists.mp hs
    rw [hp]
    rfl
  · rename_i hs
    simp [List.find?_cons]

theorem useOf_setUses_other (M : Module) (v w : V) (l : List (Nat × Nat)) (h : ¬ w = v) :
    useOf (setUses M v l) w = useOf M w := by
  unfold useOf setUses
  split
  · rw [assoc_find?_update_other _ _ _ _ h]
  · rw [List.find?_cons, show (decide ((v, l).1 = w)) = false by
      simp; exact fun hh => h hh.symm]

theorem findInst_erase_self (M : Module) (i : Nat) :
    findInst (eraseFromParent M i) i = none := by
  unfold findInst eraseFromParent removeFromBlocks
  simp only []
  rw [assoc_find?_filter_self]
  rfl

theorem findInst_erase_other (M : Module) (i j : Nat) (h : ¬ j = i) :
    findInst (eraseFromParent M i) j = findInst M j := by
  unfold findInst eraseFromParent removeFromBlocks
  simp only []
  rw [assoc_find?_filter_ne _ _ _ h]

theorem useLists_erase (M : Module) (i : Nat) :
    (eraseFromParent M i).useLists = M.useLists.filter (fun p => ¬ p.1 = V.inst i) := rfl

theorem useOf_erase_self (M : Module) (i : Nat) :
    useOf (eraseFromParent M i) (V.inst i) = [] := by
  unfold useOf
  rw [useLists_erase, assoc_find?_filter_self]
  rfl

theorem useOf_erase_other (M : Module) (i : Nat) (w : V) (h : ¬ w = V.inst i) :
    useOf (eraseFromParent M i) w = useOf M w := by
  unfold useOf
  rw [useLists_erase, assoc_find?_filter_ne _ _ _ h]

theorem nextId_setInst (M : Module) (i : Nat) (I : Inst) :
    (setInst M i I).nextId = M.nextId := rfl

theorem nextId_setUses (M : Module) (v : V) (l : List (Nat × Nat)) :
    (setUses M v l).nextId = M.nextId := by
  unfold setUses; split <;> rfl

theorem nextId_erase (M : Module) (i : Nat) :
    (eraseFromParent M i).nextId = M.nextId := rfl

theorem nextId_dropOperand (M : Module) (u k : Nat) :
    (dropOperand M u k).nextId = M.nextId := by
  unfold dropOperand
  cases h1 : findInst M u with
  | none => rfl
  | some I =>
    dsimp only
    split
    · rw [nextId_setUses, nextId_setInst]
    · rfl

/-! ### Membership lemmas for the primitives -/

theorem findInst_some_mem {M : Module} {u : Nat} {I : Inst}
    (h : findInst M u = some I) : (u, I) ∈ M.insts := by
  unfold findInst at h
  cases hf : M.insts.find? (fun p => decide (p.1 = u)) with
  | none => rw [hf] at h; cases h
  | some p =>
    rw [hf] at h
    obtain ⟨hmem, hkey⟩ := assoc_find?_mem hf
    have : p = (u, I) := by
      cases p
      simp at hkey h
      simp [hkey, h]
    exact this ▸ hmem

theorem findInst_of_mem {M : Module} (hnd : (M.insts.map (·.1)).Nodup)
    {u : Nat} {I : Inst} (h : (u, I) ∈ M.insts) : findInst M u = some I := by
  unfold findInst
  rw [show (fun p : Nat × Inst => decide (p.1 = u)) =
      (fun p : Nat × Inst => decide (p.1 = (u, I).1)) from rfl]
  rw [assoc_find?_of_mem hnd h]
  rfl

theorem useOf_eq_of_mem {M : Module} (hnd : (M.useLists.map (·.1)).Nodup)
    {e : V × List (Nat × Nat)} (h : e ∈ M.useLists) : useOf M e.1 = e.2 := by
  unfold useOf
  rw [show (fun p : V × List (Nat × Nat) => decide (p.1 = e.1)) =
      (fun p : V × List (Nat × Nat) => decide (p.1 = e.1)) from rfl]
  rw [assoc_find?_of_mem hnd h]
  rfl

theorem mem_setInst {M : Module} {i : Nat} {I : Inst} {q : Nat × Inst}
    (h : q ∈ (setInst M i I).insts) :
    q = (i, I) ∨ (q ∈ M.insts ∧ ¬ q.1 = i) := by
  unfold setInst at h
  obtain ⟨p, hp, hq⟩ := List.mem_map.mp h
  by_cases hpi : p.1 = i
  · rw [if_pos hpi] at hq
    exact Or.inl hq.symm
  · rw [if_neg hpi] at hq
    exact Or.inr ⟨hq ▸ hp, hq ▸ hpi⟩

theorem mem_setInst_of {M : Module} {i : Nat} {I : Inst} {q : Nat × Inst}
    (h : q ∈ M.insts) (hne : ¬ q.1 = i) : q ∈ (setInst M i I).insts := by
  unfold setInst
  refine List.mem_map.mpr ⟨q, h, ?_⟩
  rw [if_neg hne]

theorem mem_setUses {M : Module} {v : V} {l : List (Nat × Nat)}
    {e : V × List (Nat × Nat)} (h : e ∈ (setUses M v l).useLists) :
    e = (v, l) ∨ (e ∈ M.useLists ∧ ¬ e.1 = v) := by
  unfold setUses at h
  split at h
  · obtain ⟨p, hp, hq⟩ := List.mem_map.mp h
    by_cases hpv : p.1 = v
    · rw [if_pos hpv] at hq
      exact Or.inl hq.symm
    · rw [if_neg hpv] at hq
      exact Or.inr ⟨hq ▸ hp, hq ▸ hpv⟩
  · rcases List.mem_cons.mp h with rfl | h'
    · exact Or.inl rfl
    · rename_i hs
      refine Or.inr ⟨h', fun hkey => ?_⟩
      rw [Option.not_isSome_iff_eq_none, List.find?_eq_none] at hs
      exact absurd (by simpa using hkey) (by simpa using hs e h')

theorem mem_setUses_of {M : Module} {v : V} {l : List (Nat × Nat)}
    {e : V × List (Nat × Nat)} (h : e ∈ M.useLists) (hne : ¬ e.1 = v) :
    e ∈ (setUses M v l).useLists := by
  unfold setUses
  split
  · refine List.mem_map.mpr ⟨e, h, ?_⟩
    rw [if_neg hne]
  · exact List.mem_cons_of_mem _ h

theorem mem_erase_insts {M : Module} {i : Nat} {q : Nat × Inst} :
    q ∈ (eraseFromParent M i).insts ↔ q ∈ M.insts ∧ ¬ q.1 = i := by
  rw [eraseFromParent_insts]
  constructor
  · intro h
    have := List.mem_filter.mp h
    exact ⟨this.1, by simpa using this.2⟩
  · intro ⟨h1, h2⟩
    exact List.mem_filter.mpr ⟨h1, by simpa using h2⟩

theorem mem_erase_useLists {M : Module} {i : Nat} {e : V × List (Nat × Nat)} :
    e ∈ (eraseFromParent M i).useLists ↔ e ∈ M.useLists ∧ ¬ e.1 = V.inst i := by
  rw [useLists_erase]
  constructor
  · intro h
    have := List.mem_filter.mp h
    exact ⟨this.1, by simpa using this.2⟩
  · intro ⟨h1, h2⟩
    exact List.mem_filter.mpr ⟨h1, by simpa using h2⟩

/-! ### Block shapes and value liveness transport -/

/-- The part of the block structure that block-argument liveness depends on. -/
def blockShapes (M : Module) : List (Nat × Nat) :=
  (allBlocks M).map (fun B => (B.id, B.nArgs))

theorem liveV_arg_iff (M : Module) (b k : Nat) :
    liveV M (.arg b k) ↔ ∃ s ∈ blockShapes M, s.1 = b ∧ k < s.2 := by
  unfold liveV blockShapes
  constructor
  · rintro ⟨B, hB, h1, h2⟩
    exact ⟨(B.id, B.nArgs), List.mem_map.mpr ⟨B, hB, rfl⟩, h1, h2⟩
  · rintro ⟨s, hs, h1, h2⟩
    obtain ⟨B, hB, rfl⟩ := List.mem_map.mp hs
    exact ⟨B, hB, h1, h2⟩

theorem funcs_setInst (M : Module) (i : Nat) (I : Inst) :
    (setInst M i I).funcs = M.funcs := rfl

theorem funcs_setUses (M : Module) (v : V) (l : List (Nat × Nat)) :
    (setUses M v l).funcs = M.funcs := by
  unfold setUses; split <;> rfl

theorem allBlocks_map_blocks (fs : List Func) (g : Block → Block) :
    (fs.map (fun F => Func.mk (F.blocks.map g))).flatMap (·.blocks) =
      (fs.flatMap (·.blocks)).map g := by
  induction fs with
  | nil => rfl
  | cons F t ih => simp [List.flatMap_cons, ih]

theorem blockShapes_erase (M : Module) (i : Nat) :
    blockShapes (eraseFromParent M i) = blockShapes M := by
  unfold blockShapes allBlocks eraseFromParent removeFromBlocks
  simp only []
  rw [allBlocks_map_blocks]
  rw [List.map_map]
  rfl

theorem liveV_setInst (M : Module) (i : Nat) (I : Inst) (v : V) :
    liveV (setInst M i I) v ↔ liveV M v := by
  cases v with
  | inst j =>
    simp only [liveV]
    by_cases hj : j = i
    · subst hj
      rw [findInst_setInst_self]
      cases findInst M j <;> simp
    · rw [findInst_setInst_other M i j I hj]
  | arg b k =>
    rw [liveV_arg_iff, liveV_arg_iff]
    rfl

theorem liveV_setUses (M : Module) (v : V) (l : List (Nat × Nat)) (w : V) :
    liveV (setUses M v l) w ↔ liveV M w := by
  cases w with
  | inst j =>
    simp only [liveV]
    rw [findInst_setUses]
  | arg b k =>
    rw [liveV_arg_iff, liveV_arg_iff]
    unfold blockShapes allBlocks
    rw [funcs_setUses]

theorem liveV_erase (M : Module) (i : Nat) (v : V) (hv : ¬ v = V.inst i) :
    liveV (eraseFromParent M i) v ↔ liveV M v := by
  cases v with
  | inst j =>
    simp only [liveV]
    rw [findInst_erase_other M i j (fun h => hv (by rw [h]))]
  | arg b k =>
    rw [liveV_arg_iff, liveV_arg_iff, blockShapes_erase]

theorem liveV_erase_self (M : Module) (i : Nat) :
    ¬ liveV (eraseFromParent M i) (V.inst i) := by
  simp only [liveV]
  rw [findInst_erase_self]
  simp

/-! ### Characterizations of well-formedness -/

theorem WF.forward_useOf {M : Module} (h : WF M) (v : V) (hv : liveV M v) :
    (useOf M v).Nodup ∧ ∀ uk ∈ useOf M v, userHasSlot M uk v := by
  cases hf : M.useLists.find? (fun p => decide (p.1 = v)) with
  | none =>
    have : useOf M v = [] := by unfold useOf; rw [hf]; rfl
    rw [this]
    exact ⟨List.nodup_nil, by intro uk h; cases h⟩
  | some e =>
    obtain ⟨hmem, hkey⟩ := assoc_find?_mem hf
    have := h.forward e hmem (hkey ▸ hv)
    rw [hkey] at this
    exact this

theorem WF.backward_useOf {M : Module} (h : WF M) {u : Nat} {I : Inst}
    (hI : findInst M u = some I) {k : Nat} {v : V}
    (hslot : I.operands.get? k = some (some v)) (hv : liveV M v) :
    (u, k) ∈ useOf M v := by
  have hmem := findInst_some_mem hI
  have hk : k < I.operands.length := by
    have := List.get?_mem hslot
    exact (List.get?_eq_some.mp hslot).1
  have hb := h.backward (u, I) hmem k hk
  rw [hslot] at hb
  exact hb hv

/-! ### More primitive helper lemmas -/

theorem insts_setUses (M : Module) (v : V) (l : List (Nat × Nat)) :
    (setUses M v l).insts = M.insts := by
  unfold setUses; split <;> rfl

theorem userHasSlot_iff (M : Module) (uk : Nat × Nat) (v : V) :
    userHasSlot M uk v ↔
      ∃ J, findInst M uk.1 = some J ∧ J.operands.get? uk.2 = some (some v) := by
  unfold userHasSlot
  cases h : findInst M uk.1 with
  | none => simp
  | some J => simp

theorem keyFresh_of_slotFresh {n : Nat} {v : V} (h : slotFresh n (some v)) :
    keyFresh n v := by
  cases v with
  | inst j => exact h
  | arg b k => trivial

theorem useKeys_setUses_present {M : Module} {v : V} (l : List (Nat × Nat))
    (h : (M.useLists.find? (fun p => decide (p.1 = v))).isSome = true) :
    (setUses M v l).useLists.map (·.1) = M.useLists.map (·.1) := by
  unfold setUses
  rw [if_pos h]
  simp only [List.map_map]
  refine List.map_congr_left (fun p _ => ?_)
  by_cases hp : p.1 = v <;> simp [hp, Function.comp]

theorem useKeys_setUses_absent {M : Module} {v : V} (l : List (Nat × Nat))
    (h : ¬ (M.useLists.find? (fun p => decide (p.1 = v))).isSome = true) :
    (setUses M v l).useLists.map (·.1) = v :: M.useLists.map (·.1) := by
  unfold setUses
  rw [if_neg h]
  rfl

theorem not_mem_useKeys_of_absent {M : Module} {v : V}
    (h : ¬ (M.useLists.find? (fun p => decide (p.1 = v))).isSome = true) :
    v ∉ M.useLists.map (·.1) := by
  rw [Option.not_isSome_iff_eq_none, List.find?_eq_none] at h
  intro hmem
  obtain ⟨p, hp, hkey⟩ := List.mem_map.mp hmem
  exact absurd (by simpa using hkey) (by simpa using h p hp)

theorem useKeysNodup_setUses {M : Module} (v : V) (l : List (Nat × Nat))
    (h : (M.useLists.map (·.1)).Nodup) :
    ((setUses M v l).useLists.map (·.1)).Nodup := by
  by_cases hp : (M.useLists.find? (fun p => decide (p.1 = v))).isSome = true
  · rw [useKeys_setUses_present l hp]; exact h
  · rw [useKeys_setUses_absent l hp]
    exact List.nodup_cons.mpr ⟨not_mem_useKeys_of_absent hp, h⟩

theorem get?_set_ne {α : Type} (l : List α) (i j : Nat) (a : α) (h : ¬ j = i) :
    (l.set i a).get? j = l.get? j := by
  simp only [List.get?_eq_getElem?]
  exact List.getElem?_set_ne (fun hh => h hh.symm)

theorem get?_set_self {α : Type} (l : List α) (i : Nat) (a : α) (h : i < l.length) :
    (l.set i a).get? i = some a := by
  simp only [List.get?_eq_getElem?, List.getElem?_set]
  simp [h]

theorem dropOperand_none {M : Module} {u : Nat} (k : Nat)
    (hI : findInst M u = none) : dropOperand M u k = M := by
  unfold dropOperand
  simp only [hI]

theorem dropOperand_eq {M : Module} {u : Nat} {I : Inst} (k : Nat)
    (hI : findInst M u = some I) :
    dropOperand M u k =
      match I.operands.get? k with
      | some (some v) =>
          setUses (setInst M u { I with operands := I.operands.set k none }) v
            ((useOf (setInst M u { I with operands := I.operands.set k none }) v).filter
              (fun e => ¬ e = (u, k)))
      | _ => M := by
  unfold dropOperand
  simp only [hI]

/-! ### Preservation of well-formedness: dropping one operand -/

theorem WF_dropOperand {M : Module} (h : WF M) (u k : Nat) :
    WF (dropOperand M u k) := by
  cases hI : findInst M u with
  | none => rw [dropOperand_none k hI]; exact h
  | some I =>
    rw [dropOperand_eq k hI]
    cases hs : I.operands.get? k with
    | none => exact h
    | some o =>
      cases o with
      | none => exact h
      | some v =>
        dsimp only
        rw [show useOf (setInst M u { I with operands := I.operands.set k none }) v =
          useOf M v from rfl]
        have hmemU : (u, I) ∈ M.insts := findInst_some_mem hI
        have hklen : k < I.operands.length := by
          have := List.get?_eq_some.mp hs
          exact this.1
        set I' : Inst := { I with operands := I.operands.set k none } with hI'
        set newl : List (Nat × Nat) :=
          (useOf M v).filter (fun e => ¬ e = (u, k)) with hnewl
        set M1 : Module := setInst M u I' with hM1
        set M' : Module := setUses M1 v newl with hM'
        have hfindu : findInst M' u = some I' := by
          rw [hM', findInst_setUses, hM1, findInst_setInst_self, hI]
          rfl
        have hfind' : ∀ j, ¬ j = u → findInst M' j = findInst M j := by
          intro j hj
          rw [hM', findInst_setUses, hM1, findInst_setInst_other _ _ _ _ hj]
        have husev : useOf M' v = newl := by
          rw [hM', useOf_setUses_self]
        have huse' : ∀ w, ¬ w = v → useOf M' w = useOf M w := by
          intro w hw
          rw [hM', useOf_setUses_other _ _ _ _ hw, hM1, useOf_setInst]
        have hlive' : ∀ w, liveV M' w ↔ liveV M w := by
          intro w
          rw [hM', liveV_setUses, hM1, liveV_setInst]
        have hnext : M'.nextId = M.nextId := by
          rw [hM', nextId_setUses, hM1, nextId_setInst]
        have hinsts : M'.insts = M1.insts := by
          rw [hM', insts_setUses]
        have hmemInst : ∀ q : Nat × Inst, q ∈ M'.insts →
            q = (u, I') ∨ (q ∈ M.insts ∧ ¬ q.1 = u) := by
          intro q hq
          rw [hinsts] at hq
          exact mem_setInst hq
        have hvfresh : slotFresh M.nextId (some v) := by
          have := h.slotsFresh (u, I) hmemU (some v) (List.get?_mem hs)
          exact this
        refine ⟨?_, ?_, ?_, ?_, ?_, ?_, ?_, ?_⟩
        · show ((M'.insts).map (·.1)).Nodup
          rw [hinsts]
          have : ((M1.insts).map (·.1)) = liveIds M1 := rfl
          rw [this, hM1, liveIds_setInst]
          exact h.instKeysNodup
        · rw [hM']
          exact useKeysNodup_setUses v newl (by rw [hM1]; exact h.useKeysNodup)
        · have : allBlocks M' = allBlocks M := by
            unfold allBlocks
            rw [hM', funcs_setUses, hM1, funcs_setInst]
          rw [this]
          exact h.blockIdsNodup
        · intro p hp
          rw [hnext]
          rcases hmemInst p hp with rfl | ⟨hq, _⟩
          · exact h.instKeysFresh (u, I) hmemU
          · exact h.instKeysFresh p hq
        · intro p hp op hop
          rw [hnext]
          rcases hmemInst p hp with rfl | ⟨hq, _⟩
          · rcases List.mem_or_eq_of_mem_set hop with hop' | rfl
            · exact h.slotsFresh (u, I) hmemU op hop'
            · trivial
          · exact h.slotsFresh p hq op hop
        · intro e he
          rw [hnext]
          rw [hM'] at he
          rcases mem_setUses he with rfl | ⟨hq, _⟩
          · exact keyFresh_of_slotFresh hvfresh
          · rw [hM1] at hq
            exact h.useKeysFresh e hq
        · intro e he hlv
          rw [hM'] at he
          rcases mem_setUses he with rfl | ⟨hq, hne⟩
          · have hlvM : liveV M v := (hlive' v).mp hlv
            obtain ⟨hnd, hfwd⟩ := h.forward_useOf v hlvM
            have hueq : useOf M' (v, newl).1 = newl := husev
            rw [hueq, hnewl]
            constructor
            · exact List.Nodup.filter _ hnd
            · intro uk hukmem
              have huk1 : uk ∈ useOf M v := (List.mem_filter.mp hukmem).1
              have huk2 : ¬ uk = (u, k) := by
                have := (List.mem_filter.mp hukmem).2
                simpa using this
              obtain ⟨J, hJ, hJs⟩ := (userHasSlot_iff M uk v).mp (hfwd uk huk1)
              rw [userHasSlot_iff]
              by_cases hu : uk.1 = u
              · have hJI : J = I := by
                  rw [hu, hI] at hJ
                  exact (Option.some.injEq _ _ ▸ hJ).symm
                refine ⟨I', by rw [hu]; exact hfindu, ?_⟩
                have hk2 : ¬ uk.2 = k := by
                  intro hk2
                  exact huk2 (Prod.ext hu hk2)
                have hIs : I.operands.get? uk.2 = some (some v) := by
                  rw [← hJI]; exact hJs
                show (I.operands.set k none).get? uk.2 = some (some v)
                rw [get?_set_ne _ _ _ _ hk2]
                exact hIs
              · refine ⟨J, ?_, hJs⟩
                rw [hfind' uk.1 hu]
                exact hJ
          · rw [hM1] at hq
            have hlvM : liveV M e.1 := (hlive' e.1).mp hlv
            obtain ⟨hnd, hfwd⟩ := h.forward_useOf e.1 hlvM
            rw [huse' e.1 hne]
            refine ⟨hnd, ?_⟩
            intro uk hukmem
            obtain ⟨J, hJ, hJs⟩ := (userHasSlot_iff M uk e.1).mp (hfwd uk hukmem)
            rw [userHasSlot_iff]
            by_cases hu : uk.1 = u
            · have hJI : J = I := by
                rw [hu, hI] at hJ
                exact (Option.some.injEq _ _ ▸ hJ).symm
              have hk2 : ¬ uk.2 = k := by
                intro hk2
                rw [hJI, hk2, hs] at hJs
                have : some v = some e.1 := by simpa using hJs
                exact hne (by simpa using this.symm)
              refine ⟨I', by rw [hu]; exact hfindu, ?_⟩
              have hIs : I.operands.get? uk.2 = some (some e.1) := by
                rw [← hJI]; exact hJs
              show (I.operands.set k none).get? uk.2 = some (some e.1)
              rw [get?_set_ne _ _ _ _ hk2]
              exact hIs
            · refine ⟨J, ?_, hJs⟩
              rw [hfind' uk.1 hu]
              exact hJ
        · intro p hp k' hk'
          rcases hmemInst p hp with rfl | ⟨hq, hne⟩
          · have hlen : I'.operands.length = I.operands.length := by
              rw [hI']
              exact List.length_set _ _ _
            by_cases hkk : k' = k
            · subst hkk
              have : I'.operands.get? k' = some none := by
                rw [hI']
                exact get?_set_self _ _ _ hklen
              rw [this]
              trivial
            · have hgs : I'.operands.get? k' = I.operands.get? k' := by
                rw [hI']
                exact get?_set_ne _ _ _ _ hkk
              rw [hgs]
              cases hs' : I.operands.get? k' with
              | none => trivial
              | some o' =>
                cases o' with
                | none => trivial
                | some w =>
                  intro hw
                  have hlw : liveV M w := (hlive' w).mp hw
                  have hbw := h.backward_useOf hI hs' hlw
                  by_cases hwv : w = v
                  · subst hwv
                    rw [husev, hnewl]
                    refine List.mem_filter.mpr ⟨hbw, ?_⟩
                    simp only [decide_eq_true_eq]
                    intro hcontra
                    exact hkk (congrArg Prod.snd hcontra)
                  · rw [huse' w hwv]
                    exact hbw
          · have hb := h.backward p hq k' hk'
            cases hjs : (p.2.operands.get? k').join with
            | none => trivial
            | some w =>
              rw [hjs] at hb
              intro hw
              have hlw : liveV M w := (hlive' w).mp hw
              have hbw := hb hlw
              by_cases hwv : w = v
              · subst hwv
                rw [husev, hnewl]
                refine List.mem_filter.mpr ⟨hbw, ?_⟩
                simp only [decide_eq_true_eq]
                intro hcontra
                exact hne (congrArg Prod.fst hcontra)
              · rw [huse' w hwv]
                exact hbw

/-! ### Dropped-slot bookkeeping -/

/-- All operand slots of instruction `i` (if it is alive) are dropped. -/
def slotsNone (M : Module) (i : Nat) : Prop :=
  ∀ I, findInst M i = some I → ∀ op ∈ I.operands, op = none

theorem slotsNone_of_none {M : Module} {i : Nat} (h : findInst M i = none) :
    slotsNone M i := by
  intro I hI
  rw [h] at hI
  cases hI

theorem findInst_dropOperand_other {M : Module} {u : Nat} (k : Nat) {j : Nat}
    (h : ¬ j = u) : findInst (dropOperand M u k) j = findInst M j := by
  cases hI : findInst M u with
  | none => rw [dropOperand_none k hI]
  | some I =>
    rw [dropOperand_eq k hI]
    cases hs : I.operands.get? k with
    | none => rfl
    | some o =>
      cases o with
      | none => rfl
      | some v =>
        dsimp only
        rw [findInst_setUses, findInst_setInst_other _ _ _ _ h]

theorem dropOperand_self_spec {M : Module} {u : Nat} {I : Inst} (k : Nat)
    (hI : findInst M u = some I) :
    ∃ I', findInst (dropOperand M u k) u = some I' ∧
      I'.operands.length = I.operands.length ∧
      (∀ j, ¬ j = k → I'.operands.get? j = I.operands.get? j) ∧
      (∀ v, ¬ I'.operands.get? k = some (some v)) := by
  rw [dropOperand_eq k hI]
  cases hs : I.operands.get? k with
  | none =>
    refine ⟨I, hI, rfl, fun j _ => rfl, ?_⟩
    rw [hs]
    intro v h
    cases h
  | some o =>
    cases o with
    | none =>
      refine ⟨I, hI, rfl, fun j _ => rfl, ?_⟩
      rw [hs]
      intro v h
      cases h
    | some v =>
      dsimp only
      have hklen : k < I.operands.length := (List.get?_eq_some.mp hs).1
      refine ⟨{ I with operands := I.operands.set k none }, ?_, ?_, ?_, ?_⟩
      · rw [findInst_setUses, findInst_setInst_self, hI]
        rfl
      · exact List.length_set _ _ _
      · intro j hj
        exact get?_set_ne _ _ _ _ hj
      · intro w
        rw [show ({ I with operands := I.operands.set k none } : Inst).operands =
          I.operands.set k none from rfl, get?_set_self _ _ _ hklen]
        intro hcontra
        cases hcontra

theorem dropRefs_spec (u : Nat) :
    ∀ (fuel k : Nat) (M : Module) (I : Inst), findInst M u = some I →
    ∃ I', findInst (dropRefs M u fuel k) u = some I' ∧
      I'.operands.length = I.operands.length ∧
      (∀ j, j < k → I'.operands.get? j = I.operands.get? j) ∧
      (∀ j v, k ≤ j → j < k + fuel → ¬ I'.operands.get? j = some (some v)) ∧
      (∀ j, k + fuel ≤ j → I'.operands.get? j = I.operands.get? j) := by
  intro fuel
  induction fuel with
  | zero =>
    intro k M I hI
    exact ⟨I, hI, rfl, fun j _ => rfl, fun j v h1 h2 => by omega, fun j _ => rfl⟩
  | succ n ih =>
    intro k M I hI
    obtain ⟨I1, hI1, hlen1, hother1, hk1⟩ := dropOperand_self_spec k hI
    obtain ⟨I', hI', hlen', hlow', hmid', hhigh'⟩ := ih (k + 1) (dropOperand M u k) I1 hI1
    rw [show dropRefs M u (n + 1) k = dropRefs (dropOperand M u k) u n (k + 1) from rfl]
    refine ⟨I', hI', by rw [hlen', hlen1], ?_, ?_, ?_⟩
    · intro j hj
      rw [hlow' j (by omega), hother1 j (by omega)]
    · intro j v h1 h2
      by_cases hjk : j = k
      · subst hjk
        rw [hlow' j (by omega)]
        exact hk1 v
      · exact hmid' j v (by omega) (by omega)
    · intro j hj
      rw [hhigh' j (by omega), hother1 j (by omega)]

theorem mem_iff_get?_some {α : Type} {l : List α} {a : α} :
    a ∈ l ↔ ∃ n, l.get? n = some a := by
  simp only [List.get?_eq_getElem?]
  exact List.mem_iff_getElem?

theorem dropAllRefs_slotsNone (M : Module) (u : Nat) :
    slotsNone (dropAllRefs M u) u := by
  unfold dropAllRefs
  cases hI : findInst M u with
  | none => exact slotsNone_of_none (by rw [hI])
  | some I =>
    obtain ⟨I', hI', hlen, hlow, hmid, hhigh⟩ :=
      dropRefs_spec u I.operands.length 0 M I hI
    intro J hJ op hop
    have hJI : J = I' := by
      rw [hI'] at hJ
      exact (Option.some.injEq _ _ ▸ hJ).symm
    subst hJI
    obtain ⟨n, hn⟩ := mem_iff_get?_some.mp hop
    have hnlen : n < J.operands.length := (List.get?_eq_some.mp hn).1
    cases op with
    | none => rfl
    | some v =>
      exact absurd hn (hmid n v (Nat.zero_le _) (by omega))

theorem findInst_dropRefs_other (u : Nat) :
    ∀ (fuel k : Nat) (M : Module) {j : Nat}, ¬ j = u →
      findInst (dropRefs M u fuel k) j = findInst M j := by
  intro fuel
  induction fuel with
  | zero => intro k M j _; rfl
  | succ n ih =>
    intro k M j hj
    rw [show dropRefs M u (n + 1) k = dropRefs (dropOperand M u k) u n (k + 1) from rfl]
    rw [ih (k + 1) _ hj, findInst_dropOperand_other k hj]

theorem findInst_dropAllRefs_other {M : Module} {u j : Nat} (h : ¬ j = u) :
    findInst (dropAllRefs M u) j = findInst M j := by
  unfold dropAllRefs
  cases findInst M u with
  | none => rfl
  | some I => exact findInst_dropRefs_other u _ 0 M h

theorem slotsNone_dropOperand {M : Module} {i : Nat} (h : slotsNone M i) (u k : Nat) :
    slotsNone (dropOperand M u k) i := by
  by_cases hu : i = u
  · subst hu
    cases hI : findInst M i with
    | none => rw [dropOperand_none k hI]; exact h
    | some I =>
      obtain ⟨I', hI', hlen, hother, hkspec⟩ := dropOperand_self_spec k hI
      intro J hJ op hop
      have hJI : J = I' := by
        rw [hI'] at hJ
        exact (Option.some.injEq _ _ ▸ hJ).symm
      subst hJI
      obtain ⟨n, hn⟩ := mem_iff_get?_some.mp hop
      by_cases hnk : n = k
      · subst hnk
        cases op with
        | none => rfl
        | some v => exact absurd hn (hkspec v)
      · rw [hother n hnk] at hn
        exact h I hI op (List.get?_mem hn)
  · intro J hJ
    rw [findInst_dropOperand_other k hu] at hJ
    exact h J hJ

theorem slotsNone_erase {M : Module} {i : Nat} (h : slotsNone M i) (j : Nat) :
    slotsNone (eraseFromParent M j) i := by
  by_cases hij : i = j
  · subst hij
    exact slotsNone_of_none (findInst_erase_self M i)
  · intro J hJ
    rw [findInst_erase_other M j i hij] at hJ
    exact h J hJ

theorem slotsNone_dropRefs {i : Nat} (u : Nat) :
    ∀ (fuel k : Nat) (M : Module), slotsNone M i → slotsNone (dropRefs M u fuel k) i := by
  intro fuel
  induction fuel with
  | zero => intro k M hM; exact hM
  | succ n ih =>
    intro k M hM
    exact ih (k + 1) _ (slotsNone_dropOperand hM u k)

theorem slotsNone_dropAllRefs {M : Module} {i : Nat} (h : slotsNone M i) (u : Nat) :
    slotsNone (dropAllRefs M u) i := by
  unfold dropAllRefs
  cases findInst M u with
  | none => exact h
  | some I => exact slotsNone_dropRefs u _ 0 M h

/-! ### Preservation of well-formedness: erasing an instruction -/

theorem blockIds_erase (M : Module) (i : Nat) :
    (allBlocks (eraseFromParent M i)).map (·.id) = (allBlocks M).map (·.id) := by
  unfold allBlocks eraseFromParent removeFromBlocks
  simp only []
  rw [allBlocks_map_blocks, List.map_map]
  rfl

theorem WF_erase {M : Module} (h : WF M) (i : Nat) (hsn : slotsNone M i) :
    WF (eraseFromParent M i) := by
  refine ⟨?_, ?_, ?_, ?_, ?_, ?_, ?_, ?_⟩
  · rw [eraseFromParent_insts]
    exact List.Nodup.sublist ((List.filter_sublist _).map _) h.instKeysNodup
  · rw [useLists_erase]
    exact List.Nodup.sublist ((List.filter_sublist _).map _) h.useKeysNodup
  · rw [blockIds_erase]
    exact h.blockIdsNodup
  · intro p hp
    rw [nextId_erase]
    exact h.instKeysFresh p (mem_erase_insts.mp hp).1
  · intro p hp op hop
    rw [nextId_erase]
    exact h.slotsFresh p (mem_erase_insts.mp hp).1 op hop
  · intro e he
    rw [nextId_erase]
    exact h.useKeysFresh e (mem_erase_useLists.mp he).1
  · intro e he hlv
    obtain ⟨hmem, hne⟩ := mem_erase_useLists.mp he
    have hlvM : liveV M e.1 := (liveV_erase M i e.1 hne).mp hlv
    obtain ⟨hnd, hfwd⟩ := h.forward_useOf e.1 hlvM
    rw [useOf_erase_other M i e.1 hne]
    refine ⟨hnd, ?_⟩
    intro uk hukmem
    obtain ⟨J, hJ, hJs⟩ := (userHasSlot_iff M uk e.1).mp (hfwd uk hukmem)
    rw [userHasSlot_iff]
    have hui : ¬ uk.1 = i := by
      intro hui
      rw [hui] at hJ
      have := hsn J hJ (some e.1) (List.get?_mem hJs)
      cases this
    exact ⟨J, by rw [findInst_erase_other M i uk.1 hui]; exact hJ, hJs⟩
  · intro p hp k' hk'
    obtain ⟨hmem, hne⟩ := mem_erase_insts.mp hp
    have hb := h.backward p hmem k' hk'
    cases hjs : (p.2.operands.get? k').join with
    | none => trivial
    | some w =>
      rw [hjs] at hb
      intro hw
      have hwne : ¬ w = V.inst i := by
        intro hwi
        rw [hwi] at hw
        exact liveV_erase_self M i hw
      have hlw : liveV M w := (liveV_erase M i w hwne).mp hw
      rw [useOf_erase_other M i w hwne]
      exact hb hlw

/-! ### Preservation of well-formedness: building an instruction -/

theorem blockShapes_append (M : Module) (b i : Nat) :
    blockShapes (appendToBlock M b i) = blockShapes M := by
  unfold blockShapes allBlocks appendToBlock
  simp only []
  rw [show (fun B : Block => if B.id = b then { B with instrs := B.instrs ++ [i] } else B) =
    (fun B : Block => if B.id = b then { B with instrs := B.instrs ++ [i] } else B) from rfl]
  rw [allBlocks_map_blocks, List.map_map]
  refine List.map_congr_left (fun B _ => ?_)
  by_cases hB : B.id = b <;> simp [hB, Function.comp]

theorem blockIds_append (M : Module) (b i : Nat) :
    (allBlocks (appendToBlock M b i)).map (·.id) = (allBlocks M).map (·.id) := by
  unfold allBlocks appendToBlock
  simp only []
  rw [allBlocks_map_blocks, List.map_map]
  refine List.map_congr_left (fun B _ => ?_)
  by_cases hB : B.id = b <;> simp [hB, Function.comp]

theorem registerUses_insts (i : Nat) :
    ∀ (ops : List (Option V)) (k : Nat) (N : Module),
      (registerUses N i ops k).insts = N.insts := by
  intro ops
  induction ops with
  | nil => intro k N; rfl
  | cons op rest ih =>
    intro k N
    cases op with
    | none => exact ih (k + 1) N
    | some v =>
      rw [show registerUses N i (some v :: rest) k =
        registerUses (addUse N v (i, k)) i rest (k + 1) from rfl]
      rw [ih (k + 1) _]
      unfold addUse
      exact insts_setUses _ _ _

theorem registerUses_funcs (i : Nat) :
    ∀ (ops : List (Option V)) (k : Nat) (N : Module),
      (registerUses N i ops k).funcs = N.funcs := by
  intro ops
  induction ops with
  | nil => intro k N; rfl
  | cons op rest ih =>
    intro k N
    cases op with
    | none => exact ih (k + 1) N
    | some v =>
      rw [show registerUses N i (some v :: rest) k =
        registerUses (addUse N v (i, k)) i rest (k + 1) from rfl]
      rw [ih (k + 1) _]
      unfold addUse
      exact funcs_setUses _ _ _

theorem registerUses_nextId (i : Nat) :
    ∀ (ops : List (Option V)) (k : Nat) (N : Module),
      (registerUses N i ops k).nextId = N.nextId := by
  intro ops
  induction ops with
  | nil => intro k N; rfl
  | cons op rest ih =>
    intro k N
    cases op with
    | none => exact ih (k + 1) N
    | some v =>
      rw [show registerUses N i (some v :: rest) k =
        registerUses (addUse N v (i, k)) i rest (k + 1) from rfl]
      rw [ih (k + 1) _]
      unfold addUse
      exact nextId_setUses _ _ _

theorem useOf_addUse_self (N : Module) (v : V) (e : Nat × Nat) :
    useOf (addUse N v e) v = e :: useOf N v := by
  unfold addUse
  rw [useOf_setUses_self]

theorem useOf_addUse_other (N : Module) (v w : V) (e : Nat × Nat) (h : ¬ w = v) :
    useOf (addUse N v e) w = useOf N w := by
  unfold addUse
  rw [useOf_setUses_other _ _ _ _ h]

theorem registerUses_mem (i : Nat) :
    ∀ (ops : List (Option V)) (k : Nat) (N : Module) (w : V) (uk : Nat × Nat),
      uk ∈ useOf (registerUses N i ops k) w ↔
        uk ∈ useOf N w ∨ ∃ j, ops.get? j = some (some w) ∧ uk = (i, k + j) := by
  intro ops
  induction ops with
  | nil =>
    intro k N w uk
    simp [registerUses]
  | cons op rest ih =>
    intro k N w uk
    cases op with
    | none =>
      rw [show registerUses N i (none :: rest) k = registerUses N i rest (k + 1) from rfl]
      rw [ih (k + 1) N w uk]
      constructor
      · rintro (hold | ⟨j, hj1, hj2⟩)
        · exact Or.inl hold
        · exact Or.inr ⟨j + 1, by simpa using hj1, by rw [hj2]; congr 1; omega⟩
      · rintro (hold | ⟨j, hj1, hj2⟩)
        · exact Or.inl hold
        · cases j with
          | zero => simp at hj1
          | succ j' =>
            refine Or.inr ⟨j', by simpa using hj1, by rw [hj2]; congr 1; omega⟩
    | some v =>
      rw [show registerUses N i (some v :: rest) k =
        registerUses (addUse N v (i, k)) i rest (k + 1) from rfl]
      rw [ih (k + 1) _ w uk]
      by_cases hw : w = v
      · subst hw
        rw [useOf_addUse_self]
        constructor
        · rintro (hnew | ⟨j, hj1, hj2⟩)
          · rcases List.mem_cons.mp hnew with rfl | hold
            · exact Or.inr ⟨0, by simp, by simp⟩
            · exact Or.inl hold
          · exact Or.inr ⟨j + 1, by simpa using hj1, by rw [hj2]; congr 1; omega⟩
        · rintro (hold | ⟨j, hj1, hj2⟩)
          · exact Or.inl (List.mem_cons_of_mem _ hold)
          · cases j with
            | zero =>
              refine Or.inl ?_
              rw [hj2]
              simpa using List.mem_cons_self _ _
            | succ j' =>
              refine Or.inr ⟨j', by simpa using hj1, by rw [hj2]; congr 1; omega⟩
      · rw [useOf_addUse_other _ _ _ _ hw]
        constructor
        · rintro (hold | ⟨j, hj1, hj2⟩)
          · exact Or.inl hold
          · exact Or.inr ⟨j + 1, by simpa using hj1, by rw [hj2]; congr 1; omega⟩
        · rintro (hold | ⟨j, hj1, hj2⟩)
          · exact Or.inl hold
          · cases j with
            | zero =>
              exfalso
              have : some (some w) = some (some v) := by simpa using hj1.symm
              exact hw (by simpa using this)
            | succ j' =>
              exact Or.inr ⟨j', by simpa using hj1, by rw [hj2]; congr 1; omega⟩

theorem registerUses_nodup_at (i : Nat) (w : V) :
    ∀ (ops : List (Option V)) (k : Nat) (N : Module),
      (useOf N w).Nodup → (∀ e ∈ useOf N w, e.1 = i → e.2 < k) →
      (useOf (registerUses N i ops k) w).Nodup := by
  intro ops
  induction ops with
  | nil => intro k N hnd _; exact hnd
  | cons op rest ih =>
    intro k N hnd hbound
    cases op with
    | none =>
      exact ih (k + 1) N hnd (fun e he hi => Nat.lt_succ_of_lt (hbound e he hi))
    | some v =>
      rw [show registerUses N i (some v :: rest) k =
        registerUses (addUse N v (i, k)) i rest (k + 1) from rfl]
      by_cases hw : w = v
      · subst hw
        refine ih (k + 1) _ ?_ ?_
        · rw [useOf_addUse_self]
          refine List.nodup_cons.mpr ⟨?_, hnd⟩
          intro hmem
          exact absurd (hbound (i, k) hmem rfl) (by omega)
        · intro e he hi
          rw [useOf_addUse_self] at he
          rcases List.mem_cons.mp he with rfl | he'
          · omega
          · exact Nat.lt_succ_of_lt (hbound e he' hi)
      · refine ih (k + 1) _ ?_ ?_
        · rw [useOf_addUse_other _ _ _ _ hw]
          exact hnd
        · intro e he hi
          rw [useOf_addUse_other _ _ _ _ hw] at he
          exact Nat.lt_succ_of_lt (hbound e he hi)

theorem registerUses_useKeysNodup (i : Nat) :
    ∀ (ops : List (Option V)) (k : Nat) (N : Module),
      (N.useLists.map (·.1)).Nodup →
      ((registerUses N i ops k).useLists.map (·.1)).Nodup := by
  intro ops
  induction ops with
  | nil => intro k N hnd; exact hnd
  | cons op rest ih =>
    intro k N hnd
    cases op with
    | none => exact ih (k + 1) N hnd
    | some v =>
      rw [show registerUses N i (some v :: rest) k =
        registerUses (addUse N v (i, k)) i rest (k + 1) from rfl]
      exact ih (k + 1) _ (useKeysNodup_setUses _ _ hnd)

theorem registerUses_useKeysFresh (i n : Nat) :
    ∀ (ops : List (Option V)) (k : Nat) (N : Module),
      (∀ op ∈ ops, slotFresh n op) →
      (∀ e ∈ N.useLists, keyFresh n e.1) →
      (∀ e ∈ (registerUses N i ops k).useLists, keyFresh n e.1) := by
  intro ops
  induction ops with
  | nil => intro k N _ hkeys; exact hkeys
  | cons op rest ih =>
    intro k N hops hkeys
    cases op with
    | none =>
      exact ih (k + 1) N (fun o ho => hops o (List.mem_cons_of_mem _ ho)) hkeys
    | some v =>
      rw [show registerUses N i (some v :: rest) k =
        registerUses (addUse N v (i, k)) i rest (k + 1) from rfl]
      refine ih (k + 1) _ (fun o ho => hops o (List.mem_cons_of_mem _ ho)) ?_
      intro e he
      rcases mem_setUses he with rfl | ⟨he', _⟩
      · exact keyFresh_of_slotFresh (hops (some v) (List.mem_cons_self _ _))
      · exact hkeys e he'

theorem slotFresh_mono {n m : Nat} (h : n ≤ m) {op : Option V}
    (hf : slotFresh n op) : slotFresh m op := by
  rcases op with _ | v
  · trivial
  · cases v with
    | inst j => exact Nat.lt_of_lt_of_le hf h
    | arg b k => trivial

theorem keyFresh_mono {n m : Nat} (h : n ≤ m) {v : V}
    (hf : keyFresh n v) : keyFresh m v := by
  cases v with
  | inst j => exact Nat.lt_of_lt_of_le hf h
  | arg b k => trivial

theorem WF_createInst {M : Module} (h : WF M) (b : Nat) (I : Inst)
    (hfresh : ∀ op ∈ I.operands, slotFresh M.nextId op) :
    WF (createInst M b I).1 := by
  have hres : (createInst M b I).1 =
      registerUses
        (appendToBlock { M with insts := (M.nextId, I) :: M.insts, nextId := M.nextId + 1 }
          b M.nextId)
        M.nextId I.operands 0 := rfl
  rw [hres]
  set i := M.nextId with hi
  set M2 := appendToBlock { M with insts := (i, I) :: M.insts, nextId := i + 1 } b i with hM2
  set N := registerUses M2 i I.operands 0 with hN
  have f1 : M2.insts = (i, I) :: M.insts := rfl
  have f2 : M2.nextId = i + 1 := rfl
  have f3 : M2.useLists = M.useLists := rfl
  have hNinsts : N.insts = (i, I) :: M.insts := by
    rw [hN, registerUses_insts, f1]
  have hNnext : N.nextId = i + 1 := by
    rw [hN, registerUses_nextId, f2]
  have hkeylt : ∀ p : Nat × Inst, p ∈ M.insts → p.1 < i := fun p hp => h.instKeysFresh p hp
  have hkeyne : ∀ p : Nat × Inst, p ∈ M.insts → ¬ p.1 = i :=
    fun p hp he => absurd (he ▸ hkeylt p hp) (Nat.lt_irrefl i)
  have hfindN : ∀ j, findInst N j = findInst M2 j := by
    intro j
    unfold findInst
    rw [hN, registerUses_insts]
  have hfindM2_self : findInst M2 i = some I := by
    unfold findInst
    rw [f1, List.find?_cons, show (decide ((i, I).1 = i)) = true by simp]
    rfl
  have hfindM2_other : ∀ j, ¬ j = i → findInst M2 j = findInst M j := by
    intro j hj
    unfold findInst
    rw [f1, List.find?_cons, show (decide ((i, I).1 = j)) = false by
      simp; exact fun hh => hj hh.symm]
  have hfindM_i : findInst M i = none := by
    unfold findInst
    cases hf : M.insts.find? (fun p => decide (p.1 = i)) with
    | none => rfl
    | some p =>
      obtain ⟨hmem, hkey⟩ := assoc_find?_mem hf
      exact absurd hkey (hkeyne p hmem)
  have huseM2 : ∀ w, useOf M2 w = useOf M w := fun w => rfl
  have huseMi : useOf M (V.inst i) = [] := by
    unfold useOf
    cases hf : M.useLists.find? (fun p => decide (p.1 = V.inst i)) with
    | none => rfl
    | some e =>
      obtain ⟨hmem, hkey⟩ := assoc_find?_mem hf
      have := h.useKeysFresh e hmem
      rw [hkey] at this
      exact absurd this (Nat.lt_irrefl i)
  have hmemN : ∀ w uk, uk ∈ useOf N w ↔
      uk ∈ useOf M w ∨ ∃ j, I.operands.get? j = some (some w) ∧ uk = (i, j) := by
    intro w uk
    rw [hN, registerUses_mem]
    rw [huseM2]
    constructor
    · rintro (hold | ⟨j, hj1, hj2⟩)
      · exact Or.inl hold
      · exact Or.inr ⟨j, hj1, by simpa using hj2⟩
    · rintro (hold | ⟨j, hj1, hj2⟩)
      · exact Or.inl hold
      · exact Or.inr ⟨j, hj1, by simpa using hj2⟩
  have holdUserNe : ∀ w uk, uk ∈ useOf M w → liveV M w → ¬ uk.1 = i := by
    intro w uk hmem hlw hui
    obtain ⟨hnd, hfwd⟩ := h.forward_useOf w hlw
    obtain ⟨J, hJ, _⟩ := (userHasSlot_iff M uk w).mp (hfwd uk hmem)
    rw [hui] at hJ
    rw [hfindM_i] at hJ
    cases hJ
  have hliveN : ∀ w, liveV N w ↔ (liveV M w ∨ w = V.inst i) := by
    intro w
    cases w with
    | inst j =>
      simp only [liveV]
      rw [hfindN]
      by_cases hj : j = i
      · subst hj
        rw [hfindM2_self, hfindM_i]
        simp
      · rw [hfindM2_other j hj]
        simp only [V.inst.injEq]
        constructor
        · exact fun hh => Or.inl hh
        · rintro (hh | hh)
          · exact hh
          · exact absurd hh hj
    | arg bb kk =>
      rw [liveV_arg_iff, liveV_arg_iff]
      have hfuncs : N.funcs = M2.funcs := by
        rw [hN]
        exact registerUses_funcs i _ 0 M2
      have hshapes : blockShapes N = blockShapes M := by
        unfold blockShapes allBlocks
        rw [hfuncs]
        have h2 := blockShapes_append
          { M with insts := (i, I) :: M.insts, nextId := i + 1 } b i
        unfold blockShapes allBlocks at h2
        exact h2
      rw [hshapes]
      simp
  refine ⟨?_, ?_, ?_, ?_, ?_, ?_, ?_, ?_⟩
  · rw [hNinsts, List.map_cons]
    refine List.nodup_cons.mpr ⟨?_, h.instKeysNodup⟩
    intro hmem
    obtain ⟨p, hp, hkey⟩ := List.mem_map.mp hmem
    exact hkeyne p hp hkey
  · rw [hN]
    exact registerUses_useKeysNodup i _ 0 M2 (by rw [f3]; exact h.useKeysNodup)
  · have : (allBlocks N).map (·.id) = (allBlocks M).map (·.id) := by
      unfold allBlocks
      rw [hN, registerUses_funcs]
      exact blockIds_append { M with insts := (i, I) :: M.insts, nextId := i + 1 } b i
    rw [this]
    exact h.blockIdsNodup
  · intro p hp
    rw [hNnext]
    rw [hNinsts] at hp
    rcases List.mem_cons.mp hp with rfl | hp'
    · exact Nat.lt_succ_self i
    · exact Nat.lt_succ_of_lt (hkeylt p hp')
  · intro p hp op hop
    rw [hNnext]
    rw [hNinsts] at hp
    rcases List.mem_cons.mp hp with rfl | hp'
    · exact slotFresh_mono (Nat.le_succ i) (hfresh op hop)
    · exact slotFresh_mono (Nat.le_succ i) (h.slotsFresh p hp' op hop)
  · intro e he
    rw [hNnext]
    rw [hN] at he
    refine registerUses_useKeysFresh i (i + 1) _ 0 M2 ?_ ?_ e he
    · intro op hop
      exact slotFresh_mono (Nat.le_succ i) (hfresh op hop)
    · intro e' he'
      rw [f3] at he'
      exact keyFresh_mono (Nat.le_succ i) (h.useKeysFresh e' he')
  · intro e he hlv
    have hgen : ∀ w, liveV N w → (useOf N w).Nodup ∧ ∀ uk ∈ useOf N w, userHasSlot N uk w := by
      intro w hlw
      rcases (hliveN w).mp hlw with hlwM | rfl
      · constructor
        · obtain ⟨hnd, _⟩ := h.forward_useOf w hlwM
          rw [hN]
          refine registerUses_nodup_at i w _ 0 M2 (by rw [huseM2]; exact hnd) ?_
          intro e' he' hi'
          rw [huseM2] at he'
          exact absurd hi' (holdUserNe w e' he' hlwM)
        · intro uk hukmem
          rcases (hmemN w uk).mp hukmem with hold | ⟨j, hj1, hj2⟩
          · obtain ⟨hnd, hfwd⟩ := h.forward_useOf w hlwM
            obtain ⟨J, hJ, hJs⟩ := (userHasSlot_iff M uk w).mp (hfwd uk hold)
            rw [userHasSlot_iff]
            refine ⟨J, ?_, hJs⟩
            rw [hfindN, hfindM2_other uk.1 (holdUserNe w uk hold hlwM)]
            exact hJ
          · rw [userHasSlot_iff]
            refine ⟨I, ?_, ?_⟩
            · rw [hj2, hfindN]
              exact hfindM2_self
            · rw [hj2]
              exact hj1
      · constructor
        · rw [hN]
          refine registerUses_nodup_at i (V.inst i) _ 0 M2 ?_ ?_
          · rw [huseM2, huseMi]
            exact List.nodup_nil
          · intro e' he' _
            rw [huseM2, huseMi] at he'
            cases he'
        · intro uk hukmem
          rcases (hmemN (V.inst i) uk).mp hukmem with hold | ⟨j, hj1, hj2⟩
          · rw [huseMi] at hold
            cases hold
          · rw [userHasSlot_iff]
            refine ⟨I, ?_, ?_⟩
            · rw [hj2, hfindN]
              exact hfindM2_self
            · rw [hj2]
              exact hj1
    exact hgen e.1 hlv
  · intro p hp k' hk'
    rw [hNinsts] at hp
    rcases List.mem_cons.mp hp with rfl | hp'
    · cases hjs : ((I.operands.get? k').join) with
      | none => trivial
      | some w =>
        intro hw
        rw [hmemN]
        refine Or.inr ⟨k', ?_, rfl⟩
        cases hg : I.operands.get? k' with
        | none => rw [hg] at hjs; cases hjs
        | some o =>
          rw [hg] at hjs
          cases o with
          | none => cases hjs
          | some w' =>
            have hww : w' = w := by simpa using hjs
            rw [hww]
    · have hb := h.backward p hp' k' hk'
      cases hjs : ((p.2.operands.get? k').join) with
      | none => trivial
      | some w =>
        rw [hjs] at hb
        intro hw
        have hwne : ¬ w = V.inst i := by
          intro hwi
          have hf := h.slotsFresh p hp' (p.2.operands.get? k').join ?hmem
          case hmem =>
            cases hg : p.2.operands.get? k' with
            | none => rw [hg] at hjs; cases hjs
            | some o => exact List.get?_mem hg
          rw [hjs, hwi] at hf
          exact absurd hf (Nat.lt_irrefl i)
        have hlwM : liveV M w := by
          rcases (hliveN w).mp hw with hh | hh
          · exact hh
          · exact absurd hh hwne
        have hmem := hb hlwM
        rw [hmemN]
        exact Or.inl hmem

/-! ### Composing preservation through the pass operations -/

theorem dropCollect_fst_eq (u : Nat) :
    ∀ (fuel k : Nat) (M : Module), (dropCollect M u fuel k).1 = dropRefs M u fuel k := by
  intro fuel
  induction fuel with
  | zero => intro k M; rfl
  | succ n ih =>
    intro k M
    simp only [dropCollect, dropRefs]
    exact ih (k + 1) _

theorem dropAndCollect_fst (M : Module) (u : Nat) :
    (dropAndCollect M u).1 = dropAllRefs M u := by
  unfold dropAndCollect dropAllRefs
  cases findInst M u with
  | none => rfl
  | some I => exact dropCollect_fst_eq u _ 0 M

theorem slotsNone_rdtdiLoop (j : Nat) :
    ∀ (M : Module) (stack : List Nat), slotsNone M j → slotsNone (rdtdiLoop M stack) j := by
  intro M stack
  induction M, stack using rdtdiLoop.induct with
  | case1 M =>
    intro h
    simpa [rdtdiLoop] using h
  | case2 M i rest hfi p ih =>
    intro h
    rw [rdtdiLoop, dif_pos hfi]
    exact ih (slotsNone_erase (by rw [dropAndCollect_fst]; exact slotsNone_dropAllRefs h i) i)
  | case3 M i rest hfi ih =>
    intro h
    rw [rdtdiLoop, dif_neg hfi]
    exact ih h

theorem WF_dropRefs (u : Nat) :
    ∀ (fuel k : Nat) (M : Module), WF M → WF (dropRefs M u fuel k) := by
  intro fuel
  induction fuel with
  | zero => intro k M h; exact h
  | succ n ih =>
    intro k M h
    exact ih (k + 1) _ (WF_dropOperand h u k)

theorem WF_dropAllRefs {M : Module} (h : WF M) (u : Nat) : WF (dropAllRefs M u) := by
  unfold dropAllRefs
  cases findInst M u with
  | none => exact h
  | some I => exact WF_dropRefs u _ 0 M h

theorem WF_rdtdiLoop :
    ∀ (M : Module) (stack : List Nat), WF M → WF (rdtdiLoop M stack) := by
  intro M stack
  induction M, stack using rdtdiLoop.induct with
  | case1 M =>
    intro h
    simpa [rdtdiLoop] using h
  | case2 M i rest hfi p ih =>
    intro h
    rw [rdtdiLoop, dif_pos hfi]
    refine ih (WF_erase ?_ i ?_)
    · rw [dropAndCollect_fst]
      exact WF_dropAllRefs h i
    · rw [dropAndCollect_fst]
      exact dropAllRefs_slotsNone M i
  | case3 M i rest hfi ih =>
    intro h
    rw [rdtdiLoop, dif_neg hfi]
    exact ih h

theorem WF_rdtdi {M : Module} (h : WF M) (i : Nat) :
    WF (recursivelyDeleteTriviallyDeadInstructions M i).1 := by
  unfold recursivelyDeleteTriviallyDeadInstructions
  split
  · exact WF_rdtdiLoop M [i] h
  · exact h

theorem slotsNone_rdtdi {M : Module} {j : Nat} (h : slotsNone M j) (i : Nat) :
    slotsNone (recursivelyDeleteTriviallyDeadInstructions M i).1 j := by
  unfold recursivelyDeleteTriviallyDeadInstructions
  split
  · exact slotsNone_rdtdiLoop j M [i] h
  · exact h

theorem WF_phase1 (toDel : List Nat) :
    ∀ (pending : List Nat) (M : Module) (acc : List Nat), WF M →
      WF (phase1 toDel pending M acc).1 := by
  intro pending
  induction pending with
  | nil => intro M acc h; exact h
  | cons d rest ih =>
    intro M acc h
    simp only [phase1]
    cases findInst M d with
    | none => exact ih M acc h
    | some I => exact ih _ _ (WF_dropAllRefs h d)

theorem phase1_preserves_slotsNone (toDel : List Nat) {j : Nat} :
    ∀ (pending : List Nat) (M : Module) (acc : List Nat), slotsNone M j →
      slotsNone (phase1 toDel pending M acc).1 j := by
  intro pending
  induction pending with
  | nil => intro M acc h; exact h
  | cons d rest ih =>
    intro M acc h
    simp only [phase1]
    cases findInst M d with
    | none => exact ih M acc h
    | some I => exact ih _ _ (slotsNone_dropAllRefs h d)

theorem phase1_establishes_slotsNone (toDel : List Nat) :
    ∀ (pending : List Nat) (M : Module) (acc : List Nat) (d : Nat), d ∈ pending →
      slotsNone (phase1 toDel pending M acc).1 d := by
  intro pending
  induction pending with
  | nil => intro M acc d hd; cases hd
  | cons d0 rest ih =>
    intro M acc d hd
    simp only [phase1]
    cases hI : findInst M d0 with
    | none =>
      rcases List.mem_cons.mp hd with rfl | hd'
      · exact phase1_preserves_slotsNone toDel rest M acc (slotsNone_of_none hI)
      · exact ih M acc d hd'
    | some I =>
      rcases List.mem_cons.mp hd with rfl | hd'
      · exact phase1_preserves_slotsNone toDel rest _ _ (dropAllRefs_slotsNone M d)
      · exact ih _ _ d hd'

theorem WF_phase2 :
    ∀ (cands : List Nat) (M : Module) (acc : Bool), WF M → WF (phase2 cands M acc).1 := by
  intro cands
  induction cands with
  | nil => intro M acc h; exact h
  | cons c rest ih =>
    intro M acc h
    simp only [phase2]
    exact ih _ _ (WF_rdtdi h c)

theorem phase2_preserves_slotsNone {j : Nat} :
    ∀ (cands : List Nat) (M : Module) (acc : Bool), slotsNone M j →
      slotsNone (phase2 cands M acc).1 j := by
  intro cands
  induction cands with
  | nil => intro M acc h; exact h
  | cons c rest ih =>
    intro M acc h
    simp only [phase2]
    exact ih _ _ (slotsNone_rdtdi h c)

theorem WF_foldl_erase :
    ∀ (l : List Nat) (M : Module), WF M → (∀ d ∈ l, slotsNone M d) →
      WF (l.foldl (fun m d => eraseFromParent m d) M) := by
  intro l
  induction l with
  | nil => intro M h _; exact h
  | cons d rest ih =>
    intro M h hsn
    simp only [List.foldl_cons]
    refine ih _ (WF_erase h d (hsn d (List.mem_cons_self _ _))) ?_
    intro d' hd'
    exact slotsNone_erase (hsn d' (List.mem_cons_of_mem _ hd')) d

theorem WF_eraseAndCleanup {M : Module} (h : WF M) (toDel : List Nat) :
    WF (eraseAndCleanup M toDel).1 := by
  unfold eraseAndCleanup
  refine WF_foldl_erase toDel _ (WF_phase2 _ _ _ (WF_phase1 toDel toDel M [] h)) ?_
  intro d hd
  exact phase2_preserves_slotsNone _ _ _
    (phase1_establishes_slotsNone toDel toDel M [] d hd)

theorem WF_setCounters {M : Module} (h : WF M) (n1 n2 : Nat) :
    WF { M with numInstructionsRemoved := n1, numBlocksRemoved := n2 } :=
  ⟨h.instKeysNodup, h.useKeysNodup, h.blockIdsNodup, h.instKeysFresh, h.slotsFresh,
    h.useKeysFresh, h.forward, h.backward⟩

theorem WF_setInstCounter {M : Module} (h : WF M) (n1 : Nat) :
    WF { M with numInstructionsRemoved := n1 } :=
  ⟨h.instKeysNodup, h.useKeysNodup, h.blockIdsNodup, h.instKeysFresh, h.slotsFresh,
    h.useKeysFresh, h.forward, h.backward⟩

theorem condBrLiteral_spec {M : Module} {b : Nat} {ti : Nat} {TI : Inst} {bit : Bool}
    (h : condBrLiteral M b = some (ti, TI, bit)) :
    getTerminatorId M b = some ti ∧ findInst M ti = some TI ∧
      (∃ tD fD nT nF, TI.kind = .condBr tD fD nT nF) ∧
      (∃ ci CI, TI.operands.get? 0 = some (some (V.inst ci)) ∧
        findInst M ci = some CI ∧ CI.kind = .intLit bit) := by
  unfold condBrLiteral at h
  split at h
  next => cases h
  next ti' hti =>
    split at h
    next => cases h
    next TI' hTI =>
      split at h <;> try cases h
      next tD fD nT nF hkind =>
        split at h <;> try cases h
        next ci hop =>
          split at h <;> try cases h
          next CI hci =>
            split at h <;> try cases h
            next bb hkindCI =>
              exact ⟨hti, hTI, ⟨tD, fD, nT, nF, hkind⟩, ci, CI, hop, hci, hkindCI⟩

theorem WF_constantFold {M : Module} (h : WF M) (b : Nat) :
    WF (constantFoldTerminator M b).1 := by
  unfold constantFoldTerminator
  cases hc : condBrLiteral M b with
  | none => exact h
  | some tib =>
    obtain ⟨ti, TI, bit⟩ := tib
    obtain ⟨hterm, hTI, _, _⟩ := condBrLiteral_spec hc
    dsimp only
    cases hk : TI.kind with
    | condBr tD fD nT nF =>
      refine WF_eraseAndCleanup (WF_createInst h b _ ?_) [ti]
      intro op hop
      refine h.slotsFresh (ti, TI) (findInst_some_mem hTI) op ?_
      cases bit
      · rw [if_neg (by simp)] at hop
        exact List.mem_of_mem_drop (List.mem_of_mem_take hop)
      · rw [if_pos rfl] at hop
        exact List.mem_of_mem_drop (List.mem_of_mem_take hop)
    | apply c n => exact h
    | intLit bb => exact h
    | br d => exact h
    | unreachable => exact h
    | ret => exact h
    | other => exact h

theorem WF_simplify {M : Module} (h : WF M) (b : Nat) :
    WF (simplifyBlocksWithCallsToNoReturn M b).1 := by
  unfold simplifyBlocksWithCallsToNoReturn
  cases findBlock M b with
  | none => exact h
  | some B =>
    dsimp only
    split
    · refine WF_createInst (WF_eraseAndCleanup (WF_setInstCounter h _) _) b _ ?_
      intro op hop
      cases hop
    · exact h

/-! ### Preservation of well-formedness: the reachability sweep -/

theorem flatMap_set_sublist (fs : List Func) :
    ∀ (n : Nat) (Fn : Func), (∀ F, fs.get? n = some F → Fn.blocks.Sublist F.blocks) →
      ((fs.set n Fn).flatMap (·.blocks)).Sublist (fs.flatMap (·.blocks)) := by
  induction fs with
  | nil => intro n Fn _; exact List.Sublist.refl _
  | cons F t ih =>
    intro n Fn hsub
    cases n with
    | zero =>
      simp only [List.set_cons_zero, List.flatMap_cons]
      exact List.Sublist.append (hsub F rfl) (List.Sublist.refl _)
    | succ n' =>
      simp only [List.set_cons_succ, List.flatMap_cons]
      exact List.Sublist.append (List.Sublist.refl _) (ih n' Fn (fun F' hF' => hsub F' hF'))

theorem allBlocks_filterBlocks_sublist (M : Module) (fIdx : Nat) (p : Block → Bool) :
    (allBlocks (setFuncBlocks M fIdx ((funcBlocks M fIdx).filter p))).Sublist
      (allBlocks M) := by
  unfold allBlocks setFuncBlocks
  simp only []
  refine flatMap_set_sublist M.funcs fIdx _ ?_
  intro F hF
  unfold funcBlocks
  rw [hF]
  exact List.filter_sublist _

theorem WF_filterBlocks {M : Module} (h : WF M) (fIdx : Nat) (p : Block → Bool) (n : Nat) :
    WF { setFuncBlocks M fIdx ((funcBlocks M fIdx).filter p) with
          numBlocksRemoved := n } := by
  set M' : Module := { setFuncBlocks M fIdx ((funcBlocks M fIdx).filter p) with
    numBlocksRemoved := n } with hM'
  have hsub : (allBlocks M').Sublist (allBlocks M) := by
    have := allBlocks_filterBlocks_sublist M fIdx p
    exact this
  have hinsts : M'.insts = M.insts := rfl
  have huses : M'.useLists = M.useLists := rfl
  have hnext : M'.nextId = M.nextId := rfl
  have hfind : ∀ j, findInst M' j = findInst M j := fun j => rfl
  have huseOf : ∀ w, useOf M' w = useOf M w := fun w => rfl
  have hliveMono : ∀ w, liveV M' w → liveV M w := by
    intro w hw
    cases w with
    | inst j => exact hw
    | arg bb kk =>
      rw [liveV_arg_iff] at hw ⊢
      obtain ⟨sh, hsh, h1, h2⟩ := hw
      refine ⟨sh, ?_, h1, h2⟩
      unfold blockShapes at hsh ⊢
      obtain ⟨B, hB, rfl⟩ := List.mem_map.mp hsh
      exact List.mem_map.mpr ⟨B, hsub.subset hB, rfl⟩
  refine ⟨?_, ?_, ?_, ?_, ?_, ?_, ?_, ?_⟩
  · rw [hinsts]; exact h.instKeysNodup
  · rw [huses]; exact h.useKeysNodup
  · exact List.Nodup.sublist (hsub.map _) h.blockIdsNodup
  · intro q hq
    rw [hnext]
    rw [hinsts] at hq
    exact h.instKeysFresh q hq
  · intro q hq op hop
    rw [hnext]
    rw [hinsts] at hq
    exact h.slotsFresh q hq op hop
  · intro e he
    rw [hnext]
    rw [huses] at he
    exact h.useKeysFresh e he
  · intro e he hlv
    rw [huses] at he
    obtain ⟨hnd, hfwd⟩ := h.forward_useOf e.1 (hliveMono e.1 hlv)
    rw [huseOf]
    refine ⟨hnd, ?_⟩
    intro uk hmem
    obtain ⟨J, hJ, hJs⟩ := (userHasSlot_iff M uk e.1).mp (hfwd uk hmem)
    rw [userHasSlot_iff]
    exact ⟨J, by rw [hfind]; exact hJ, hJs⟩
  · intro q hq k' hk'
    rw [hinsts] at hq
    have hb := h.backward q hq k' hk'
    cases hjs : ((q.2.operands.get? k').join) with
    | none => trivial
    | some w =>
      rw [hjs] at hb
      intro hw
      rw [huseOf]
      exact hb (hliveMono w hw)

theorem WF_foldl_termErase :
    ∀ (bs : List Block) (M : Module), WF M →
      WF (bs.foldl (fun m B =>
        match getTerminatorId m B.id with
        | some t => (eraseAndCleanup m [t]).1
        | none => m) M) := by
  intro bs
  induction bs with
  | nil => intro M h; exact h
  | cons B rest ih =>
    intro M h
    simp only [List.foldl_cons]
    cases getTerminatorId M B.id with
    | none => exact ih M h
    | some t => exact ih _ (WF_eraseAndCleanup h [t])

theorem WF_removeUnreachableBlocks {M : Module} (h : WF M) (fIdx : Nat) :
    WF (removeUnreachableBlocks M fIdx).1 := by
  unfold removeUnreachableBlocks
  cases hF : M.funcs.get? fIdx with
  | none => simp only [hF]; exact h
  | some F =>
    simp only [hF]
    cases hE : F.blocks.head? with
    | none => simp only [hE]; exact h
    | some entry =>
      simp only [hE]
      split
      · exact h
      · exact WF_filterBlocks
          (WF_eraseAndCleanup (WF_foldl_termErase _ M h) _) fIdx _ _

theorem WF_applyOp {M : Module} (h : WF M) (op : PassOp) : WF (applyOp M op) := by
  cases op with
  | liveTest i => exact h
  | cascadeDelete i => exact WF_rdtdi h i
  | setDelete l => exact WF_eraseAndCleanup h l
  | constFold b => exact WF_constantFold h b
  | truncate b => exact WF_simplify h b
  | sweep f => exact WF_removeUnreachableBlocks h f

/-! ### Claim C1: def-use consistency is an invariant -/

/-- C1 — def-use consistency is an invariant of every operation of the pass:
starting from any consistent module, after any sequence of the pass's
operations (liveness test, cascading deletion, set deletion, constant
folding, truncation, reachability sweep) the module is still consistent —
for every live value, its use-list is duplicate-free and contains exactly
the operands of live instructions that reference it (`WF.forward` and
`WF.backward`), together with the bookkeeping invariants (duplicate-free
ids, builder freshness) that the operations also maintain. -/
theorem C1_defuse_consistency_invariant (M : Module) (ops : List PassOp)
    (h : WF M) : WF (runOps M ops) := by
  unfold runOps
  induction ops generalizing M with
  | nil => exact h
  | cons op rest ih =>
    simp only [List.foldl_cons]
    exact ih _ (WF_applyOp h op)

/-- Witness for C1: a concrete consistent module stays consistent under a
concrete sequence of all six operations. -/
theorem C1_witness :
    WF (runOps exampleFold
      [PassOp.liveTest 0, PassOp.constFold 0, PassOp.truncate 1,
       PassOp.cascadeDelete 2, PassOp.setDelete [2], PassOp.sweep 0]) :=
  C1_defuse_consistency_invariant exampleFold
    [PassOp.liveTest 0, PassOp.constFold 0, PassOp.truncate 1,
     PassOp.cascadeDelete 2, PassOp.setDelete [2], PassOp.sweep 0]
    (by decide)

/-! ### Statistics counters -/

/-- The number of basic blocks in the module. -/
def totalBlocks (M : Module) : Nat := (allBlocks M).length

/-- Between two module states: both counters are non-decreasing and the sum
of the blocks-removed counter and the number of blocks in the module is
conserved (the counter exactly accounts for every removed block). -/
def counterSpec (M N : Module) : Prop :=
  M.numInstructionsRemoved ≤ N.numInstructionsRemoved ∧
  M.numBlocksRemoved ≤ N.numBlocksRemoved ∧
  N.numBlocksRemoved + totalBlocks N = M.numBlocksRemoved + totalBlocks M

theorem counterSpec_refl (M : Module) : counterSpec M M :=
  ⟨Nat.le_refl _, Nat.le_refl _, rfl⟩

theorem counterSpec_trans {M N P : Module}
    (h1 : counterSpec M N) (h2 : counterSpec N P) : counterSpec M P := by
  obtain ⟨a1, a2, a3⟩ := h1
  obtain ⟨b1, b2, b3⟩ := h2
  exact ⟨Nat.le_trans a1 b1, Nat.le_trans a2 b2, by omega⟩

theorem counterSpec_of_eq {M N : Module}
    (h1 : N.numInstructionsRemoved = M.numInstructionsRemoved)
    (h2 : N.numBlocksRemoved = M.numBlocksRemoved)
    (h3 : N.funcs = M.funcs) : counterSpec M N := by
  refine ⟨Nat.le_of_eq h1.symm, Nat.le_of_eq h2.symm, ?_⟩
  unfold totalBlocks allBlocks
  rw [h2, h3]

theorem totalBlocks_eq_idLen (M : Module) :
    totalBlocks M = ((allBlocks M).map (·.id)).length := by
  unfold totalBlocks
  rw [List.length_map]

theorem counterSpec_dropOperand (M : Module) (u k : Nat) :
    counterSpec M (dropOperand M u k) := by
  cases hI : findInst M u with
  | none => rw [dropOperand_none k hI]; exact counterSpec_refl M
  | some I =>
    rw [dropOperand_eq k hI]
    cases hs : I.operands.get? k with
    | none => exact counterSpec_refl M
    | some o =>
      cases o with
      | none => exact counterSpec_refl M
      | some v =>
        dsimp only
        refine counterSpec_of_eq ?_ ?_ ?_
        · unfold setUses
          split <;> rfl
        · unfold setUses
          split <;> rfl
        · rw [funcs_setUses, funcs_setInst]

theorem counterSpec_erase (M : Module) (i : Nat) :
    counterSpec M (eraseFromParent M i) := by
  refine ⟨Nat.le_refl _, Nat.le_refl _, ?_⟩
  have h1 : (eraseFromParent M i).numBlocksRemoved = M.numBlocksRemoved := rfl
  rw [h1, totalBlocks_eq_idLen, totalBlocks_eq_idLen, blockIds_erase]

theorem counterSpec_createInst (M : Module) (b : Nat) (I : Inst) :
    counterSpec M (createInst M b I).1 := by
  have hres : (createInst M b I).1 =
      registerUses
        (appendToBlock { M with insts := (M.nextId, I) :: M.insts, nextId := M.nextId + 1 }
          b M.nextId)
        M.nextId I.operands 0 := rfl
  rw [hres]
  have hfuncs : (registerUses
      (appendToBlock { M with insts := (M.nextId, I) :: M.insts, nextId := M.nextId + 1 }
        b M.nextId) M.nextId I.operands 0).funcs =
      (appendToBlock { M with insts := (M.nextId, I) :: M.insts, nextId := M.nextId + 1 }
        b M.nextId).funcs := registerUses_funcs _ _ _ _
  have hcnt1 : ∀ (ops : List (Option V)) (k : Nat) (N : Module),
      (registerUses N M.nextId ops k).numInstructionsRemoved = N.numInstructionsRemoved ∧
      (registerUses N M.nextId ops k).numBlocksRemoved = N.numBlocksRemoved := by
    intro ops
    induction ops with
    | nil => intro k N; exact ⟨rfl, rfl⟩
    | cons op rest ih =>
      intro k N
      cases op with
      | none => exact ih (k + 1) N
      | some v =>
        rw [show registerUses N M.nextId (some v :: rest) k =
          registerUses (addUse N v (M.nextId, k)) M.nextId rest (k + 1) from rfl]
        refine ⟨(ih (k + 1) _).1.trans ?_, (ih (k + 1) _).2.trans ?_⟩ <;>
        · unfold addUse setUses
          split <;> rfl
  obtain ⟨hc1, hc2⟩ := hcnt1 I.operands 0 _
  refine ⟨?_, ?_, ?_⟩
  · rw [hc1]; exact Nat.le_refl _
  · rw [hc2]; exact Nat.le_refl _
  · rw [hc2, totalBlocks_eq_idLen, totalBlocks_eq_idLen]
    unfold allBlocks
    rw [hfuncs]
    have := blockIds_append
      { M with insts := (M.nextId, I) :: M.insts, nextId := M.nextId + 1 } b M.nextId
    unfold allBlocks at this
    rw [this]
    rfl

theorem counterSpec_rdtdiLoop :
    ∀ (M : Module) (stack : List Nat), counterSpec M (rdtdiLoop M stack) := by
  intro M stack
  induction M, stack using rdtdiLoop.induct with
  | case1 M => rw [rdtdiLoop]; exact counterSpec_refl M
  | case2 M i rest hfi p ih =>
    rw [rdtdiLoop, dif_pos hfi]
    refine counterSpec_trans (counterSpec_trans ?_ (counterSpec_erase _ i)) ih
    rw [dropAndCollect_fst]
    unfold dropAllRefs
    cases findInst M i with
    | none => exact counterSpec_refl M
    | some I =>
      have : ∀ (fuel k : Nat) (N : Module), counterSpec N (dropRefs N i fuel k) := by
        intro fuel
        induction fuel with
        | zero => intro k N; exact counterSpec_refl N
        | succ n ihf =>
          intro k N
          exact counterSpec_trans (counterSpec_dropOperand N i k) (ihf (k + 1) _)
      exact this _ 0 M
  | case3 M i rest hfi ih =>
    rw [rdtdiLoop, dif_neg hfi]
    exact ih

theorem counterSpec_dropRefs (u : Nat) :
    ∀ (fuel k : Nat) (N : Module), counterSpec N (dropRefs N u fuel k) := by
  intro fuel
  induction fuel with
  | zero => intro k N; exact counterSpec_refl N
  | succ n ihf =>
    intro k N
    exact counterSpec_trans (counterSpec_dropOperand N u k) (ihf (k + 1) _)

theorem counterSpec_rdtdi (M : Module) (i : Nat) :
    counterSpec M (recursivelyDeleteTriviallyDeadInstructions M i).1 := by
  unfold recursivelyDeleteTriviallyDeadInstructions
  split
  · exact counterSpec_rdtdiLoop M [i]
  · exact counterSpec_refl M

theorem counterSpec_eraseAndCleanup (M : Module) (toDel : List Nat) :
    counterSpec M (eraseAndCleanup M toDel).1 := by
  unfold eraseAndCleanup
  have hp1 : ∀ (pending : List Nat) (N : Module) (acc : List Nat),
      counterSpec N (phase1 toDel pending N acc).1 := by
    intro pending
    induction pending with
    | nil => intro N acc; exact counterSpec_refl N
    | cons d rest ih =>
      intro N acc
      simp only [phase1]
      cases findInst N d with
      | none => exact ih N acc
      | some I =>
        refine counterSpec_trans ?_ (ih _ _)
        unfold dropAllRefs
        cases findInst N d with
        | none => exact counterSpec_refl N
        | some I2 => exact counterSpec_dropRefs d _ 0 N
  have hp2 : ∀ (cands : List Nat) (N : Module) (acc : Bool),
      counterSpec N (phase2 cands N acc).1 := by
    intro cands
    induction cands with
    | nil => intro N acc; exact counterSpec_refl N
    | cons c rest ih =>
      intro N acc
      simp only [phase2]
      exact counterSpec_trans (counterSpec_rdtdi N c) (ih _ _)
  have hp3 : ∀ (l : List Nat) (N : Module),
      counterSpec N (l.foldl (fun m d => eraseFromParent m d) N) := by
    intro l
    induction l with
    | nil => intro N; exact counterSpec_refl N
    | cons d rest ih =>
      intro N
      simp only [List.foldl_cons]
      exact counterSpec_trans (counterSpec_erase N d) (ih _)
  exact counterSpec_trans (hp1 toDel M []) (counterSpec_trans (hp2 _ _ _) (hp3 _ _))

theorem counterSpec_constantFold (M : Module) (b : Nat) :
    counterSpec M (constantFoldTerminator M b).1 := by
  unfold constantFoldTerminator
  cases condBrLiteral M b with
  | none => exact counterSpec_refl M
  | some tib =>
    obtain ⟨ti, TI, bit⟩ := tib
    dsimp only
    cases TI.kind with
    | condBr tD fD nT nF =>
      exact counterSpec_trans (counterSpec_createInst M b _) (counterSpec_eraseAndCleanup _ _)
    | apply c n => exact counterSpec_refl M
    | intLit bb => exact counterSpec_refl M
    | br d => exact counterSpec_refl M
    | unreachable => exact counterSpec_refl M
    | ret => exact counterSpec_refl M
    | other => exact counterSpec_refl M

theorem counterSpec_simplify (M : Module) (b : Nat) :
    counterSpec M (simplifyBlocksWithCallsToNoReturn M b).1 := by
  unfold simplifyBlocksWithCallsToNoReturn
  cases findBlock M b with
  | none => exact counterSpec_refl M
  | some B =>
    dsimp only
    split
    · refine counterSpec_trans
        (⟨Nat.le_add_right _ _, Nat.le_refl _, rfl⟩ :
          counterSpec M { M with numInstructionsRemoved :=
            M.numInstructionsRemoved + (scanNoReturn M B.instrs false []).2.length })
        (counterSpec_trans (counterSpec_eraseAndCleanup _ _) (counterSpec_createInst _ b _))
    · exact counterSpec_refl M

theorem flatMap_set_length (fs : List Func) :
    ∀ (n : Nat) (Fn F : Func), fs.get? n = some F →
      ((fs.set n Fn).flatMap (·.blocks)).length + F.blocks.length =
        (fs.flatMap (·.blocks)).length + Fn.blocks.length := by
  induction fs with
  | nil => intro n Fn F hF; cases hF
  | cons G t ih =>
    intro n Fn F hF
    cases n with
    | zero =>
      have hGF : G = F := by simpa using hF
      subst hGF
      simp only [List.set_cons_zero, List.flatMap_cons, List.length_append]
      omega
    | succ n' =>
      have hF' : t.get? n' = some F := by simpa using hF
      simp only [List.set_cons_succ, List.flatMap_cons, List.length_append]
      have := ih n' Fn F hF'
      omega

theorem counterSpec_sweep (M : Module) (fIdx : Nat) :
    counterSpec M (removeUnreachableBlocks M fIdx).1 := by
  unfold removeUnreachableBlocks
  cases hF : M.funcs.get? fIdx with
  | none => simp only [hF]; exact counterSpec_refl M
  | some F =>
    simp only [hF]
    cases hE : F.blocks.head? with
    | none => simp only [hE]; exact counterSpec_refl M
    | some entry =>
      simp only [hE]
      split
      · exact counterSpec_refl M
      · set reachable := reachLoop M [entry.id] [entry.id] with hreach
        set M1 := (F.blocks.filter (fun B => ¬ reachable.contains B.id)).foldl
          (fun m B =>
            match getTerminatorId m B.id with
            | some t => (eraseAndCleanup m [t]).1
            | none => m) M with hM1
        set toDel := ((funcBlocks M1 fIdx).filter
            (fun B => ¬ reachable.contains B.id)).flatMap (·.instrs) with htoDel
        set M2 := (eraseAndCleanup M1 toDel).1 with hM2
        set kept := (funcBlocks M2 fIdx).filter (fun B => reachable.contains B.id) with hkept
        have hs1 : counterSpec M M1 := by
          rw [hM1]
          have : ∀ (bs : List Block) (N : Module),
              counterSpec N (bs.foldl (fun m B =>
                match getTerminatorId m B.id with
                | some t => (eraseAndCleanup m [t]).1
                | none => m) N) := by
            intro bs
            induction bs with
            | nil => intro N; exact counterSpec_refl N
            | cons B rest ih =>
              intro N
              simp only [List.foldl_cons]
              cases getTerminatorId N B.id with
              | none => exact ih N
              | some t => exact counterSpec_trans (counterSpec_eraseAndCleanup N [t]) (ih _)
          exact this _ M
        have hs2 : counterSpec M1 M2 := counterSpec_eraseAndCleanup M1 toDel
        have hsM2 : counterSpec M M2 := counterSpec_trans hs1 hs2
        refine counterSpec_trans hsM2 ?_
        refine ⟨Nat.le_refl _, Nat.le_add_right _ _, ?_⟩
        show (setFuncBlocks M2 fIdx kept).numBlocksRemoved +
            ((funcBlocks M2 fIdx).length - kept.length) +
            totalBlocks { setFuncBlocks M2 fIdx kept with
              numBlocksRemoved := (setFuncBlocks M2 fIdx kept).numBlocksRemoved +
                ((funcBlocks M2 fIdx).length - kept.length) } =
          M2.numBlocksRemoved + totalBlocks M2
        have hcnt : (setFuncBlocks M2 fIdx kept).numBlocksRemoved = M2.numBlocksRemoved := rfl
        rw [hcnt]
        have hkle : kept.length ≤ (funcBlocks M2 fIdx).length := by
          rw [hkept]
          exact List.length_filter_le _ _
        cases hF2 : M2.funcs.get? fIdx with
        | none =>
          have hfb : funcBlocks M2 fIdx = [] := by
            unfold funcBlocks
            rw [hF2]
            rfl
          have hset : M2.funcs.set fIdx { blocks := kept } = M2.funcs :=
            List.set_eq_of_length_le (List.get?_eq_none.mp hF2)
          have : totalBlocks { setFuncBlocks M2 fIdx kept with
              numBlocksRemoved := M2.numBlocksRemoved +
                ((funcBlocks M2 fIdx).length - kept.length) } = totalBlocks M2 := by
            unfold totalBlocks allBlocks setFuncBlocks
            simp only []
            rw [hset]
          rw [this, hfb]
          simp
        | some F2 =>
          have hfb : funcBlocks M2 fIdx = F2.blocks := by
            unfold funcBlocks
            rw [hF2]
            rfl
          have hlen := flatMap_set_length M2.funcs fIdx { blocks := kept } F2 hF2
          have htb : totalBlocks { setFuncBlocks M2 fIdx kept with
              numBlocksRemoved := M2.numBlocksRemoved +
                ((funcBlocks M2 fIdx).length - kept.length) } =
              ((M2.funcs.set fIdx { blocks := kept }).flatMap (·.blocks)).length := rfl
          have htb2 : totalBlocks M2 = (M2.funcs.flatMap (·.blocks)).length := rfl
          rw [htb, htb2, hfb]
          have hkb : ({ blocks := kept } : Func).blocks.length = kept.length := rfl
          rw [hkb] at hlen
          rw [hfb] at hkle
          omega

theorem counterSpec_applyOp (M : Module) (op : PassOp) :
    counterSpec M (applyOp M op) := by
  cases op with
  | liveTest i => exact counterSpec_refl M
  | cascadeDelete i => exact counterSpec_rdtdi M i
  | setDelete l => exact counterSpec_eraseAndCleanup M l
  | constFold b => exact counterSpec_constantFold M b
  | truncate b => exact counterSpec_simplify M b
  | sweep f => exact counterSpec_sweep M f

theorem counterSpec_processBlocks :
    ∀ (bs : List Nat) (M : Module), counterSpec M (processBlocks M bs) := by
  intro bs
  induction bs with
  | nil => intro M; exact counterSpec_refl M
  | cons b rest ih =>
    intro M
    simp only [processBlocks]
    split
    · exact counterSpec_trans (counterSpec_constantFold M b) (ih _)
    · exact counterSpec_trans
        (counterSpec_trans (counterSpec_constantFold M b) (counterSpec_simplify _ b)) (ih _)

theorem counterSpec_perform (M : Module) :
    counterSpec M (performSILDeadCodeElimination M) := by
  unfold performSILDeadCodeElimination
  have hfun : ∀ (l : List Nat) (N : Module), counterSpec N (l.foldl processFunction N) := by
    intro l
    induction l with
    | nil => intro N; exact counterSpec_refl N
    | cons f rest ih =>
      intro N
      simp only [List.foldl_cons]
      refine counterSpec_trans ?_ (ih _)
      unfold processFunction
      cases N.funcs.get? f with
      | none => exact counterSpec_refl N
      | some F =>
        exact counterSpec_trans (counterSpec_processBlocks _ N) (counterSpec_sweep _ f)
  exact hfun _ M

/-! ### Claim C9: the statistics counters -/

/-- C9 counterexample — the instructions-removed counter does not count every
instruction the pass deletes: running the whole pass on `exampleFold` deletes
the conditional branch `1` (replaced by the folded unconditional branch), the
literal `0` (cascade) and the return `3` of the unreachable block `2`, yet
`NumInstructionsRemoved` stays `0` (only no-return truncation increments it,
DeadCodeElimination.cpp:188); the blocks-removed counter is `1`.  The claim's
"instructions-removed counter equals the total number of instructions the
pass deleted (by any of its deletion paths)" is false at this input. -/
theorem C9_instruction_counter_inaccurate :
    (performSILDeadCodeElimination exampleFold).numInstructionsRemoved = 0 ∧
    (findInst exampleFold 1).isSome = true ∧
    findInst (performSILDeadCodeElimination exampleFold) 1 = none ∧
    (performSILDeadCodeElimination exampleFold).numBlocksRemoved = 1 := by
  refine ⟨?_, by decide, ?_, ?_⟩ <;>
    simp [performSILDeadCodeElimination, processFunction, processBlocks, exampleFold,
      constantFoldTerminator, condBrLiteral, getTerminatorId, findBlock, allBlocks, findInst,
      simplifyBlocksWithCallsToNoReturn, scanNoReturn, isCallToNoReturn,
      eraseAndCleanup, phase1, phase2, recursivelyDeleteTriviallyDeadInstructions,
      isInstructionTriviallyDead, use_empty, useOf, dropAllRefs, dropRefs, dropOperand,
      setInst, setUses, isTermKind, eraseFromParent, removeFromBlocks, createInst,
      appendToBlock, registerUses, addUse, removeUnreachableBlocks, reachLoop, collectNew,
      succsOf, funcBlocks, setFuncBlocks, rdtdiLoop, dropAndCollect, dropCollect,
      List.range_succ, List.range_zero]

/-- C9 (amended) — both statistics counters are monotonically non-decreasing
across the pass's execution (each individual operation and the whole driver
only ever increase them), and the blocks-removed counter is accurate: its
increase over a run equals exactly the number of basic blocks removed
(`numBlocksRemoved + totalBlocks` is conserved).  The instructions-removed
counter is *not* accurate as claimed: per the counterexample it counts only
the instructions removed by the no-return truncation step, not those deleted
by constant folding, cascading cleanup, or the reachability sweep. -/
theorem C9_counters_monotone_blocks_accurate (M : Module) :
    (M.numInstructionsRemoved ≤
        (performSILDeadCodeElimination M).numInstructionsRemoved ∧
      M.numBlocksRemoved ≤ (performSILDeadCodeElimination M).numBlocksRemoved ∧
      (performSILDeadCodeElimination M).numBlocksRemoved +
          totalBlocks (performSILDeadCodeElimination M) =
        M.numBlocksRemoved + totalBlocks M) ∧
    ∀ op : PassOp, counterSpec M (applyOp M op) :=
  ⟨counterSpec_perform M, fun op => counterSpec_applyOp M op⟩

/-! ### Claim C3: idempotence of the driver -/

/-- C3 counterexample — the pass is not idempotent: on `exampleNoRet` (one
block holding a call to a no-return function followed by a return, with
nothing introduced externally between runs) the first run truncates the block
and counts one removed instruction; the second run finds the same no-return
call again, deletes the `unreachable` terminator the first run created,
creates a new one, and increments the instructions-removed counter again —
the second run's counter delta is 1, not 0, and the module is mutated. -/
theorem C3_not_idempotent_counterexample :
    (performSILDeadCodeElimination exampleNoRet).numInstructionsRemoved = 1 ∧
    (performSILDeadCodeElimination
        (performSILDeadCodeElimination exampleNoRet)).numInstructionsRemoved = 2 ∧
    performSILDeadCodeElimination (performSILDeadCodeElimination exampleNoRet) ≠
      performSILDeadCodeElimination exampleNoRet := by
  refine ⟨?_, ?_, ?_⟩ <;>
    simp [performSILDeadCodeElimination, processFunction, processBlocks, exampleNoRet,
      constantFoldTerminator, condBrLiteral, getTerminatorId, findBlock, allBlocks, findInst,
      simplifyBlocksWithCallsToNoReturn, scanNoReturn, isCallToNoReturn,
      eraseAndCleanup, phase1, phase2, recursivelyDeleteTriviallyDeadInstructions,
      isInstructionTriviallyDead, use_empty, useOf, dropAllRefs, dropRefs, dropOperand,
      setInst, setUses, isTermKind, eraseFromParent, removeFromBlocks, createInst,
      appendToBlock, registerUses, addUse, removeUnreachableBlocks, reachLoop, collectNew,
      succsOf, funcBlocks, setFuncBlocks, rdtdiLoop, dropAndCollect, dropCollect,
      List.range_succ, List.range_zero, Module.mk.injEq]

theorem constantFold_of_no_literal {M : Module} {b : Nat}
    (h : condBrLiteral M b = none) : constantFoldTerminator M b = (M, false) := by
  unfold constantFoldTerminator
  rw [h]

theorem simplify_of_no_call {M : Module} {b : Nat}
    (h : ∀ B ∈ allBlocks M, B.id = b → (scanNoReturn M B.instrs false []).1 = false) :
    simplifyBlocksWithCallsToNoReturn M b = (M, false) := by
  unfold simplifyBlocksWithCallsToNoReturn
  cases hB : findBlock M b with
  | none => rfl
  | some B =>
    obtain ⟨hmem, hid⟩ : B ∈ allBlocks M ∧ B.id = b := by
      unfold findBlock at hB
      refine ⟨List.mem_of_find?_eq_some hB, ?_⟩
      have := List.find?_some hB
      simpa using this
    dsimp only
    rw [if_neg ?_]
    intro hcontra
    rw [h B hmem hid] at hcontra
    cases hcontra

theorem processBlocks_id {M : Module} :
    ∀ (l : List Nat),
      (∀ b ∈ l, constantFoldTerminator M b = (M, false)) →
      (∀ b ∈ l, simplifyBlocksWithCallsToNoReturn M b = (M, false)) →
      processBlocks M l = M := by
  intro l
  induction l with
  | nil => intro _ _; rfl
  | cons b rest ih =>
    intro h1 h2
    simp only [processBlocks]
    rw [h1 b (List.mem_cons_self _ _), h2 b (List.mem_cons_self _ _)]
    simp only []
    exact ih (fun b' hb' => h1 b' (List.mem_cons_of_mem _ hb'))
      (fun b' hb' => h2 b' (List.mem_cons_of_mem _ hb'))

theorem sweep_id {M : Module} {fIdx : Nat}
    (h : ∀ F, M.funcs.get? fIdx = some F → ∀ entry, F.blocks.head? = some entry →
      (reachLoop M [entry.id] [entry.id]).length = F.blocks.length) :
    (removeUnreachableBlocks M fIdx).1 = M := by
  unfold removeUnreachableBlocks
  cases hF : M.funcs.get? fIdx with
  | none => simp only [hF]
  | some F =>
    simp only [hF]
    cases hE : F.blocks.head? with
    | none => simp only [hE]
    | some entry =>
      simp only [hE]
      rw [if_pos (h F hF entry hE)]

/-- C3 (amended) — the driver is a no-op, and hence in particular both
counters' deltas are zero, on any module in which no block's terminator is a
conditional branch on an integer literal, no block's instruction scan finds a
call classified no-return, and every function's worklist traversal reaches
all of its blocks.  Idempotence as originally claimed is refuted by the
counterexample: a block containing a no-return call is re-truncated on every
run, so a first run's output generally does not satisfy the middle
hypothesis and the second run mutates the module again. -/
theorem C3_noop_on_stable_modules (M : Module)
    (hfold : ∀ B ∈ allBlocks M, condBrLiteral M B.id = none)
    (hnr : ∀ B ∈ allBlocks M, (scanNoReturn M B.instrs false []).1 = false)
    (hreach : ∀ (fIdx : Nat) (F : Func), M.funcs.get? fIdx = some F →
      ∀ entry, F.blocks.head? = some entry →
        (reachLoop M [entry.id] [entry.id]).length = F.blocks.length) :
    performSILDeadCodeElimination M = M := by
  unfold performSILDeadCodeElimination
  have hstep : ∀ fIdx, processFunction M fIdx = M := by
    intro fIdx
    unfold processFunction
    cases hF : M.funcs.get? fIdx with
    | none => rfl
    | some F =>
      dsimp only
      have hblocks : processBlocks M (F.blocks.map (·.id)) = M := by
        refine processBlocks_id _ ?_ ?_
        · intro b hb
          obtain ⟨B, hBmem, rfl⟩ := List.mem_map.mp hb
          refine constantFold_of_no_literal (hfold B ?_)
          unfold allBlocks
          exact List.mem_flatMap.mpr ⟨F, List.get?_mem hF, hBmem⟩
        · intro b hb
          obtain ⟨B, hBmem, rfl⟩ := List.mem_map.mp hb
          refine simplify_of_no_call ?_
          intro B' hB' _
          exact hnr B' hB'
      rw [hblocks]
      exact sweep_id (fun F' hF' entry hE => hreach fIdx F' hF' entry hE)
  have : ∀ (l : List Nat), l.foldl processFunction M = M := by
    intro l
    induction l with
    | nil => rfl
    | cons f rest ih =>
      simp only [List.foldl_cons]
      rw [hstep f]
      exact ih
  exact this _

/-- Witness for C3 at `exampleStable`: a module the pass leaves untouched. -/
theorem C3_witness : performSILDeadCodeElimination exampleStable = exampleStable :=
  C3_noop_on_stable_modules exampleStable (by decide) (by decide)
    (by
      intro fIdx F hF entry hE
      cases fIdx with
      | zero =>
        have hF' : F = { blocks := [{ id := 0, nArgs := 0, instrs := [0, 1] }] } := by
          have : some { blocks := [{ id := 0, nArgs := 0, instrs := [0, 1] }] } = some F := hF
          exact (Option.some.injEq _ _ ▸ this).symm
        subst hF'
        have hE' : entry = { id := 0, nArgs := 0, instrs := [0, 1] } := by
          have : some { id := 0, nArgs := 0, instrs := [0, 1] } = some entry := hE
          exact (Option.some.injEq _ _ ▸ this).symm
        subst hE'
        simp [reachLoop, collectNew, succsOf, getTerminatorId, findBlock, allBlocks,
          findInst, exampleStable]
      | succ n =>
        have : (none : Option Func) = some F := hF
        cases this)

/-! ### Scalar fields and absence through the deleters -/

theorem numInst_dropOperand (M : Module) (u k : Nat) :
    (dropOperand M u k).numInstructionsRemoved = M.numInstructionsRemoved := by
  cases hI : findInst M u with
  | none => rw [dropOperand_none k hI]
  | some I =>
    rw [dropOperand_eq k hI]
    cases I.operands.get? k with
    | none => rfl
    | some o =>
      cases o with
      | none => rfl
      | some v =>
        dsimp only
        unfold setUses
        split <;> rfl

theorem funcs_dropOperand (M : Module) (u k : Nat) :
    (dropOperand M u k).funcs = M.funcs := by
  cases hI : findInst M u with
  | none => rw [dropOperand_none k hI]
  | some I =>
    rw [dropOperand_eq k hI]
    cases I.operands.get? k with
    | none => rfl
    | some o =>
      cases o with
      | none => rfl
      | some v =>
        dsimp only
        rw [funcs_setUses, funcs_setInst]

theorem nextId_dropRefs (u : Nat) :
    ∀ (fuel k : Nat) (M : Module), (dropRefs M u fuel k).nextId = M.nextId := by
  intro fuel
  induction fuel with
  | zero => intro k M; rfl
  | succ n ih =>
    intro k M
    rw [show dropRefs M u (n + 1) k = dropRefs (dropOperand M u k) u n (k + 1) from rfl]
    rw [ih (k + 1) _, nextId_dropOperand]

theorem numInst_dropRefs (u : Nat) :
    ∀ (fuel k : Nat) (M : Module),
      (dropRefs M u fuel k).numInstructionsRemoved = M.numInstructionsRemoved := by
  intro fuel
  induction fuel with
  | zero => intro k M; rfl
  | succ n ih =>
    intro k M
    rw [show dropRefs M u (n + 1) k = dropRefs (dropOperand M u k) u n (k + 1) from rfl]
    rw [ih (k + 1) _, numInst_dropOperand]

theorem funcs_dropRefs (u : Nat) :
    ∀ (fuel k : Nat) (M : Module), (dropRefs M u fuel k).funcs = M.funcs := by
  intro fuel
  induction fuel with
  | zero => intro k M; rfl
  | succ n ih =>
    intro k M
    rw [show dropRefs M u (n + 1) k = dropRefs (dropOperand M u k) u n (k + 1) from rfl]
    rw [ih (k + 1) _, funcs_dropOperand]

theorem nextId_dropAllRefs (M : Module) (u : Nat) :
    (dropAllRefs M u).nextId = M.nextId := by
  unfold dropAllRefs
  cases findInst M u with
  | none => rfl
  | some I => exact nextId_dropRefs u _ 0 M

theorem numInst_dropAllRefs (M : Module) (u : Nat) :
    (dropAllRefs M u).numInstructionsRemoved = M.numInstructionsRemoved := by
  unfold dropAllRefs
  cases findInst M u with
  | none => rfl
  | some I => exact numInst_dropRefs u _ 0 M

theorem funcs_dropAllRefs (M : Module) (u : Nat) :
    (dropAllRefs M u).funcs = M.funcs := by
  unfold dropAllRefs
  cases findInst M u with
  | none => rfl
  | some I => exact funcs_dropRefs u _ 0 M

theorem nextId_rdtdiLoop :
    ∀ (M : Module) (stack : List Nat), (rdtdiLoop M stack).nextId = M.nextId := by
  intro M stack
  induction M, stack using rdtdiLoop.induct with
  | case1 M => rw [rdtdiLoop]
  | case2 M i rest hfi p ih =>
    rw [rdtdiLoop, dif_pos hfi]
    rw [ih, nextId_erase, dropAndCollect_fst, nextId_dropAllRefs]
  | case3 M i rest hfi ih =>
    rw [rdtdiLoop, dif_neg hfi]
    exact ih

theorem numInst_rdtdiLoop :
    ∀ (M : Module) (stack : List Nat),
      (rdtdiLoop M stack).numInstructionsRemoved = M.numInstructionsRemoved := by
  intro M stack
  induction M, stack using rdtdiLoop.induct with
  | case1 M => rw [rdtdiLoop]
  | case2 M i rest hfi p ih =>
    rw [rdtdiLoop, dif_pos hfi]
    rw [ih]
    rw [show (eraseFromParent p.1 i).numInstructionsRemoved =
      p.1.numInstructionsRemoved from rfl]
    rw [show p.1 = (dropAndCollect M i).1 from rfl, dropAndCollect_fst, numInst_dropAllRefs]
  | case3 M i rest hfi ih =>
    rw [rdtdiLoop, dif_neg hfi]
    exact ih

theorem blockIds_rdtdiLoop :
    ∀ (M : Module) (stack : List Nat),
      ((allBlocks (rdtdiLoop M stack)).map (·.id)) = (allBlocks M).map (·.id) := by
  intro M stack
  induction M, stack using rdtdiLoop.induct with
  | case1 M => rw [rdtdiLoop]
  | case2 M i rest hfi p ih =>
    rw [rdtdiLoop, dif_pos hfi]
    rw [ih, blockIds_erase]
    rw [show p.1 = (dropAndCollect M i).1 from rfl, dropAndCollect_fst]
    unfold allBlocks
    rw [funcs_dropAllRefs]
  | case3 M i rest hfi ih =>
    rw [rdtdiLoop, dif_neg hfi]
    exact ih

theorem nextId_rdtdi (M : Module) (i : Nat) :
    (recursivelyDeleteTriviallyDeadInstructions M i).1.nextId = M.nextId := by
  unfold recursivelyDeleteTriviallyDeadInstructions
  split
  · exact nextId_rdtdiLoop M [i]
  · rfl

theorem numInst_rdtdi (M : Module) (i : Nat) :
    (recursivelyDeleteTriviallyDeadInstructions M i).1.numInstructionsRemoved
      = M.numInstructionsRemoved := by
  unfold recursivelyDeleteTriviallyDeadInstructions
  split
  · exact numInst_rdtdiLoop M [i]
  · rfl

theorem blockIds_rdtdi (M : Module) (i : Nat) :
    ((allBlocks (recursivelyDeleteTriviallyDeadInstructions M i).1).map (·.id))
      = (allBlocks M).map (·.id) := by
  unfold recursivelyDeleteTriviallyDeadInstructions
  split
  · exact blockIds_rdtdiLoop M [i]
  · rfl

theorem nextId_eraseAndCleanup (M : Module) (toDel : List Nat) :
    (eraseAndCleanup M toDel).1.nextId = M.nextId := by
  unfold eraseAndCleanup
  have h1 : ∀ (pending : List Nat) (N : Module) (acc : List Nat),
      (phase1 toDel pending N acc).1.nextId = N.nextId := by
    intro pending
    induction pending with
    | nil => intro N acc; rfl
    | cons d rest ih =>
      intro N acc
      simp only [phase1]
      cases findInst N d with
      | none => exact ih N acc
      | some I => rw [ih _ _, nextId_dropAllRefs]
  have h2 : ∀ (cands : List Nat) (N : Module) (acc : Bool),
      (phase2 cands N acc).1.nextId = N.nextId := by
    intro cands
    induction cands with
    | nil => intro N acc; rfl
    | cons c rest ih =>
      intro N acc
      simp only [phase2]
      rw [ih _ _, nextId_rdtdi]
  have h3 : ∀ (l : List Nat) (N : Module),
      (l.foldl (fun m d => eraseFromParent m d) N).nextId = N.nextId := by
    intro l
    induction l with
    | nil => intro N; rfl
    | cons d rest ih =>
      intro N
      simp only [List.foldl_cons]
      rw [ih _, nextId_erase]
  rw [h3, h2, h1]

theorem numInst_eraseAndCleanup (M : Module) (toDel : List Nat) :
    (eraseAndCleanup M toDel).1.numInstructionsRemoved = M.numInstructionsRemoved := by
  unfold eraseAndCleanup
  have h1 : ∀ (pending : List Nat) (N : Module) (acc : List Nat),
      (phase1 toDel pending N acc).1.numInstructionsRemoved = N.numInstructionsRemoved := by
    intro pending
    induction pending with
    | nil => intro N acc; rfl
    | cons d rest ih =>
      intro N acc
      simp only [phase1]
      cases findInst N d with
      | none => exact ih N acc
      | some I => rw [ih _ _, numInst_dropAllRefs]
  have h2 : ∀ (cands : List Nat) (N : Module) (acc : Bool),
      (phase2 cands N acc).1.numInstructionsRemoved = N.numInstructionsRemoved := by
    intro cands
    induction cands with
    | nil => intro N acc; rfl
    | cons c rest ih =>
      intro N acc
      simp only [phase2]
      rw [ih _ _, numInst_rdtdi]
  have h3 : ∀ (l : List Nat) (N : Module),
      (l.foldl (fun m d => eraseFromParent m d) N).numInstructionsRemoved
        = N.numInstructionsRemoved := by
    intro l
    induction l with
    | nil => intro N; rfl
    | cons d rest ih =>
      intro N
      simp only [List.foldl_cons]
      rw [ih _]
      rfl
  rw [h3, h2, h1]

theorem blockIds_eraseAndCleanup (M : Module) (toDel : List Nat) :
    ((allBlocks (eraseAndCleanup M toDel).1).map (·.id)) = (allBlocks M).map (·.id) := by
  unfold eraseAndCleanup
  have h1 : ∀ (pending : List Nat) (N : Module) (acc : List Nat),
      ((allBlocks (phase1 toDel pending N acc).1).map (·.id)) = (allBlocks N).map (·.id) := by
    intro pending
    induction pending with
    | nil => intro N acc; rfl
    | cons d rest ih =>
      intro N acc
      simp only [phase1]
      cases findInst N d with
      | none => exact ih N acc
      | some I =>
        rw [ih _ _]
        unfold allBlocks
        rw [funcs_dropAllRefs]
  have h2 : ∀ (cands : List Nat) (N : Module) (acc : Bool),
      ((allBlocks (phase2 cands N acc).1).map (·.id)) = (allBlocks N).map (·.id) := by
    intro cands
    induction cands with
    | nil => intro N acc; rfl
    | cons c rest ih =>
      intro N acc
      simp only [phase2]
      rw [ih _ _, blockIds_rdtdi]
  have h3 : ∀ (l : List Nat) (N : Module),
      ((allBlocks (l.foldl (fun m d => eraseFromParent m d) N)).map (·.id))
        = (allBlocks N).map (·.id) := by
    intro l
    induction l with
    | nil => intro N; rfl
    | cons d rest ih =>
      intro N
      simp only [List.foldl_cons]
      rw [ih _, blockIds_erase]
  rw [h3, h2, h1]

theorem absent_dropOperand {M : Module} {j : Nat} (h : findInst M j = none) (u k : Nat) :
    findInst (dropOperand M u k) j = none := by
  by_cases hj : j = u
  · subst hj
    cases hI : findInst M j with
    | none => rw [dropOperand_none k hI]; exact h
    | some I => rw [hI] at h; cases h
  · rw [findInst_dropOperand_other k hj]
    exact h

theorem absent_erase {M : Module} {j : Nat} (h : findInst M j = none) (i : Nat) :
    findInst (eraseFromParent M i) j = none := by
  by_cases hj : j = i
  · subst hj
    exact findInst_erase_self M j
  · rw [findInst_erase_other M i j hj]
    exact h

theorem absent_dropRefs {j : Nat} (u : Nat) :
    ∀ (fuel k : Nat) (M : Module), findInst M j = none →
      findInst (dropRefs M u fuel k) j = none := by
  intro fuel
  induction fuel with
  | zero => intro k M h; exact h
  | succ n ih =>
    intro k M h
    exact ih (k + 1) _ (absent_dropOperand h u k)

theorem absent_dropAllRefs {M : Module} {j : Nat} (h : findInst M j = none) (u : Nat) :
    findInst (dropAllRefs M u) j = none := by
  unfold dropAllRefs
  cases findInst M u with
  | none => exact h
  | some I => exact absent_dropRefs u _ 0 M h

theorem absent_rdtdiLoop {j : Nat} :
    ∀ (M : Module) (stack : List Nat), findInst M j = none →
      findInst (rdtdiLoop M stack) j = none := by
  intro M stack
  induction M, stack using rdtdiLoop.induct with
  | case1 M =>
    intro h
    rw [rdtdiLoop]
    exact h
  | case2 M i rest hfi p ih =>
    intro h
    rw [rdtdiLoop, dif_pos hfi]
    refine ih (absent_erase ?_ i)
    rw [show p.1 = (dropAndCollect M i).1 from rfl, dropAndCollect_fst]
    exact absent_dropAllRefs h i
  | case3 M i rest hfi ih =>
    intro h
    rw [rdtdiLoop, dif_neg hfi]
    exact ih h

theorem absent_rdtdi {M : Module} {j : Nat} (h : findInst M j = none) (i : Nat) :
    findInst (recursivelyDeleteTriviallyDeadInstructions M i).1 j = none := by
  unfold recursivelyDeleteTriviallyDeadInstructions
  split
  · exact absent_rdtdiLoop M [i] h
  · exact h

theorem absent_phase1 {j : Nat} (toDel : List Nat) :
    ∀ (pending : List Nat) (M : Module) (acc : List Nat), findInst M j = none →
      findInst (phase1 toDel pending M acc).1 j = none := by
  intro pending
  induction pending with
  | nil => intro M acc h; exact h
  | cons d rest ih =>
    intro M acc h
    simp only [phase1]
    cases findInst M d with
    | none => exact ih M acc h
    | some I => exact ih _ _ (absent_dropAllRefs h d)

theorem absent_phase2 {j : Nat} :
    ∀ (cands : List Nat) (M : Module) (acc : Bool), findInst M j = none →
      findInst (phase2 cands M acc).1 j = none := by
  intro cands
  induction cands with
  | nil => intro M acc h; exact h
  | cons c rest ih =>
    intro M acc h
    simp only [phase2]
    exact ih _ _ (absent_rdtdi h c)

theorem absent_foldl_erase {j : Nat} :
    ∀ (l : List Nat) (M : Module), findInst M j = none →
      findInst (l.foldl (fun m d => eraseFromParent m d) M) j = none := by
  intro l
  induction l with
  | nil => intro M h; exact h
  | cons d rest ih =>
    intro M h
    simp only [List.foldl_cons]
    exact ih _ (absent_erase h d)

theorem absent_eraseAndCleanup {M : Module} {j : Nat} (h : findInst M j = none)
    (toDel : List Nat) : findInst (eraseAndCleanup M toDel).1 j = none := by
  unfold eraseAndCleanup
  exact absent_foldl_erase toDel _ (absent_phase2 _ _ _ (absent_phase1 toDel toDel M [] h))

theorem eraseAndCleanup_erases {M : Module} (toDel : List Nat) :
    ∀ d ∈ toDel, findInst (eraseAndCleanup M toDel).1 d = none := by
  intro d hd
  unfold eraseAndCleanup
  have hgen : ∀ (l : List Nat) (N : Module), d ∈ l →
      findInst (l.foldl (fun m d => eraseFromParent m d) N) d = none := by
    intro l
    induction l with
    | nil => intro N h; cases h
    | cons e rest ih =>
      intro N h
      simp only [List.foldl_cons]
      rcases List.mem_cons.mp h with rfl | h'
      · exact absent_foldl_erase rest _ (findInst_erase_self N d)
      · exact ih _ h'
  exact hgen toDel _ hd

/-! ### Block lookup and the builder -/

theorem find?_map_blocks (g : Block → Block) (hg : ∀ B, (g B).id = B.id)
    (l : List Block) (b : Nat) :
    (l.map g).find? (fun B => B.id = b) = (l.find? (fun B => B.id = b)).map g := by
  induction l with
  | nil => rfl
  | cons B t ih =>
    simp only [List.map_cons]
    by_cases hb : B.id = b
    · rw [List.find?_cons_of_pos _ (by simp [hg B, hb]),
        List.find?_cons_of_pos _ (by simp [hb])]
      rfl
    · rw [List.find?_cons_of_neg _ (by simp [hg B, hb]),
        List.find?_cons_of_neg _ (by simp [hb])]
      exact ih

theorem findBlock_funcs_eq {M N : Module} (h : M.funcs = N.funcs) (b : Nat) :
    findBlock M b = findBlock N b := by
  unfold findBlock allBlocks
  rw [h]

theorem findBlock_appendToBlock (M : Module) (b i b' : Nat) :
    findBlock (appendToBlock M b i) b' = (findBlock M b').map
      (fun B => if B.id = b then { B with instrs := B.instrs ++ [i] } else B) := by
  unfold findBlock allBlocks appendToBlock
  simp only []
  rw [allBlocks_map_blocks]
  exact find?_map_blocks _ (fun B => by split <;> rfl) _ _

theorem findBlock_erase (M : Module) (i b' : Nat) :
    findBlock (eraseFromParent M i) b' = (findBlock M b').map
      (fun B => { B with instrs := B.instrs.filter (fun j => ¬ j = i) }) := by
  unfold findBlock allBlocks eraseFromParent removeFromBlocks
  simp only []
  rw [allBlocks_map_blocks]
  exact find?_map_blocks
    (fun B => { B with instrs := B.instrs.filter (fun j => ¬ j = i) })
    (fun B => rfl) _ _

theorem findBlock_isSome_iff (M : Module) (b : Nat) :
    (findBlock M b).isSome = true ↔ b ∈ (allBlocks M).map (·.id) := by
  unfold findBlock
  constructor
  · intro h
    obtain ⟨B, hB⟩ := Option.isSome_iff_exists.mp h
    have hm := List.mem_of_find?_eq_some hB
    have hp := List.find?_some hB
    exact List.mem_map.mpr ⟨B, hm, by simpa using hp⟩
  · intro h
    obtain ⟨B, hm, hid⟩ := List.mem_map.mp h
    cases hf : (allBlocks M).find? (fun B => B.id = b) with
    | some C => simp
    | none =>
      have := List.find?_eq_none.mp hf B hm
      simp only [hid] at this
      simp at this

theorem findBlock_id {M : Module} {b : Nat} {B : Block}
    (h : findBlock M b = some B) : B.id = b := by
  simpa using List.find?_some h

theorem insts_createInst (M : Module) (b : Nat) (I : Inst) :
    (createInst M b I).1.insts = (M.nextId, I) :: M.insts := by
  unfold createInst
  dsimp only
  rw [registerUses_insts]
  rfl

theorem funcs_createInst (M : Module) (b : Nat) (I : Inst) :
    (createInst M b I).1.funcs = (appendToBlock M b M.nextId).funcs := by
  unfold createInst
  dsimp only
  rw [registerUses_funcs]
  rfl

theorem findInst_createInst_self (M : Module) (b : Nat) (I : Inst) :
    findInst (createInst M b I).1 M.nextId = some I := by
  unfold findInst
  rw [insts_createInst]
  rw [List.find?_cons_of_pos _ (by simp)]
  rfl

theorem findInst_createInst_other (M : Module) (b : Nat) (I : Inst) (j : Nat)
    (hj : ¬ j = M.nextId) :
    findInst (createInst M b I).1 j = findInst M j := by
  unfold findInst
  rw [insts_createInst]
  rw [List.find?_cons_of_neg _ (by simpa using fun h => hj h.symm)]

theorem numInst_registerUses (i : Nat) :
    ∀ (ops : List (Option V)) (k : Nat) (N : Module),
      (registerUses N i ops k).numInstructionsRemoved = N.numInstructionsRemoved := by
  intro ops
  induction ops with
  | nil => intro k N; rfl
  | cons op rest ih =>
    intro k N
    cases op with
    | none => exact ih (k + 1) N
    | some v =>
      rw [show registerUses N i (some v :: rest) k =
        registerUses (addUse N v (i, k)) i rest (k + 1) from rfl]
      rw [ih (k + 1) _]
      unfold addUse setUses
      split <;> rfl

theorem numInst_createInst (M : Module) (b : Nat) (I : Inst) :
    (createInst M b I).1.numInstructionsRemoved = M.numInstructionsRemoved := by
  unfold createInst
  dsimp only
  rw [numInst_registerUses]
  rfl

theorem getTerminatorId_createInst (M : Module) (b : Nat) (I : Inst)
    (hb : (findBlock M b).isSome = true) :
    getTerminatorId (createInst M b I).1 b = some M.nextId := by
  obtain ⟨B, hB⟩ := Option.isSome_iff_exists.mp hb
  have hid : B.id = b := findBlock_id hB
  unfold getTerminatorId
  have hfb : findBlock (createInst M b I).1 b = some
      { B with instrs := B.instrs ++ [M.nextId] } := by
    rw [findBlock_funcs_eq (funcs_createInst M b I) b]
    rw [findBlock_appendToBlock]
    rw [hB]
    simp [hid]
  rw [hfb]
  simp

/-! ### The scanning loop, characterized -/

/-- Whether instruction `i` is an apply that `isCallToNoReturn` classifies as
a call to a no-return function. -/
def classifiesNoReturn (M : Module) (i : Nat) : Bool :=
  match findInst M i with
  | some I =>
    match I.kind with
    | .apply c n => (isCallToNoReturn c n).1
    | _ => false
  | none => false

theorem scanNoReturn_found (M : Module) :
    ∀ (l acc : List Nat), scanNoReturn M l true acc = (true, acc ++ l) := by
  intro l
  induction l with
  | nil => intro acc; simp [scanNoReturn]
  | cons i rest ih =>
    intro acc
    simp only [scanNoReturn]
    rw [ih]
    simp

theorem scanNoReturn_clean_prefix (M : Module) :
    ∀ (l1 rest acc : List Nat), (∀ i ∈ l1, classifiesNoReturn M i = false) →
      scanNoReturn M (l1 ++ rest) false acc = scanNoReturn M rest false acc := by
  intro l1
  induction l1 with
  | nil => intro rest acc _; rfl
  | cons i t ih =>
    intro rest acc h
    have hi := h i (List.mem_cons_self _ _)
    simp only [List.cons_append, scanNoReturn]
    cases hI : findInst M i with
    | none =>
      simp only [hI]
      exact ih rest acc (fun j hj => h j (List.mem_cons_of_mem _ hj))
    | some I =>
      simp only [hI]
      rcases hk : I.kind with ⟨c, n⟩ | bb | ⟨t1, f1, nT, nF⟩ | d | _ | _ | _ <;>
        simp only [hk]
      · have hc : (isCallToNoReturn c n).1 = false := by
          unfold classifiesNoReturn at hi
          simp only [hI, hk] at hi
          exact hi
        rw [hc]
        exact ih rest acc (fun j hj => h j (List.mem_cons_of_mem _ hj))
      all_goals exact ih rest acc (fun j hj => h j (List.mem_cons_of_mem _ hj))

theorem scanNoReturn_first (M : Module) {c : Nat} (l2 acc : List Nat)
    (hc : classifiesNoReturn M c = true) :
    scanNoReturn M (c :: l2) false acc = (true, acc ++ l2) := by
  unfold classifiesNoReturn at hc
  simp only [scanNoReturn]
  cases hI : findInst M c with
  | none => rw [hI] at hc; cases hc
  | some I =>
    simp only [hI] at hc ⊢
    rcases hk : I.kind with ⟨cf, n⟩ | bb | ⟨t1, f1, nT, nF⟩ | d | _ | _ | _ <;>
      simp only [hk] at hc ⊢
    · rw [hc]
      exact scanNoReturn_found M l2 acc
    all_goals cases hc

/-- C5 — for a block `b` of the module (whose instruction ids were issued by
the builder), the no-return truncation: leaves the module entirely unchanged
and returns false when no instruction of the block is a call classified
no-return; and when the block splits as a clean prefix, a first classified
call `c`, and a tail `l2`, it returns true (even when `l2` is empty), deletes
every instruction of the tail (the old terminator included) via the
set-deleter, counts the tail, and ends the block with a fresh explicit
`unreachable` terminator. -/
theorem C5_noreturn_truncation_correct (M : Module) (b : Nat) (B : Block)
    (hB : findBlock M b = some B)
    (hsync : ∀ j ∈ B.instrs, j < M.nextId) :
    ((∀ i ∈ B.instrs, classifiesNoReturn M i = false) →
       simplifyBlocksWithCallsToNoReturn M b = (M, false)) ∧
    (∀ l1 c l2, B.instrs = l1 ++ c :: l2 →
       (∀ i ∈ l1, classifiesNoReturn M i = false) →
       classifiesNoReturn M c = true →
       (simplifyBlocksWithCallsToNoReturn M b).2 = true ∧
       (simplifyBlocksWithCallsToNoReturn M b).1.numInstructionsRemoved
         = M.numInstructionsRemoved + l2.length ∧
       (∀ i ∈ l2, findInst (simplifyBlocksWithCallsToNoReturn M b).1 i = none) ∧
       (∃ nid, nid ∉ B.instrs ∧
         getTerminatorId (simplifyBlocksWithCallsToNoReturn M b).1 b = some nid ∧
         findInst (simplifyBlocksWithCallsToNoReturn M b).1 nid
           = some { operands := [], sideEffects := false, kind := IKind.unreachable })) := by
  constructor
  · intro hall
    unfold simplifyBlocksWithCallsToNoReturn
    rw [hB]
    have hscan : scanNoReturn M B.instrs false [] = (false, []) := by
      have h1 := scanNoReturn_clean_prefix M B.instrs [] [] hall
      rw [List.append_nil] at h1
      rw [h1]
      rfl
    simp [hscan]
  · intro l1 c l2 hsplit hclean hc
    have hscan : scanNoReturn M B.instrs false [] = (true, l2) := by
      rw [hsplit, scanNoReturn_clean_prefix M l1 (c :: l2) [] hclean,
        scanNoReturn_first M l2 [] hc]
      rfl
    have hres : simplifyBlocksWithCallsToNoReturn M b =
        ((createInst (eraseAndCleanup { M with numInstructionsRemoved := M.numInstructionsRemoved + l2.length } l2).1 b { operands := [], sideEffects := false, kind := IKind.unreachable }).1, true) := by
      unfold simplifyBlocksWithCallsToNoReturn
      rw [hB]
      simp only [hscan]
      rw [if_pos trivial]
    have hmem : ∀ i ∈ l2, i ∈ B.instrs := by
      intro i hi
      rw [hsplit]
      exact List.mem_append_right _ (List.mem_cons_of_mem _ hi)
    have hnid2 : (eraseAndCleanup { M with numInstructionsRemoved := M.numInstructionsRemoved + l2.length } l2).1.nextId = M.nextId := by
      rw [nextId_eraseAndCleanup]
    refine ⟨by rw [hres], ?_, ?_, ?_⟩
    · rw [hres]
      rw [show ((createInst (eraseAndCleanup { M with numInstructionsRemoved := M.numInstructionsRemoved + l2.length } l2).1 b { operands := [], sideEffects := false, kind := IKind.unreachable }).1, true).1 = (createInst (eraseAndCleanup { M with numInstructionsRemoved := M.numInstructionsRemoved + l2.length } l2).1 b { operands := [], sideEffects := false, kind := IKind.unreachable }).1 from rfl]
      rw [numInst_createInst, numInst_eraseAndCleanup]
    · intro i hi
      rw [hres]
      have hlt : i < M.nextId := hsync i (hmem i hi)
      rw [show ((createInst (eraseAndCleanup { M with numInstructionsRemoved := M.numInstructionsRemoved + l2.length } l2).1 b { operands := [], sideEffects := false, kind := IKind.unreachable }).1, true).1 = (createInst (eraseAndCleanup { M with numInstructionsRemoved := M.numInstructionsRemoved + l2.length } l2).1 b { operands := [], sideEffects := false, kind := IKind.unreachable }).1 from rfl]
      rw [findInst_createInst_other _ _ _ i (by rw [hnid2]; omega)]
      exact eraseAndCleanup_erases l2 i hi
    · refine ⟨M.nextId, fun hmem' => by have := hsync _ hmem'; omega, ?_, ?_⟩
      · rw [hres]
        have hbs : (findBlock (eraseAndCleanup { M with numInstructionsRemoved := M.numInstructionsRemoved + l2.length } l2).1 b).isSome = true := by
          rw [findBlock_isSome_iff, blockIds_eraseAndCleanup]
          exact (findBlock_isSome_iff M b).mp (by rw [hB]; rfl)
        have h2 := getTerminatorId_createInst _ b { operands := [], sideEffects := false, kind := IKind.unreachable } hbs
        rw [hnid2] at h2
        exact h2
      · rw [hres]
        have h3 := findInst_createInst_self (eraseAndCleanup { M with numInstructionsRemoved := M.numInstructionsRemoved + l2.length } l2).1 b { operands := [], sideEffects := false, kind := IKind.unreachable }
        rw [hnid2] at h3
        exact h3

/-- Witness for C5 at `exampleNoRet`: its block `0` is a classified no-return
call `0` followed by the return `1`; the truncation reports a change, counts
and deletes the tail `[1]`, and installs a fresh `unreachable` terminator. -/
theorem C5_witness :
    (simplifyBlocksWithCallsToNoReturn exampleNoRet 0).2 = true ∧
    (simplifyBlocksWithCallsToNoReturn exampleNoRet 0).1.numInstructionsRemoved
      = exampleNoRet.numInstructionsRemoved + [1].length ∧
    (∀ i ∈ [1], findInst (simplifyBlocksWithCallsToNoReturn exampleNoRet 0).1 i = none) ∧
    (∃ nid, nid ∉ [0, 1] ∧
      getTerminatorId (simplifyBlocksWithCallsToNoReturn exampleNoRet 0).1 0 = some nid ∧
      findInst (simplifyBlocksWithCallsToNoReturn exampleNoRet 0).1 nid
        = some { operands := [], sideEffects := false, kind := IKind.unreachable }) :=
  (C5_noreturn_truncation_correct exampleNoRet 0 { id := 0, nArgs := 0, instrs := [0, 1] }
    (by decide) (by decide)).2 [] 0 [1] (by decide) (by decide) (by decide)

/-! ### Shape preservation through the deleters: a live instruction's kind
and side-effect flag never change (drops only clear operand slots). -/

theorem shape_dropOperand {M : Module} (u k : Nat) {j : Nat} {J' : Inst}
    (h : findInst (dropOperand M u k) j = some J') :
    ∃ J, findInst M j = some J ∧ J'.kind = J.kind ∧ J'.sideEffects = J.sideEffects := by
  by_cases hj : j = u
  · subst hj
    cases hI : findInst M j with
    | none =>
      rw [dropOperand_none k hI, hI] at h
      cases h
    | some I =>
      rw [dropOperand_eq k hI] at h
      cases hs : I.operands.get? k with
      | none =>
        rw [hs] at h
        dsimp only at h
        rw [hI] at h
        have hJI : J' = I := by simpa using h.symm
        subst hJI
        exact ⟨J', rfl, rfl, rfl⟩
      | some o =>
        cases o with
        | none =>
          rw [hs] at h
          dsimp only at h
          rw [hI] at h
          have hJI : J' = I := by simpa using h.symm
          subst hJI
          exact ⟨J', rfl, rfl, rfl⟩
        | some v =>
          rw [hs] at h
          dsimp only at h
          rw [findInst_setUses, findInst_setInst_self, hI] at h
          have hJ' : J' = { I with operands := I.operands.set k none } := by
            simpa using h.symm
          subst hJ'
          exact ⟨I, rfl, rfl, rfl⟩
  · rw [findInst_dropOperand_other k hj] at h
    exact ⟨J', h, rfl, rfl⟩

theorem shape_dropRefs (u : Nat) :
    ∀ (fuel k : Nat) (M : Module) {j : Nat} {J' : Inst},
      findInst (dropRefs M u fuel k) j = some J' →
      ∃ J, findInst M j = some J ∧ J'.kind = J.kind ∧ J'.sideEffects = J.sideEffects := by
  intro fuel
  induction fuel with
  | zero => intro k M j J' h; exact ⟨J', h, rfl, rfl⟩
  | succ n ih =>
    intro k M j J' h
    rw [show dropRefs M u (n + 1) k = dropRefs (dropOperand M u k) u n (k + 1) from rfl] at h
    obtain ⟨J1, hJ1, hk1, hs1⟩ := ih (k + 1) _ h
    obtain ⟨J, hJ, hk2, hs2⟩ := shape_dropOperand u k hJ1
    exact ⟨J, hJ, by rw [hk1, hk2], by rw [hs1, hs2]⟩

theorem shape_dropAllRefs {M : Module} (u : Nat) {j : Nat} {J' : Inst}
    (h : findInst (dropAllRefs M u) j = some J') :
    ∃ J, findInst M j = some J ∧ J'.kind = J.kind ∧ J'.sideEffects = J.sideEffects := by
  unfold dropAllRefs at h
  cases hI : findInst M u with
  | none => rw [hI] at h; exact ⟨J', h, rfl, rfl⟩
  | some I =>
    rw [hI] at h
    exact shape_dropRefs u _ 0 M h

theorem shape_erase {M : Module} (i : Nat) {j : Nat} {J' : Inst}
    (h : findInst (eraseFromParent M i) j = some J') :
    ∃ J, findInst M j = some J ∧ J'.kind = J.kind ∧ J'.sideEffects = J.sideEffects := by
  by_cases hj : j = i
  · subst hj
    rw [findInst_erase_self] at h
    cases h
  · rw [findInst_erase_other M i j hj] at h
    exact ⟨J', h, rfl, rfl⟩

/-! ### Terminator survival: the worklist deleters only ever erase
instructions that were trivially dead when pushed, hence never terminators;
a block's terminator (its last instruction) therefore survives them. -/

theorem isTriviallyDead_shape {N : Module} {j : Nat}
    (h : isInstructionTriviallyDead N j = true) :
    ∃ J, findInst N j = some J ∧ isTermKind J.kind = false := by
  unfold isInstructionTriviallyDead at h
  cases hI : findInst N j with
  | none => rw [hI] at h; cases h
  | some I =>
    rw [hI] at h
    dsimp only at h
    refine ⟨I, rfl, ?_⟩
    by_cases ht : isTermKind I.kind = true
    · rw [ht] at h
      simp at h
    · simpa using ht

theorem dropCollect_cands_nonterm (u : Nat) :
    ∀ (fuel k : Nat) (M : Module), ∀ c ∈ (dropCollect M u fuel k).2,
      ∀ S, findInst (dropCollect M u fuel k).1 c = some S → isTermKind S.kind = false := by
  intro fuel
  induction fuel with
  | zero => intro k M c hc; cases hc
  | succ n ih =>
    intro k M c hc S hS
    simp only [dropCollect] at hc hS
    rcases List.mem_append.mp hc with hcand | hrec
    · rcases hov : (findInst M u).bind (fun I => I.operands.get? k) with _ | op
      · rw [hov] at hcand
        dsimp only at hcand
        cases hcand
      · rw [hov] at hcand
        rcases op with _ | v
        · dsimp only at hcand
          cases hcand
        · rcases v with jj | ⟨bb, kk⟩
          · dsimp only at hcand
            by_cases hd : isInstructionTriviallyDead (dropOperand M u k) jj = true
            · rw [if_pos hd] at hcand
              have hcj : c = jj := by simpa using hcand
              subst hcj
              obtain ⟨J1, hJ1, hnt⟩ := isTriviallyDead_shape hd
              rw [dropCollect_fst_eq] at hS
              obtain ⟨J0, hJ0, hk0, _⟩ := shape_dropRefs u n (k + 1) _ hS
              rw [hJ1] at hJ0
              have : J0 = J1 := by simpa using hJ0.symm
              subst this
              rw [hk0]
              exact hnt
            · rw [if_neg hd] at hcand
              cases hcand
          · dsimp only at hcand
            cases hcand
    · exact ih (k + 1) (dropOperand M u k) c hrec S hS

theorem dropAndCollect_cands_nonterm (M : Module) (u : Nat) :
    ∀ c ∈ (dropAndCollect M u).2,
      ∀ S, findInst (dropAndCollect M u).1 c = some S → isTermKind S.kind = false := by
  intro c hc S hS
  unfold dropAndCollect at hc hS
  cases hI : findInst M u with
  | none => rw [hI] at hc; cases hc
  | some I =>
    rw [hI] at hc hS
    exact dropCollect_cands_nonterm u _ 0 M c hc S hS

theorem getLast?_filter_ne {l : List Nat} {j i : Nat} (hj : l.getLast? = some j)
    (hne : ¬ j = i) : (l.filter (fun x => ¬ x = i)).getLast? = some j := by
  obtain ⟨t, rfl⟩ := List.getLast?_eq_some_iff.mp hj
  rw [List.filter_append]
  rw [show List.filter (fun x => decide ¬ x = i) [j] = [j] from by simp [hne]]
  exact List.getLast?_concat _

theorem getTerminatorId_funcs_eq {M N : Module} (h : M.funcs = N.funcs) (b : Nat) :
    getTerminatorId M b = getTerminatorId N b := by
  unfold getTerminatorId
  rw [findBlock_funcs_eq h]

theorem getTerminatorId_erase_ne {N : Module} {i b j : Nat} (hne : ¬ j = i)
    (h : getTerminatorId N b = some j) :
    getTerminatorId (eraseFromParent N i) b = some j := by
  unfold getTerminatorId at h ⊢
  cases hFB : findBlock N b with
  | none => rw [hFB] at h; cases h
  | some B =>
    rw [hFB] at h
    have hlast : B.instrs.getLast? = some j := by simpa using h
    rw [findBlock_erase, hFB]
    simpa using getLast?_filter_ne hlast hne

theorem rdtdiLoop_term_preserved :
    ∀ (M : Module) (stack : List Nat),
      (∀ s ∈ stack, ∀ S, findInst M s = some S → isTermKind S.kind = false) →
      ∀ (j : Nat) (J : Inst) (b : Nat), findInst M j = some J →
        isTermKind J.kind = true → getTerminatorId M b = some j →
      findInst (rdtdiLoop M stack) j = some J ∧
        getTerminatorId (rdtdiLoop M stack) b = some j := by
  intro M stack
  induction M, stack using rdtdiLoop.induct with
  | case1 M =>
    intro _ j J b hJ ht hb
    rw [rdtdiLoop]
    exact ⟨hJ, hb⟩
  | case2 M i rest hfi p ih =>
    intro hinv j J b hJ ht hb
    rw [rdtdiLoop, dif_pos hfi]
    obtain ⟨Si, hSi⟩ := Option.isSome_iff_exists.mp hfi
    have hSint : isTermKind Si.kind = false := hinv i (List.mem_cons_self _ _) Si hSi
    have hji : ¬ j = i := by
      intro hji
      subst hji
      rw [hJ] at hSi
      have : Si = J := by simpa using hSi.symm
      subst this
      rw [ht] at hSint
      cases hSint
    have hp1 : p.1 = dropAllRefs M i := by
      rw [show p = dropAndCollect M i from rfl, dropAndCollect_fst]
    have hJ' : findInst (eraseFromParent p.1 i) j = some J := by
      rw [findInst_erase_other _ _ _ hji, hp1, findInst_dropAllRefs_other hji]
      exact hJ
    have hb' : getTerminatorId (eraseFromParent p.1 i) b = some j := by
      refine getTerminatorId_erase_ne hji ?_
      rw [getTerminatorId_funcs_eq (show p.1.funcs = M.funcs from by
        rw [hp1, funcs_dropAllRefs])]
      exact hb
    refine ih ?_ j J b hJ' ht hb'
    intro s hs S hS
    by_cases hsi : s = i
    · subst hsi
      rw [findInst_erase_self] at hS
      cases hS
    · rw [findInst_erase_other _ _ _ hsi] at hS
      rcases List.mem_append.mp hs with hsc | hsr
      · exact dropAndCollect_cands_nonterm M i s (List.mem_reverse.mp hsc) S
          (by rw [show p = dropAndCollect M i from rfl] at hS; exact hS)
      · obtain ⟨S0, hS0, hks, _⟩ := shape_dropAllRefs i (hp1 ▸ hS)
        rw [hks]
        exact hinv s (List.mem_cons_of_mem _ hsr) S0 hS0
  | case3 M i rest hfi ih =>
    intro hinv j J b hJ ht hb
    rw [rdtdiLoop, dif_neg hfi]
    exact ih (fun s hs => hinv s (List.mem_cons_of_mem _ hs)) j J b hJ ht hb

theorem rdtdi_term_preserved {M : Module} {j : Nat} {J : Inst} {b : Nat} (c : Nat)
    (hJ : findInst M j = some J) (ht : isTermKind J.kind = true)
    (hb : getTerminatorId M b = some j) :
    findInst (recursivelyDeleteTriviallyDeadInstructions M c).1 j = some J ∧
    getTerminatorId (recursivelyDeleteTriviallyDeadInstructions M c).1 b = some j := by
  unfold recursivelyDeleteTriviallyDeadInstructions
  by_cases hd : isInstructionTriviallyDead M c = true
  · rw [if_pos hd]
    refine rdtdiLoop_term_preserved M [c] ?_ j J b hJ ht hb
    intro s hs S hS
    have hsc : s = c := by simpa using hs
    subst hsc
    obtain ⟨S0, hS0, hnt⟩ := isTriviallyDead_shape hd
    rw [hS0] at hS
    have : S = S0 := by simpa using hS.symm
    subst this
    exact hnt
  · rw [if_neg hd]
    exact ⟨hJ, hb⟩

theorem phase2_term_preserved :
    ∀ (cands : List Nat) (M : Module) (acc : Bool) {j : Nat} {J : Inst} {b : Nat},
      findInst M j = some J → isTermKind J.kind = true → getTerminatorId M b = some j →
      findInst (phase2 cands M acc).1 j = some J ∧
        getTerminatorId (phase2 cands M acc).1 b = some j := by
  intro cands
  induction cands with
  | nil => intro M acc j J b hJ _ hb; exact ⟨hJ, hb⟩
  | cons c rest ih =>
    intro M acc j J b hJ ht hb
    simp only [phase2]
    obtain ⟨hJ', hb'⟩ := rdtdi_term_preserved c hJ ht hb
    exact ih _ _ hJ' ht hb'

theorem phase1_findInst_notin (toDel : List Nat) :
    ∀ (pending : List Nat) (M : Module) (acc : List Nat) {j : Nat},
      (∀ d ∈ pending, ¬ j = d) →
      findInst (phase1 toDel pending M acc).1 j = findInst M j := by
  intro pending
  induction pending with
  | nil => intro M acc j _; rfl
  | cons d rest ih =>
    intro M acc j hnotin
    simp only [phase1]
    cases findInst M d with
    | none => exact ih M acc (fun e he => hnotin e (List.mem_cons_of_mem _ he))
    | some I =>
      rw [ih _ _ (fun e he => hnotin e (List.mem_cons_of_mem _ he))]
      exact findInst_dropAllRefs_other (hnotin d (List.mem_cons_self _ _))

theorem funcs_phase1 (toDel : List Nat) :
    ∀ (pending : List Nat) (M : Module) (acc : List Nat),
      (phase1 toDel pending M acc).1.funcs = M.funcs := by
  intro pending
  induction pending with
  | nil => intro M acc; rfl
  | cons d rest ih =>
    intro M acc
    simp only [phase1]
    cases findInst M d with
    | none => exact ih M acc
    | some I => rw [ih _ _, funcs_dropAllRefs]

theorem foldl_erase_term_preserved :
    ∀ (l : List Nat) (M : Module) {j : Nat} {J : Inst} {b : Nat},
      (∀ d ∈ l, ¬ j = d) → findInst M j = some J → getTerminatorId M b = some j →
      findInst (l.foldl (fun m d => eraseFromParent m d) M) j = some J ∧
        getTerminatorId (l.foldl (fun m d => eraseFromParent m d) M) b = some j := by
  intro l
  induction l with
  | nil => intro M j J b _ hJ hb; exact ⟨hJ, hb⟩
  | cons d rest ih =>
    intro M j J b hnotin hJ hb
    simp only [List.foldl_cons]
    have hjd : ¬ j = d := hnotin d (List.mem_cons_self _ _)
    refine ih _ (fun e he => hnotin e (List.mem_cons_of_mem _ he)) ?_ ?_
    · rw [findInst_erase_other _ _ _ hjd]
      exact hJ
    · exact getTerminatorId_erase_ne hjd hb

theorem eraseAndCleanup_term_preserved {M : Module} {toDel : List Nat}
    {j : Nat} {J : Inst} {b : Nat} (hnotin : ∀ d ∈ toDel, ¬ j = d)
    (hJ : findInst M j = some J) (ht : isTermKind J.kind = true)
    (hb : getTerminatorId M b = some j) :
    findInst (eraseAndCleanup M toDel).1 j = some J ∧
    getTerminatorId (eraseAndCleanup M toDel).1 b = some j := by
  unfold eraseAndCleanup
  have h1J : findInst (phase1 toDel toDel M []).1 j = some J := by
    rw [phase1_findInst_notin toDel toDel M [] hnotin]
    exact hJ
  have h1b : getTerminatorId (phase1 toDel toDel M []).1 b = some j := by
    rw [getTerminatorId_funcs_eq (funcs_phase1 toDel toDel M [])]
    exact hb
  obtain ⟨h2J, h2b⟩ := phase2_term_preserved _ _ false h1J ht h1b
  exact foldl_erase_term_preserved toDel _ hnotin h2J h2b

/-! ### Use-list bookkeeping along a cascade that deletes the literal -/

theorem useOf_dropOperand_ne {M : Module} {u k : Nat} {w : V}
    (hne : ∀ I, findInst M u = some I → ¬ I.operands.get? k = some (some w)) :
    useOf (dropOperand M u k) w = useOf M w := by
  cases hI : findInst M u with
  | none => rw [dropOperand_none k hI]
  | some I =>
    rw [dropOperand_eq k hI]
    cases hs : I.operands.get? k with
    | none => rfl
    | some o =>
      cases o with
      | none => rfl
      | some v =>
        dsimp only
        have hvw : ¬ w = v := by
          intro hwv
          exact hne I hI (by rw [hs, hwv])
        rw [useOf_setUses_other _ _ _ _ hvw, useOf_setInst]

theorem useOf_dropOperand_match {M : Module} {u k : Nat} {v : V} {I : Inst}
    (hI : findInst M u = some I) (hs : I.operands.get? k = some (some v)) :
    useOf (dropOperand M u k) v = (useOf M v).filter (fun e => ¬ e = (u, k)) := by
  rw [dropOperand_eq k hI, hs]
  dsimp only
  rw [useOf_setUses_self, useOf_setInst]

theorem useOf_dropRefs_untouched (u : Nat) (w : V) :
    ∀ (fuel k : Nat) (M : Module),
      (∀ I, findInst M u = some I → ∀ j, k ≤ j → j < k + fuel →
        ¬ I.operands.get? j = some (some w)) →
      useOf (dropRefs M u fuel k) w = useOf M w := by
  intro fuel
  induction fuel with
  | zero => intro k M _; rfl
  | succ n ih =>
    intro k M hyp
    rw [show dropRefs M u (n + 1) k = dropRefs (dropOperand M u k) u n (k + 1) from rfl]
    have h1 : useOf (dropOperand M u k) w = useOf M w :=
      useOf_dropOperand_ne (fun I hI => hyp I hI k (Nat.le_refl _) (by omega))
    rw [← h1]
    refine ih (k + 1) _ ?_
    intro I' hI' j hj1 hj2
    cases hI : findInst M u with
    | none =>
      rw [dropOperand_none k hI, hI] at hI'
      cases hI'
    | some I =>
      obtain ⟨I1, hI1, _, hoth1, _⟩ := dropOperand_self_spec k hI
      rw [hI1] at hI'
      have hII : I' = I1 := by simpa using hI'.symm
      subst hII
      rw [hoth1 j (by omega)]
      exact hyp I hI j (by omega) (by omega)

theorem filter_ne_all_eq {l : List (Nat × Nat)} {e0 : Nat × Nat}
    (h : ∀ e ∈ l, e = e0) : l.filter (fun e => ¬ e = e0) = [] :=
  List.filter_eq_nil_iff.mpr (fun a ha => by simp [h a ha])

theorem useOf_dropAllRefs_cond {M : Module} {ti : Nat} {TI : Inst} {ci : Nat}
    (hTI : findInst M ti = some TI)
    (hcond : TI.operands.get? 0 = some (some (V.inst ci)))
    (hall : ∀ e ∈ useOf M (V.inst ci), e = (ti, 0))
    (hother : ∀ j, 1 ≤ j → ¬ TI.operands.get? j = some (some (V.inst ci))) :
    useOf (dropAllRefs M ti) (V.inst ci) = [] := by
  unfold dropAllRefs
  rw [hTI]
  dsimp only
  obtain ⟨hd, tl, hops⟩ : ∃ hd tl, TI.operands = hd :: tl := by
    cases ho : TI.operands with
    | nil => rw [ho] at hcond; cases hcond
    | cons a t => exact ⟨a, t, rfl⟩
  rw [show TI.operands.length = tl.length + 1 from by rw [hops]; rfl]
  rw [show dropRefs M ti (tl.length + 1) 0 = dropRefs (dropOperand M ti 0) ti tl.length 1
    from rfl]
  have h0 : useOf (dropOperand M ti 0) (V.inst ci) = [] := by
    rw [useOf_dropOperand_match hTI hcond]
    exact filter_ne_all_eq hall
  rw [useOf_dropRefs_untouched ti (V.inst ci) tl.length 1 _ ?_]
  · exact h0
  · intro I' hI' j hj1 hj2
    obtain ⟨I1, hI1, _, hoth1, _⟩ := dropOperand_self_spec 0 hTI
    rw [hI1] at hI'
    have hII : I' = I1 := by simpa using hI'.symm
    subst hII
    rw [hoth1 j (by omega)]
    exact hother j hj1

theorem useOf_appendToBlock (M : Module) (b i : Nat) (w : V) :
    useOf (appendToBlock M b i) w = useOf M w := rfl

/-- One deletion round of the cascading deleter on an instruction with no
uses, no operands and no side effects simply erases it. -/
theorem rdtdi_kills_isolated {N : Module} {c : Nat} {C : Inst}
    (hC : findInst N c = some C) (hops : C.operands = []) (hse : C.sideEffects = false)
    (hnt : isTermKind C.kind = false) (hue : useOf N (V.inst c) = []) :
    (recursivelyDeleteTriviallyDeadInstructions N c).1 = eraseFromParent N c := by
  have hdead : isInstructionTriviallyDead N c = true := by
    unfold isInstructionTriviallyDead
    rw [hC]
    dsimp only
    simp [use_empty, hue, hnt, hse]
  unfold recursivelyDeleteTriviallyDeadInstructions
  rw [if_pos hdead]
  dsimp only
  rw [rdtdiLoop]
  rw [dif_pos (by rw [hC]; rfl)]
  have hdac : dropAndCollect N c = (N, []) := by
    unfold dropAndCollect
    rw [hC]
    dsimp only
    rw [hops]
    rfl
  rw [hdac]
  simp only [List.reverse_nil, List.nil_append]
  rw [rdtdiLoop]

theorem phase1_single {M : Module} {d : Nat} {I : Inst} (hI : findInst M d = some I) :
    phase1 [d] [d] M [] = (dropAllRefs M d, I.operands.foldl (fun a op =>
      match op with
      | some (V.inst j) => if [d].contains j ∨ a.contains j then a else a ++ [j]
      | _ => a) []) := by
  simp only [phase1, hI]

theorem foldl_dedup_prefix (toDel : List Nat) :
    ∀ (ops : List (Option V)) (a : List Nat), ∃ t, ops.foldl (fun a op =>
      match op with
      | some (V.inst j) => if toDel.contains j ∨ a.contains j then a else a ++ [j]
      | _ => a) a = a ++ t := by
  intro ops
  induction ops with
  | nil => intro a; exact ⟨[], by simp⟩
  | cons op rest ih =>
    intro a
    rw [List.foldl_cons]
    rcases op with _ | v
    · exact ih a
    · rcases v with j | ⟨bb, kk⟩
      · dsimp only
        split
        · exact ih a
        · obtain ⟨t, ht⟩ := ih (a ++ [j])
          exact ⟨[j] ++ t, by rw [ht, List.append_assoc]⟩
      · exact ih a

theorem useOf_createInst_mem (M : Module) (b : Nat) (I : Inst) (w : V) (e : Nat × Nat) :
    e ∈ useOf (createInst M b I).1 w ↔
      e ∈ useOf M w ∨ ∃ j, I.operands.get? j = some (some w) ∧ e = (M.nextId, 0 + j) := by
  unfold createInst
  dsimp only
  rw [registerUses_mem]
  exact Iff.rfl

/-- C4 — for a block whose terminator `ti` is a conditional branch whose
condition is defined by the one-bit literal `ci`, the constant fold reports a
change; the block's new terminator is a fresh unconditional branch to the
true successor with the true argument list when the bit is 1, to the false
successor with the false argument list when it is 0; the old conditional
branch is deleted through the cascading set-deleter, which cascades into
deleting the literal itself when the branch's condition was the literal's
only use, the literal has no operands and no side effects, and the literal is
not among the chosen branch arguments; and nothing changes (with a false
report) on every block whose terminator does not match the pattern. -/
theorem C4_constant_folding_correct (M : Module) (b ti ci : Nat) (TI CI : Inst)
    (tD fD nT nF : Nat) (bit : Bool) (h : WF M)
    (hterm : getTerminatorId M b = some ti)
    (hTI : findInst M ti = some TI)
    (hkind : TI.kind = IKind.condBr tD fD nT nF)
    (hcond : TI.operands.get? 0 = some (some (V.inst ci)))
    (hCI : findInst M ci = some CI)
    (hlit : CI.kind = IKind.intLit bit) :
    (constantFoldTerminator M b).2 = true ∧
    (∃ nid, ¬ nid = ti ∧
      getTerminatorId (constantFoldTerminator M b).1 b = some nid ∧
      findInst (constantFoldTerminator M b).1 nid = some
        { operands := (if bit then (TI.operands.drop 1).take nT
            else (TI.operands.drop (1 + nT)).take nF),
          sideEffects := false,
          kind := IKind.br (if bit then tD else fD) }) ∧
    findInst (constantFoldTerminator M b).1 ti = none ∧
    (useOf M (V.inst ci) = [(ti, 0)] → CI.operands = [] → CI.sideEffects = false →
      ¬ some (V.inst ci) ∈ (if bit then (TI.operands.drop 1).take nT
          else (TI.operands.drop (1 + nT)).take nF) →
      findInst (constantFoldTerminator M b).1 ci = none) ∧
    (∀ b', condBrLiteral M b' = none → constantFoldTerminator M b' = (M, false)) := by
  have hti_lt : ti < M.nextId := h.instKeysFresh _ (findInst_some_mem hTI)
  have hci_lt : ci < M.nextId := h.instKeysFresh _ (findInst_some_mem hCI)
  have hcine : ¬ ci = ti := by
    intro hec
    subst hec
    rw [hTI] at hCI
    have hec2 : TI = CI := by simpa using hCI
    rw [← hec2, hkind] at hlit
    cases hlit
  have hc : condBrLiteral M b = some (ti, TI, bit) := by
    unfold condBrLiteral
    rw [hterm]
    dsimp only
    rw [hTI]
    dsimp only
    rw [hkind]
    dsimp only
    rw [hcond]
    dsimp only
    rw [hCI]
    dsimp only
    rw [hlit]
  have hres : constantFoldTerminator M b =
      ((eraseAndCleanup (createInst M b { operands := (if bit then (TI.operands.drop 1).take nT else (TI.operands.drop (1 + nT)).take nF), sideEffects := false, kind := IKind.br (if bit then tD else fD) }).1 [ti]).1, true) := by
    unfold constantFoldTerminator
    rw [hc]
    dsimp only
    rw [hkind]
  have hFBsome : (findBlock M b).isSome = true := by
    unfold getTerminatorId at hterm
    cases hFB : findBlock M b with
    | none => rw [hFB] at hterm; cases hterm
    | some B => rfl
  have hBRfind : findInst (createInst M b { operands := (if bit then (TI.operands.drop 1).take nT else (TI.operands.drop (1 + nT)).take nF), sideEffects := false, kind := IKind.br (if bit then tD else fD) }).1 M.nextId = some { operands := (if bit then (TI.operands.drop 1).take nT else (TI.operands.drop (1 + nT)).take nF), sideEffects := false, kind := IKind.br (if bit then tD else fD) } :=
    findInst_createInst_self M b _
  have htermM1 : getTerminatorId (createInst M b { operands := (if bit then (TI.operands.drop 1).take nT else (TI.operands.drop (1 + nT)).take nF), sideEffects := false, kind := IKind.br (if bit then tD else fD) }).1 b = some M.nextId :=
    getTerminatorId_createInst M b _ hFBsome
  have hnotin : ∀ d ∈ [ti], ¬ M.nextId = d := by
    intro d hd
    have hdt : d = ti := by simpa using hd
    subst hdt
    omega
  have hEAC := eraseAndCleanup_term_preserved hnotin hBRfind
    (by cases bit <;> rfl) htermM1
  refine ⟨by rw [hres], ⟨M.nextId, by omega, ?_, ?_⟩, ?_, ?_, ?_⟩
  · rw [hres]
    exact hEAC.2
  · rw [hres]
    exact hEAC.1
  · rw [hres]
    exact eraseAndCleanup_erases [ti] ti (by simp)
  · intro husel hciops hcise hargs
    have hTIM1 : findInst (createInst M b { operands := (if bit then (TI.operands.drop 1).take nT else (TI.operands.drop (1 + nT)).take nF), sideEffects := false, kind := IKind.br (if bit then tD else fD) }).1 ti = some TI := by
      rw [findInst_createInst_other M b _ ti (by omega)]
      exact hTI
    have huseM1 : ∀ e ∈ useOf (createInst M b { operands := (if bit then (TI.operands.drop 1).take nT else (TI.operands.drop (1 + nT)).take nF), sideEffects := false, kind := IKind.br (if bit then tD else fD) }).1 (V.inst ci), e = (ti, 0) := by
      intro e he
      rcases (useOf_createInst_mem M b _ (V.inst ci) e).mp he with hold | ⟨j, hj1, hj2⟩
      · rw [husel] at hold
        simpa using hold
      · exact absurd (List.get?_mem hj1) hargs
    have hlive : liveV M (V.inst ci) := by
      simp only [liveV]
      rw [hCI]
      simp
    have hother : ∀ j, 1 ≤ j → ¬ TI.operands.get? j = some (some (V.inst ci)) := by
      intro j hj hslot
      have hmem := h.backward_useOf hTI hslot hlive
      rw [husel] at hmem
      have hj0 : (ti, j) = (ti, 0) := by simpa using hmem
      have : j = 0 := congrArg Prod.snd hj0
      omega
    have hP1 := phase1_single hTIM1
    obtain ⟨hdop, tlop, hopsTI⟩ : ∃ hd tl, TI.operands = hd :: tl := by
      cases ho : TI.operands with
      | nil => rw [ho] at hcond; cases hcond
      | cons a t => exact ⟨a, t, rfl⟩
    have hhd : hdop = some (V.inst ci) := by
      rw [hopsTI] at hcond
      simpa using hcond
    have hfold : ∃ t, TI.operands.foldl (fun a op =>
        match op with
        | some (V.inst j) => if [ti].contains j ∨ a.contains j then a else a ++ [j]
        | _ => a) [] = ci :: t := by
      rw [hopsTI, hhd, List.foldl_cons]
      dsimp only
      rw [if_neg (by simp [hcine])]
      rw [List.nil_append]
      obtain ⟨t, ht⟩ := foldl_dedup_prefix [ti] tlop [ci]
      exact ⟨t, by simpa using ht⟩
    obtain ⟨t, hfold⟩ := hfold
    have hueP1 : useOf (dropAllRefs (createInst M b { operands := (if bit then (TI.operands.drop 1).take nT else (TI.operands.drop (1 + nT)).take nF), sideEffects := false, kind := IKind.br (if bit then tD else fD) }).1 ti) (V.inst ci) = [] :=
      useOf_dropAllRefs_cond hTIM1 hcond huseM1 hother
    have hCIP1 : findInst (dropAllRefs (createInst M b { operands := (if bit then (TI.operands.drop 1).take nT else (TI.operands.drop (1 + nT)).take nF), sideEffects := false, kind := IKind.br (if bit then tD else fD) }).1 ti) ci = some CI := by
      rw [findInst_dropAllRefs_other hcine]
      rw [findInst_createInst_other M b _ ci (by omega)]
      exact hCI
    have hkill := rdtdi_kills_isolated hCIP1 hciops hcise (by rw [hlit]; rfl) hueP1
    rw [hres]
    show findInst (eraseAndCleanup (createInst M b { operands := (if bit then (TI.operands.drop 1).take nT else (TI.operands.drop (1 + nT)).take nF), sideEffects := false, kind := IKind.br (if bit then tD else fD) }).1 [ti]).1 ci = none
    unfold eraseAndCleanup
    rw [hP1]
    dsimp only
    rw [hfold]
    refine absent_foldl_erase [ti] _ ?_
    simp only [phase2]
    refine absent_phase2 t _ _ ?_
    rw [hkill]
    exact findInst_erase_self _ ci
  · intro b' hcb
    unfold constantFoldTerminator
    rw [hcb]
/-- Witness for C4 at `exampleFold`: the entry block's conditional branch on
the literal-1 condition folds to an unconditional branch to block 1 with no
arguments; the old branch and the now-unused literal are both deleted, and a
block whose terminator does not match (block 1, ending in a return) is left
unchanged with a false report. -/
theorem C4_witness :
    (constantFoldTerminator exampleFold 0).2 = true ∧
    (∃ nid, ¬ nid = 1 ∧
      getTerminatorId (constantFoldTerminator exampleFold 0).1 0 = some nid ∧
      findInst (constantFoldTerminator exampleFold 0).1 nid = some
        { operands := [], sideEffects := false, kind := IKind.br 1 }) ∧
    findInst (constantFoldTerminator exampleFold 0).1 1 = none ∧
    findInst (constantFoldTerminator exampleFold 0).1 0 = none ∧
    constantFoldTerminator exampleFold 1 = (exampleFold, false) := by
  have hmain := C4_constant_folding_correct exampleFold 0 1 0
    { operands := [some (V.inst 0)], sideEffects := false, kind := IKind.condBr 1 2 0 0 }
    { operands := [], sideEffects := false, kind := IKind.intLit true }
    1 2 0 0 true (by decide) (by decide) (by decide) (by decide) (by decide) (by decide)
    (by decide)
  exact ⟨hmain.1, hmain.2.1, hmain.2.2.1,
    hmain.2.2.2.1 (by decide) (by decide) (by decide) (by decide),
    hmain.2.2.2.2 1 (by decide)⟩

/-! ### Declarative reachability and the worklist traversal -/

/-- Forward reachability from block `e` along terminator successor edges. -/
inductive ReachesB (M : Module) (e : Nat) : Nat → Prop where
  | refl : ReachesB M e e
  | step {b s : Nat} : ReachesB M e b → s ∈ succsOf M b → ReachesB M e s

theorem reachLoop_nil_step {M : Module} {b : Nat} {wl reach : List Nat}
    (h : collectNew reach (succsOf M b) = []) :
    reachLoop M (b :: wl) reach = reachLoop M wl reach := by
  rw [reachLoop]
  rw [if_pos h]

theorem reachLoop_cons_step {M : Module} {b : Nat} {wl reach : List Nat}
    (h : ¬ collectNew reach (succsOf M b) = []) :
    reachLoop M (b :: wl) reach =
      reachLoop M ((collectNew reach (succsOf M b)).reverse ++ wl)
        (reach ++ collectNew reach (succsOf M b)) := by
  rw [reachLoop]
  rw [if_neg h]

theorem collectNew_eq_nil {l : List Nat} :
    ∀ {seen : List Nat}, collectNew seen l = [] → ∀ s ∈ l, s ∈ seen := by
  induction l with
  | nil => intro seen _ s hs; cases hs
  | cons hd rest ih =>
    intro seen hnil s hs
    unfold collectNew at hnil
    by_cases hseen : hd ∈ seen
    · simp only [List.elem_eq_true_of_mem hseen, if_true] at hnil
      rcases List.mem_cons.mp hs with rfl | hs'
      · exact hseen
      · exact ih hnil s hs'
    · rw [if_neg (by simpa using hseen)] at hnil
      cases hnil

theorem collectNew_covers :
    ∀ (l seen : List Nat), ∀ s ∈ l, s ∈ seen ∨ s ∈ collectNew seen l := by
  intro l
  induction l with
  | nil => intro seen s hs; cases hs
  | cons hd rest ih =>
    intro seen s hs
    rcases List.mem_cons.mp hs with rfl | hs'
    · by_cases hseen : s ∈ seen
      · exact Or.inl hseen
      · right
        unfold collectNew
        rw [if_neg (by simpa using hseen)]
        exact List.mem_cons_self _ _
    · by_cases hseen : hd ∈ seen
      · rcases ih seen s hs' with h1 | h2
        · exact Or.inl h1
        · right
          unfold collectNew
          simp only [List.elem_eq_true_of_mem hseen, if_true]
          exact h2
      · rcases ih (seen ++ [hd]) s hs' with h1 | h2
        · rcases List.mem_append.mp h1 with h1a | h1b
          · exact Or.inl h1a
          · right
            unfold collectNew
            rw [if_neg (by simpa using hseen)]
            have : s = hd := by simpa using h1b
            rw [this]
            exact List.mem_cons_self _ _
        · right
          unfold collectNew
          rw [if_neg (by simpa using hseen)]
          exact List.mem_cons_of_mem _ h2

theorem collectNew_nodup : ∀ (l seen : List Nat), (collectNew seen l).Nodup := by
  intro l
  induction l with
  | nil => intro seen; exact List.nodup_nil
  | cons hd rest ih =>
    intro seen
    unfold collectNew
    by_cases hseen : hd ∈ seen
    · simp only [List.elem_eq_true_of_mem hseen, if_true]
      exact ih seen
    · rw [if_neg (by simpa using hseen)]
      refine List.nodup_cons.mpr ⟨?_, ih (seen ++ [hd])⟩
      intro hmem
      have := (collectNew_mem hmem).2
      exact this (List.mem_append_right _ (List.mem_cons_self _ _))

theorem reachLoop_extends (M : Module) :
    ∀ (wl reach : List Nat), ∃ ext, reachLoop M wl reach = reach ++ ext := by
  intro wl reach
  induction wl, reach using reachLoop.induct M with
  | case1 reach =>
    rw [reachLoop]
    exact ⟨[], by simp⟩
  | case2 b wl reach news h ih =>
    rw [reachLoop_nil_step h]
    exact ih
  | case3 b wl reach news h ih =>
    rw [reachLoop_cons_step h]
    obtain ⟨ext, hext⟩ := ih
    exact ⟨collectNew reach (succsOf M b) ++ ext, by rw [hext, List.append_assoc]⟩

theorem reachLoop_sound (M : Module) (e : Nat) :
    ∀ (wl reach : List Nat),
      (∀ b ∈ wl, ReachesB M e b) → (∀ b ∈ reach, ReachesB M e b) →
      ∀ x ∈ reachLoop M wl reach, ReachesB M e x := by
  intro wl reach
  induction wl, reach using reachLoop.induct M with
  | case1 reach =>
    intro _ hreach x hx
    rw [reachLoop] at hx
    exact hreach x hx
  | case2 b wl reach news h ih =>
    intro hwl hreach x hx
    rw [reachLoop_nil_step h] at hx
    exact ih (fun c hc => hwl c (List.mem_cons_of_mem _ hc)) hreach x hx
  | case3 b wl reach news h ih =>
    intro hwl hreach x hx
    rw [reachLoop_cons_step h] at hx
    have hnews : ∀ c ∈ collectNew reach (succsOf M b), ReachesB M e c := by
      intro c hc
      exact ReachesB.step (hwl b (List.mem_cons_self _ _)) (collectNew_mem hc).1
    refine ih ?_ ?_ x hx
    · intro c hc
      rcases List.mem_append.mp hc with hc1 | hc2
      · exact hnews c (List.mem_reverse.mp hc1)
      · exact hwl c (List.mem_cons_of_mem _ hc2)
    · intro c hc
      rcases List.mem_append.mp hc with hc1 | hc2
      · exact hreach c hc1
      · exact hnews c hc2

theorem reachLoop_closed (M : Module) :
    ∀ (wl reach : List Nat),
      (∀ b ∈ reach, b ∈ wl ∨ ∀ s ∈ succsOf M b, s ∈ reach) →
      (∀ b ∈ wl, b ∈ reach) →
      ∀ x ∈ reachLoop M wl reach, ∀ s ∈ succsOf M x, s ∈ reachLoop M wl reach := by
  intro wl reach
  induction wl, reach using reachLoop.induct M with
  | case1 reach =>
    intro hinv _ x hx s hs
    rw [reachLoop] at hx ⊢
    rcases hinv x hx with hw | hcl
    · cases hw
    · exact hcl s hs
  | case2 b wl reach news h ih =>
    intro hinv hwl x hx s hs
    rw [reachLoop_nil_step h] at hx ⊢
    refine ih ?_ (fun c hc => hwl c (List.mem_cons_of_mem _ hc)) x hx s hs
    intro c hc
    rcases hinv c hc with hw | hcl
    · rcases List.mem_cons.mp hw with rfl | hw'
      · exact Or.inr (collectNew_eq_nil h)
      · exact Or.inl hw'
    · exact Or.inr hcl
  | case3 b wl reach news h ih =>
    intro hinv hwl x hx s hs
    rw [reachLoop_cons_step h] at hx ⊢
    refine ih ?_ ?_ x hx s hs
    · intro c hc
      rcases List.mem_append.mp hc with hcr | hcn
      · rcases hinv c hcr with hw | hcl
        · rcases List.mem_cons.mp hw with rfl | hw'
          · refine Or.inr ?_
            intro s' hs'
            rcases collectNew_covers (succsOf M c) reach s' hs' with h1 | h2
            · exact List.mem_append_left _ h1
            · exact List.mem_append_right _ h2
          · exact Or.inl (List.mem_append_right _ hw')
        · refine Or.inr ?_
          intro s' hs'
          exact List.mem_append_left _ (hcl s' hs')
      · exact Or.inl (List.mem_append_left _ (List.mem_reverse.mpr hcn))
    · intro c hc
      rcases List.mem_append.mp hc with hc1 | hc2
      · exact List.mem_append_right _ (List.mem_reverse.mp hc1)
      · exact List.mem_append_left _ (hwl c (List.mem_cons_of_mem _ hc2))

theorem reachLoop_nodup (M : Module) :
    ∀ (wl reach : List Nat), reach.Nodup → (reachLoop M wl reach).Nodup := by
  intro wl reach
  induction wl, reach using reachLoop.induct M with
  | case1 reach =>
    intro hnd
    rw [reachLoop]
    exact hnd
  | case2 b wl reach news h ih =>
    intro hnd
    rw [reachLoop_nil_step h]
    exact ih hnd
  | case3 b wl reach news h ih =>
    intro hnd
    rw [reachLoop_cons_step h]
    refine ih (List.Nodup.append hnd (collectNew_nodup _ _) ?_)
    intro a ha hmem
    exact (collectNew_mem hmem).2 ha

theorem reachLoop_in_ids (M : Module) (ids : List Nat)
    (hcl : ∀ b ∈ ids, ∀ s ∈ succsOf M b, s ∈ ids) :
    ∀ (wl reach : List Nat), (∀ b ∈ wl, b ∈ ids) → (∀ b ∈ reach, b ∈ ids) →
      ∀ x ∈ reachLoop M wl reach, x ∈ ids := by
  intro wl reach
  induction wl, reach using reachLoop.induct M with
  | case1 reach =>
    intro _ hreach x hx
    rw [reachLoop] at hx
    exact hreach x hx
  | case2 b wl reach news h ih =>
    intro hwl hreach x hx
    rw [reachLoop_nil_step h] at hx
    exact ih (fun c hc => hwl c (List.mem_cons_of_mem _ hc)) hreach x hx
  | case3 b wl reach news h ih =>
    intro hwl hreach x hx
    rw [reachLoop_cons_step h] at hx
    have hnews : ∀ c ∈ collectNew reach (succsOf M b), c ∈ ids := by
      intro c hc
      exact hcl b (hwl b (List.mem_cons_self _ _)) c (collectNew_mem hc).1
    refine ih ?_ ?_ x hx
    · intro c hc
      rcases List.mem_append.mp hc with hc1 | hc2
      · exact hnews c (List.mem_reverse.mp hc1)
      · exact hwl c (List.mem_cons_of_mem _ hc2)
    · intro c hc
      rcases List.mem_append.mp hc with hc1 | hc2
      · exact hreach c hc1
      · exact hnews c hc2

theorem reachLoop_result_iff (M : Module) (e x : Nat) :
    x ∈ reachLoop M [e] [e] ↔ ReachesB M e x := by
  constructor
  · intro hx
    refine reachLoop_sound M e [e] [e] ?_ ?_ x hx
    · intro b hb
      have hbe : b = e := by simpa using hb
      subst hbe
      exact ReachesB.refl
    · intro b hb
      have hbe : b = e := by simpa using hb
      subst hbe
      exact ReachesB.refl
  · intro hr
    induction hr with
    | refl =>
      obtain ⟨ext, hext⟩ := reachLoop_extends M [e] [e]
      rw [hext]
      exact List.mem_append_left _ (List.mem_cons_self _ _)
    | step hb hs ih =>
      exact reachLoop_closed M [e] [e]
        (fun b hb' => Or.inl hb') (fun b hb' => hb') _ ih _ hs

/-! ### How the deleters reshape the block lists: every block list is mapped
by filtering out a set of ids, all of which are dead afterwards. -/

/-- `N` is reachable from `M` by deletions only: absent instructions stay
absent, the function skeleton is preserved, and every block's instruction
list is the old list with some (now dead) ids filtered out. -/
def FilterRel (M N : Module) : Prop :=
  (∀ j, findInst M j = none → findInst N j = none) ∧
  N.funcs.length = M.funcs.length ∧
  ∃ p : Nat → Bool, (∀ j, p j = false → findInst N j = none) ∧
    ∀ fIdx, funcBlocks N fIdx = (funcBlocks M fIdx).map
      (fun B => { B with instrs := B.instrs.filter p })

theorem filter_true_blocks (L : List Block) :
    L.map (fun B => { B with instrs := B.instrs.filter (fun _ => true) }) = L := by
  induction L with
  | nil => rfl
  | cons B t ih =>
    rw [List.map_cons, ih, List.filter_true]

theorem FilterRel_of_funcs_eq {M N : Module}
    (habs : ∀ j, findInst M j = none → findInst N j = none)
    (hf : N.funcs = M.funcs) : FilterRel M N := by
  refine ⟨habs, by rw [hf], ⟨fun _ => true, fun j hj => by simp at hj, ?_⟩⟩
  intro fIdx
  rw [filter_true_blocks]
  unfold funcBlocks
  rw [hf]

theorem FilterRel_refl (M : Module) : FilterRel M M :=
  FilterRel_of_funcs_eq (fun _ h => h) rfl

theorem FilterRel_trans {M N P : Module} (h1 : FilterRel M N) (h2 : FilterRel N P) :
    FilterRel M P := by
  obtain ⟨abs1, len1, p1, dead1, fb1⟩ := h1
  obtain ⟨abs2, len2, p2, dead2, fb2⟩ := h2
  refine ⟨fun j hj => abs2 j (abs1 j hj), by rw [len2, len1],
    fun j => p2 j && p1 j, ?_, ?_⟩
  · intro j hj
    dsimp only at hj
    by_cases hp1 : p1 j = false
    · exact abs2 j (dead1 j hp1)
    · have hp1t : p1 j = true := by
        cases hc : p1 j
        · exact absurd hc hp1
        · rfl
      have hp2 : p2 j = false := by
        cases hc : p2 j
        · rfl
        · rw [hc, hp1t] at hj; cases hj
      exact dead2 j hp2
  · intro fIdx
    rw [fb2, fb1, List.map_map]
    refine List.map_congr_left ?_
    intro B hB
    dsimp only [Function.comp]
    rw [List.filter_filter]

theorem FilterRel_dropOperand (M : Module) (u k : Nat) : FilterRel M (dropOperand M u k) :=
  FilterRel_of_funcs_eq (fun _ hj => absent_dropOperand hj u k) (funcs_dropOperand M u k)

theorem funcBlocks_erase (M : Module) (i fIdx : Nat) :
    funcBlocks (eraseFromParent M i) fIdx = (funcBlocks M fIdx).map
      (fun B => { B with instrs := B.instrs.filter (fun j => ¬ j = i) }) := by
  unfold funcBlocks eraseFromParent removeFromBlocks
  dsimp only
  rw [List.get?_map]
  cases M.funcs.get? fIdx with
  | none => rfl
  | some F => rfl

theorem FilterRel_erase (M : Module) (i : Nat) : FilterRel M (eraseFromParent M i) := by
  refine ⟨fun _ hj => absent_erase hj i, ?_, fun j => ¬ j = i, ?_, ?_⟩
  · show (eraseFromParent M i).funcs.length = M.funcs.length
    unfold eraseFromParent removeFromBlocks
    dsimp only
    rw [List.length_map]
  · intro j hj
    have hji : j = i := by simpa using hj
    subst hji
    exact findInst_erase_self M j
  · intro fIdx
    exact funcBlocks_erase M i fIdx

theorem FilterRel_dropRefs (u : Nat) :
    ∀ (fuel k : Nat) (M : Module), FilterRel M (dropRefs M u fuel k) := by
  intro fuel
  induction fuel with
  | zero => intro k M; exact FilterRel_refl M
  | succ n ih =>
    intro k M
    rw [show dropRefs M u (n + 1) k = dropRefs (dropOperand M u k) u n (k + 1) from rfl]
    exact FilterRel_trans (FilterRel_dropOperand M u k) (ih (k + 1) (dropOperand M u k))

theorem FilterRel_dropAllRefs (M : Module) (u : Nat) : FilterRel M (dropAllRefs M u) := by
  unfold dropAllRefs
  cases findInst M u with
  | none => exact FilterRel_refl M
  | some I => exact FilterRel_dropRefs u _ 0 M

theorem FilterRel_rdtdiLoop :
    ∀ (M : Module) (stack : List Nat), FilterRel M (rdtdiLoop M stack) := by
  intro M stack
  induction M, stack using rdtdiLoop.induct with
  | case1 M => rw [rdtdiLoop]; exact FilterRel_refl M
  | case2 M i rest hfi p ih =>
    rw [rdtdiLoop, dif_pos hfi]
    refine FilterRel_trans (FilterRel_trans ?_ (FilterRel_erase p.1 i)) ih
    rw [show p.1 = (dropAndCollect M i).1 from rfl, dropAndCollect_fst]
    exact FilterRel_dropAllRefs M i
  | case3 M i rest hfi ih =>
    rw [rdtdiLoop, dif_neg hfi]
    exact ih

theorem FilterRel_rdtdi (M : Module) (i : Nat) :
    FilterRel M (recursivelyDeleteTriviallyDeadInstructions M i).1 := by
  unfold recursivelyDeleteTriviallyDeadInstructions
  split
  · exact FilterRel_rdtdiLoop M [i]
  · exact FilterRel_refl M

theorem FilterRel_phase1 (toDel : List Nat) :
    ∀ (pending : List Nat) (M : Module) (acc : List Nat),
      FilterRel M (phase1 toDel pending M acc).1 := by
  intro pending
  induction pending with
  | nil => intro M acc; exact FilterRel_refl M
  | cons d rest ih =>
    intro M acc
    simp only [phase1]
    cases findInst M d with
    | none => exact ih M acc
    | some I => exact FilterRel_trans (FilterRel_dropAllRefs M d) (ih _ _)

theorem FilterRel_phase2 :
    ∀ (cands : List Nat) (M : Module) (acc : Bool), FilterRel M (phase2 cands M acc).1 := by
  intro cands
  induction cands with
  | nil => intro M acc; exact FilterRel_refl M
  | cons c rest ih =>
    intro M acc
    simp only [phase2]
    exact FilterRel_trans (FilterRel_rdtdi M c) (ih _ _)

theorem FilterRel_foldl_erase :
    ∀ (l : List Nat) (M : Module),
      FilterRel M (l.foldl (fun m d => eraseFromParent m d) M) := by
  intro l
  induction l with
  | nil => intro M; exact FilterRel_refl M
  | cons d rest ih =>
    intro M
    simp only [List.foldl_cons]
    exact FilterRel_trans (FilterRel_erase M d) (ih _)

theorem FilterRel_eraseAndCleanup (M : Module) (toDel : List Nat) :
    FilterRel M (eraseAndCleanup M toDel).1 := by
  unfold eraseAndCleanup
  exact FilterRel_trans (FilterRel_phase1 toDel toDel M [])
    (FilterRel_trans (FilterRel_phase2 _ _ false) (FilterRel_foldl_erase toDel _))

theorem FilterRel_termEraseFold :
    ∀ (bs : List Block) (M : Module),
      FilterRel M (bs.foldl (fun m B =>
        match getTerminatorId m B.id with
        | some t => (eraseAndCleanup m [t]).1
        | none => m) M) := by
  intro bs
  induction bs with
  | nil => intro M; exact FilterRel_refl M
  | cons B rest ih =>
    intro M
    simp only [List.foldl_cons]
    refine FilterRel_trans ?_ (ih _)
    cases getTerminatorId M B.id with
    | none => exact FilterRel_refl M
    | some t => exact FilterRel_eraseAndCleanup M [t]

theorem FilterRel_live_mem {M N : Module} (h : FilterRel M N) {fIdx : Nat} {B : Block}
    (hB : B ∈ funcBlocks M fIdx) :
    ∃ B', B' ∈ funcBlocks N fIdx ∧ B'.id = B.id ∧
      ∀ i ∈ B.instrs, ¬ findInst N i = none → i ∈ B'.instrs := by
  obtain ⟨_, _, p, dead, fb⟩ := h
  refine ⟨{ B with instrs := B.instrs.filter p }, ?_, rfl, ?_⟩
  · rw [fb fIdx]
    exact List.mem_map_of_mem _ hB
  · intro i hi hlive
    refine List.mem_filter.mpr ⟨hi, ?_⟩
    cases hp : p i with
    | false => exact absurd (dead i hp) hlive
    | true => rfl

/-! ### The sweep's mutation, named step by step -/

/-- Step (1) of `removeUnreachableBlocks`: delete each unreachable block's
terminator through the cascading set-deleter. -/
def sweepStep1 (M : Module) (reachable : List Nat) (bs : List Block) : Module :=
  (bs.filter (fun B => ¬ reachable.contains B.id)).foldl
    (fun m B =>
      match getTerminatorId m B.id with
      | some t => (eraseAndCleanup m [t]).1
      | none => m) M

/-- Step (2): bulk-delete every remaining instruction of the unreachable
blocks through the set-deleter. -/
def sweepStep2 (M : Module) (fIdx : Nat) (reachable : List Nat) (bs : List Block) : Module :=
  (eraseAndCleanup (sweepStep1 M reachable bs)
    (((funcBlocks (sweepStep1 M reachable bs) fIdx).filter
      (fun B => ¬ reachable.contains B.id)).flatMap (·.instrs))).1

/-- The whole changed branch of the sweep: steps (1) and (2), then erase the
unreachable blocks from the function and count them. -/
def sweepChanged (M : Module) (fIdx : Nat) (reachable : List Nat) (bs : List Block) :
    Module × Bool :=
  let M2 := sweepStep2 M fIdx reachable bs
  let kept := (funcBlocks M2 fIdx).filter (fun B => reachable.contains B.id)
  let removed := (funcBlocks M2 fIdx).length - kept.length
  let M3 := setFuncBlocks M2 fIdx kept
  ({ M3 with numBlocksRemoved := M3.numBlocksRemoved + removed }, true)

theorem removeUnreachableBlocks_nofunc {M : Module} {fIdx : Nat}
    (h : M.funcs.get? fIdx = none) : removeUnreachableBlocks M fIdx = (M, false) := by
  unfold removeUnreachableBlocks
  rw [h]

theorem removeUnreachableBlocks_emptyF {M : Module} {fIdx : Nat} {F : Func}
    (hF : M.funcs.get? fIdx = some F) (h : F.blocks = []) :
    removeUnreachableBlocks M fIdx = (M, false) := by
  unfold removeUnreachableBlocks
  rw [hF]
  dsimp only
  rw [show F.blocks.head? = none from by rw [h]; rfl]

theorem removeUnreachableBlocks_nochange {M : Module} {fIdx : Nat} {F : Func} {entry : Block}
    (hF : M.funcs.get? fIdx = some F) (hentry : F.blocks.head? = some entry)
    (hlen : (reachLoop M [entry.id] [entry.id]).length = F.blocks.length) :
    removeUnreachableBlocks M fIdx = (M, false) := by
  unfold removeUnreachableBlocks
  rw [hF]
  dsimp only
  rw [hentry]
  dsimp only
  rw [if_pos hlen]

theorem removeUnreachableBlocks_changed {M : Module} {fIdx : Nat} {F : Func} {entry : Block}
    (hF : M.funcs.get? fIdx = some F) (hentry : F.blocks.head? = some entry)
    (hlen : ¬ (reachLoop M [entry.id] [entry.id]).length = F.blocks.length) :
    removeUnreachableBlocks M fIdx =
      sweepChanged M fIdx (reachLoop M [entry.id] [entry.id]) F.blocks := by
  unfold removeUnreachableBlocks sweepChanged sweepStep2 sweepStep1
  rw [hF]
  dsimp only
  rw [hentry]
  dsimp only
  rw [if_neg hlen]

theorem funcBlocks_sweepChanged (M : Module) (fIdx : Nat) (r : List Nat) (bs : List Block)
    (hlt : fIdx < (sweepStep2 M fIdx r bs).funcs.length) :
    funcBlocks (sweepChanged M fIdx r bs).1 fIdx =
      (funcBlocks (sweepStep2 M fIdx r bs) fIdx).filter (fun B => r.contains B.id) := by
  unfold sweepChanged
  dsimp only
  unfold funcBlocks setFuncBlocks
  dsimp only
  rw [get?_set_self _ _ _ hlt]
  rfl

theorem contains_iff_mem {l : List Nat} {a : Nat} : l.contains a = true ↔ a ∈ l :=
  ⟨fun hc => List.mem_of_elem_eq_true hc, fun hm => List.elem_eq_true_of_mem hm⟩

theorem blocks_sublist_allBlocks {M : Module} {F : Func} (hF : F ∈ M.funcs) :
    List.Sublist F.blocks (allBlocks M) := by
  unfold allBlocks
  suffices hgen : ∀ (l : List Func), F ∈ l →
      List.Sublist F.blocks (l.flatMap (·.blocks)) from hgen M.funcs hF
  intro l hl
  induction l with
  | nil => cases hl
  | cons G t ih =>
    rw [List.flatMap_cons]
    rcases List.mem_cons.mp hl with rfl | hl'
    · exact List.sublist_append_left _ _
    · exact List.Sublist.trans (ih hl') (List.sublist_append_right _ _)

theorem entry_mem_reachLoop (M : Module) (e : Nat) : e ∈ reachLoop M [e] [e] := by
  obtain ⟨ext, hext⟩ := reachLoop_extends M [e] [e]
  rw [hext]
  exact List.mem_append_left _ (List.mem_cons_self _ _)

/-- C6 — the reachability sweep: it returns false and changes nothing on a
missing or empty function; the traversal's outcome is order-independent, its
membership coinciding exactly with declarative forward reachability from the
entry block; under a well-formed module whose successor edges stay inside the
function, the sweep changes nothing (returning false) when every block is
reachable, and otherwise returns true, keeps exactly the reachable blocks (in
order), and deletes every instruction of every unreachable block. -/
theorem C6_reachability_sweep_correct (M : Module) (fIdx : Nat) (h : WF M) :
    (M.funcs.get? fIdx = none → removeUnreachableBlocks M fIdx = (M, false)) ∧
    (∀ F, M.funcs.get? fIdx = some F → F.blocks = [] →
      removeUnreachableBlocks M fIdx = (M, false)) ∧
    (∀ F entry, M.funcs.get? fIdx = some F → F.blocks.head? = some entry →
      (∀ i, (reachLoop M [entry.id] [entry.id]).contains i = true ↔
        ReachesB M entry.id i) ∧
      ((∀ B ∈ F.blocks, ∀ s ∈ succsOf M B.id, ∃ B' ∈ F.blocks, B'.id = s) →
        ((∀ B ∈ F.blocks, ReachesB M entry.id B.id) →
          removeUnreachableBlocks M fIdx = (M, false)) ∧
        ((∃ B ∈ F.blocks, ¬ ReachesB M entry.id B.id) →
          (removeUnreachableBlocks M fIdx).2 = true ∧
          ((funcBlocks (removeUnreachableBlocks M fIdx).1 fIdx).map (·.id))
            = (F.blocks.map (·.id)).filter
                (fun i => (reachLoop M [entry.id] [entry.id]).contains i) ∧
          (∀ B ∈ F.blocks, ¬ ReachesB M entry.id B.id →
            ∀ i ∈ B.instrs, findInst (removeUnreachableBlocks M fIdx).1 i = none)))) := by
  refine ⟨fun h0 => removeUnreachableBlocks_nofunc h0,
    fun F hF h0 => removeUnreachableBlocks_emptyF hF h0, ?_⟩
  intro F entry hF hentry
  have hRiff : ∀ i, (reachLoop M [entry.id] [entry.id]).contains i = true ↔
      ReachesB M entry.id i := by
    intro i
    rw [contains_iff_mem]
    exact reachLoop_result_iff M entry.id i
  refine ⟨hRiff, ?_⟩
  intro hcl
  have hentrymem : entry ∈ F.blocks := List.mem_of_mem_head? hentry
  have hfbM : funcBlocks M fIdx = F.blocks := by
    unfold funcBlocks
    rw [hF]
    rfl
  have hids_cl : ∀ b ∈ F.blocks.map (·.id), ∀ s ∈ succsOf M b,
      s ∈ F.blocks.map (·.id) := by
    intro b hb s hs
    obtain ⟨B, hB, hBid⟩ := List.mem_map.mp hb
    obtain ⟨B', hB', hB'id⟩ := hcl B hB s (by rw [hBid]; exact hs)
    exact List.mem_map.mpr ⟨B', hB', hB'id⟩
  have hRsub : ∀ x ∈ reachLoop M [entry.id] [entry.id], x ∈ F.blocks.map (·.id) := by
    refine reachLoop_in_ids M _ hids_cl [entry.id] [entry.id] ?_ ?_
    · intro b hb
      have hbe : b = entry.id := by simpa using hb
      subst hbe
      exact List.mem_map.mpr ⟨entry, hentrymem, rfl⟩
    · intro b hb
      have hbe : b = entry.id := by simpa using hb
      subst hbe
      exact List.mem_map.mpr ⟨entry, hentrymem, rfl⟩
  have hRnd : (reachLoop M [entry.id] [entry.id]).Nodup :=
    reachLoop_nodup M _ _ (by simp)
  have hidsnd : (F.blocks.map (·.id)).Nodup :=
    List.Nodup.sublist ((blocks_sublist_allBlocks (List.get?_mem hF)).map (·.id))
      h.blockIdsNodup
  constructor
  · intro hall
    have hsup : ∀ x ∈ F.blocks.map (·.id), x ∈ reachLoop M [entry.id] [entry.id] := by
      intro x hx
      obtain ⟨B, hB, hBid⟩ := List.mem_map.mp hx
      exact (reachLoop_result_iff M entry.id x).mpr (hBid ▸ hall B hB)
    have hlen : (reachLoop M [entry.id] [entry.id]).length = F.blocks.length := by
      have hperm := (List.perm_ext_iff_of_nodup hRnd hidsnd).mpr
        (fun a => ⟨hRsub a, hsup a⟩)
      rw [hperm.length_eq, List.length_map]
    exact removeUnreachableBlocks_nochange hF hentry hlen
  · rintro ⟨B0, hB0, hB0un⟩
    have hB0notin : B0.id ∉ reachLoop M [entry.id] [entry.id] := by
      intro hmem
      exact hB0un ((reachLoop_result_iff M entry.id B0.id).mp hmem)
    have hlen : ¬ (reachLoop M [entry.id] [entry.id]).length = F.blocks.length := by
      intro heq
      have hnd2 : (B0.id :: reachLoop M [entry.id] [entry.id]).Nodup :=
        List.nodup_cons.mpr ⟨hB0notin, hRnd⟩
      have hsubset : ∀ x ∈ B0.id :: reachLoop M [entry.id] [entry.id],
          x ∈ F.blocks.map (·.id) := by
        intro x hx
        rcases List.mem_cons.mp hx with rfl | hx'
        · exact List.mem_map.mpr ⟨B0, hB0, rfl⟩
        · exact hRsub x hx'
      have hle := (List.subperm_of_subset hnd2 hsubset).length_le
      rw [List.length_cons] at hle
      rw [List.length_map] at hle
      omega
    have hred := removeUnreachableBlocks_changed hF hentry hlen
    have hFR : FilterRel M
        (sweepStep2 M fIdx (reachLoop M [entry.id] [entry.id]) F.blocks) :=
      FilterRel_trans
        (FilterRel_termEraseFold
          (F.blocks.filter (fun B => ¬ (reachLoop M [entry.id] [entry.id]).contains B.id)) M)
        (FilterRel_eraseAndCleanup _ _)
    have hlenfuncs : fIdx <
        (sweepStep2 M fIdx (reachLoop M [entry.id] [entry.id]) F.blocks).funcs.length := by
      have h1 := hFR.2.1
      have h2 : ¬ M.funcs.length ≤ fIdx := by
        intro hge
        rw [List.get?_len_le hge] at hF
        cases hF
      omega
    refine ⟨by rw [hred]; rfl, ?_, ?_⟩
    · rw [hred]
      rw [funcBlocks_sweepChanged M fIdx _ F.blocks hlenfuncs]
      obtain ⟨_, _, p, hdead, hfb⟩ := hFR
      rw [hfb fIdx, hfbM]
      conv_lhs => rw [List.filter_map, List.map_map]
      conv_rhs => rw [List.filter_map]
      rfl
    · intro B hB hBun i hi
      rw [hred]
      show findInst
        (sweepStep2 M fIdx (reachLoop M [entry.id] [entry.id]) F.blocks) i = none
      by_cases hlive : findInst
          (sweepStep1 M (reachLoop M [entry.id] [entry.id]) F.blocks) i = none
      · exact absent_eraseAndCleanup hlive _
      · have hFR1 : FilterRel M
            (sweepStep1 M (reachLoop M [entry.id] [entry.id]) F.blocks) :=
          FilterRel_termEraseFold
            (F.blocks.filter
              (fun B => ¬ (reachLoop M [entry.id] [entry.id]).contains B.id)) M
        have hBmem : B ∈ funcBlocks M fIdx := by
          rw [hfbM]
          exact hB
        obtain ⟨B', hB'mem, hB'id, hB'keep⟩ := FilterRel_live_mem hFR1 hBmem
        have hiB' : i ∈ B'.instrs := hB'keep i hi hlive
        have hB'unreach :
            (reachLoop M [entry.id] [entry.id]).contains B'.id = false := by
          cases hcb : (reachLoop M [entry.id] [entry.id]).contains B'.id with
          | false => rfl
          | true =>
            exfalso
            apply hBun
            have := (hRiff B'.id).mp hcb
            rw [hB'id] at this
            exact this
        have htoDel : i ∈ ((funcBlocks
            (sweepStep1 M (reachLoop M [entry.id] [entry.id]) F.blocks) fIdx).filter
              (fun B => ¬ (reachLoop M [entry.id] [entry.id]).contains B.id)).flatMap
              (·.instrs) := by
          refine List.mem_flatMap.mpr ⟨B', ?_, hiB'⟩
          refine List.mem_filter.mpr ⟨hB'mem, ?_⟩
          simp [hB'unreach]
          intro hm
          rw [contains_iff_mem.mpr hm] at hB'unreach
          cases hB'unreach
        exact eraseAndCleanup_erases _ i htoDel

/-- Witness for C6 at `exampleUnreach`: its function has a reachable entry
block `0` and an orphan block `1`; the sweep reports a change, keeps exactly
block `0`, and deletes the orphan block's instruction. -/
theorem C6_witness :
    (removeUnreachableBlocks exampleUnreach 0).2 = true ∧
    ((funcBlocks (removeUnreachableBlocks exampleUnreach 0).1 0).map (·.id))
      = (([{ id := 0, nArgs := 0, instrs := [0] },
           { id := 1, nArgs := 0, instrs := [1] }] : List Block).map (·.id)).filter
          (fun i => (reachLoop exampleUnreach [0] [0]).contains i) ∧
    (∀ B ∈ ([{ id := 0, nArgs := 0, instrs := [0] },
             { id := 1, nArgs := 0, instrs := [1] }] : List Block),
      ¬ ReachesB exampleUnreach 0 B.id →
      ∀ i ∈ B.instrs, findInst (removeUnreachableBlocks exampleUnreach 0).1 i = none) := by
  have hRval : reachLoop exampleUnreach [0] [0] = [0] := by
    rw [reachLoop_nil_step (by decide), reachLoop]
  have h6 := C6_reachability_sweep_correct exampleUnreach 0 (by decide)
  have h62 := h6.2.2
    { blocks := [{ id := 0, nArgs := 0, instrs := [0] },
                 { id := 1, nArgs := 0, instrs := [1] }] }
    { id := 0, nArgs := 0, instrs := [0] } (by decide) (by decide)
  have h63 := (h62.2 (by decide)).2
  exact h63 ⟨{ id := 1, nArgs := 0, instrs := [1] }, by decide, fun hr => by
    have hc := (h62.1 1).mpr hr
    rw [hRval] at hc
    exact absurd hc (by decide)⟩

/-- C10 — the sweep never removes the entry block: the entry block's id is
seeded into the reachable set before the traversal, so on every non-empty
function the function stays non-empty and its first block is still the block
with the entry block's identity. -/
theorem C10_entry_block_never_removed (M : Module) (fIdx : Nat) (F : Func) (entry : Block)
    (hF : M.funcs.get? fIdx = some F) (hentry : F.blocks.head? = some entry) :
    ¬ funcBlocks (removeUnreachableBlocks M fIdx).1 fIdx = [] ∧
    (∃ B', (funcBlocks (removeUnreachableBlocks M fIdx).1 fIdx).head? = some B' ∧
      B'.id = entry.id) := by
  have hfbM : funcBlocks M fIdx = F.blocks := by
    unfold funcBlocks
    rw [hF]
    rfl
  obtain ⟨tl, htl⟩ : ∃ tl, F.blocks = entry :: tl := by
    cases hfb2 : F.blocks with
    | nil => rw [hfb2] at hentry; cases hentry
    | cons a t =>
      rw [hfb2] at hentry
      have hae : a = entry := by simpa using hentry
      subst hae
      exact ⟨t, rfl⟩
  by_cases hlen : (reachLoop M [entry.id] [entry.id]).length = F.blocks.length
  · rw [removeUnreachableBlocks_nochange hF hentry hlen]
    constructor
    · show ¬ funcBlocks M fIdx = []
      rw [hfbM, htl]
      simp
    · refine ⟨entry, ?_, rfl⟩
      show (funcBlocks M fIdx).head? = some entry
      rw [hfbM]
      exact hentry
  · rw [removeUnreachableBlocks_changed hF hentry hlen]
    have hFR : FilterRel M
        (sweepStep2 M fIdx (reachLoop M [entry.id] [entry.id]) F.blocks) :=
      FilterRel_trans
        (FilterRel_termEraseFold
          (F.blocks.filter (fun B => ¬ (reachLoop M [entry.id] [entry.id]).contains B.id)) M)
        (FilterRel_eraseAndCleanup _ _)
    have hlenfuncs : fIdx <
        (sweepStep2 M fIdx (reachLoop M [entry.id] [entry.id]) F.blocks).funcs.length := by
      have h1 := hFR.2.1
      have h2 : ¬ M.funcs.length ≤ fIdx := by
        intro hge
        rw [List.get?_len_le hge] at hF
        cases hF
      omega
    rw [funcBlocks_sweepChanged M fIdx _ F.blocks hlenfuncs]
    obtain ⟨_, _, p, hdead, hfb⟩ := hFR
    rw [hfb fIdx, hfbM, htl, List.map_cons]
    have hentryR : (reachLoop M [entry.id] [entry.id]).contains entry.id = true :=
      contains_iff_mem.mpr (entry_mem_reachLoop M entry.id)
    rw [List.filter_cons_of_pos (by exact hentryR)]
    constructor
    · simp
    · exact ⟨{ entry with instrs := entry.instrs.filter p }, rfl, rfl⟩

/-- Witness for C10 at `exampleUnreach`: after the sweep (which removes the
orphan block `1`) the function is still non-empty and its first block is
still the entry block `0`. -/
theorem C10_witness :
    ¬ funcBlocks (removeUnreachableBlocks exampleUnreach 0).1 0 = [] ∧
    (∃ B', (funcBlocks (removeUnreachableBlocks exampleUnreach 0).1 0).head? = some B' ∧
      B'.id = 0) :=
  C10_entry_block_never_removed exampleUnreach 0
    { blocks := [{ id := 0, nArgs := 0, instrs := [0] },
                 { id := 1, nArgs := 0, instrs := [1] }] }
    { id := 0, nArgs := 0, instrs := [0] } (by decide) (by decide)

end DCE
